import Mathlib

/-!
# go-circle-of-friends: feed discovery, friends pages, roster, sinks and export

A shallow embedding of the Go packages `feeds`, `friends`, `aggregate`, `store`, `export`,
`rules`, `config` and `fetch` (with the parts of `model` they use), followed by theorems
about them.

Conventions of the embedding.

* A Go `string` is a Lean `String`: the text is taken to be valid UTF-8, so that
  byte-level searches (`strings.Contains`, `HasPrefix`, `HasSuffix`, `Split`,
  `Index`) coincide with their code-point versions.
* `(T, error)` results are `Except String T`; the string is `err.Error()`.
* Network input is explicit: a `fetch.Client` carries a `Transport` that gives, for each
  URL and attempt, the outcome of the request; the answer depends on the URL and the
  attempt number only.  `DiscoverFeed` also returns the URLs it requested, in order.
* Third-party parsers (`x/net/html` behind goquery, gofeed) are not re-implemented:
  a response carries, next to its raw body, the element tree and the feed items
  those libraries produce for it.  The CSS selector engine and the standard
  library's `net/url` are parameters of the functions that call them; a small
  selector engine and a model of `net/url` serve the evaluations at concrete inputs.
* Go maps are insertion-ordered association lists; Go leaves the iteration order
  of a map unspecified, so theorems about slices built by ranging over a map only
  state order-independent facts.
* `time.Time` is an integer, a number of seconds (the instant), and `time.Now()` a
  parameter.  Where the location of a time value matters, which is where the database
  driver turns it into text, it is read through a parameter `zone`.
* The SQLite database is its two tables, as lists of rows with pairwise distinct links;
  statements do not fail.  The driver stores a time value as the text of its `String`
  method, and `ORDER BY created` and `created < datetime(...)` compare these texts
  (`gotime`, `sqlite`, `store.createdText`).
* `sort.Slice` and `ORDER BY` are an insertion sort.  Go and SQLite leave the order of
  ties open; the theorems state of a sorted result that it is sorted and a rearrangement
  of the input, which holds whatever the order of ties.
* The goroutines of `Run` are a transition system (`aggregate.Pool`): a state records
  where each goroutine stands, an event is one statement of one goroutine, and a
  statement that Go would block is not enabled.
* Logging (`logx`) has no effect on any result and is left out.
-/

set_option autoImplicit false

/-! ## Go's `strings` and `unicode` helpers -/

namespace strings

/-- Go `unicode.IsSpace`: the Unicode White_Space code points. -/
def isSpace (c : Char) : Bool :=
  let n := c.toNat
  (9 ≤ n && n ≤ 13) || n == 0x20 || n == 0x85 || n == 0xA0 || n == 0x1680 ||
  (0x2000 ≤ n && n ≤ 0x200A) || n == 0x2028 || n == 0x2029 || n == 0x202F ||
  n == 0x205F || n == 0x3000

/-- Go `unicode.ToLower` as far as the callers can observe it: every lowered string is
only searched for ASCII patterns or compared with `""`, so what matters is which code
points become ASCII letters.  Those are `A`..`Z` and the two code points whose simple
lower-case mapping is ASCII: U+0130 (to `i`) and U+212A (to `k`).  Other code points
are left as they are. -/
def lowerRune (c : Char) : Char :=
  if c.toNat = 0x130 then 'i' else if c.toNat = 0x212A then 'k' else c.toLower

/-- Go `strings.ToLower` (and `bytes.ToLower`). -/
def ToLower (s : String) : String := ⟨s.data.map lowerRune⟩

/-- Substring search on code-point lists. -/
def containsL (pat : List Char) : List Char → Bool
  | [] => pat.isPrefixOf []
  | c :: t => pat.isPrefixOf (c :: t) || containsL pat t

/-- Go `strings.Contains` (and `bytes.Contains`). -/
def Contains (s substr : String) : Bool := containsL substr.data s.data

/-- Go `strings.HasPrefix`. -/
def HasPrefix (s pre : String) : Bool := pre.data.isPrefixOf s.data

/-- Go `strings.HasSuffix`. -/
def HasSuffix (s suf : String) : Bool := suf.data.reverse.isPrefixOf s.data.reverse

/-- Go `strings.TrimPrefix`. -/
def TrimPrefix (s pre : String) : String :=
  if HasPrefix s pre then ⟨s.data.drop pre.data.length⟩ else s

/-- Trailing white space removed. -/
def trimRightL (l : List Char) : List Char := (l.reverse.dropWhile isSpace).reverse

/-- Go `strings.TrimSpace`. -/
def TrimSpace (s : String) : String := ⟨trimRightL (s.data.dropWhile isSpace)⟩

/-- Go `strings.Index(s, string(c))` for a single character `c`: the position of its first
occurrence, `none` standing for Go's `-1`. -/
def indexL (c : Char) : List Char → Option Nat
  | [] => none
  | d :: t => if d = c then some 0 else (indexL c t).map (· + 1)

/-- Splitting at the non-overlapping occurrences of `sep`, leftmost first.  The counter
is the number of characters of a matched separator that remain to be skipped. -/
def splitL (sep : List Char) : List Char → Nat → List (List Char)
  | [], _ => [[]]
  | _ :: rest, skip + 1 => splitL sep rest skip
  | c :: rest, 0 =>
    if sep.isPrefixOf (c :: rest) then [] :: splitL sep rest (sep.length - 1)
    else
      match splitL sep rest 0 with
      | [] => [[c]]
      | p :: ps => (c :: p) :: ps

/-- Go `strings.Split(s, sep)`; an empty separator splits after every code point. -/
def Split (s sep : String) : List String :=
  if sep.data = [] then s.data.map fun c => ⟨[c]⟩
  else (splitL sep.data s.data 0).map fun p => ⟨p⟩

/-- Appending a character to the last part of a split. -/
def snocLast (c : Char) : List (List Char) → List (List Char)
  | [] => []
  | [p] => [p ++ [c]]
  | p :: q :: ps => p :: snocLast c (q :: ps)

/-- Go `strings.Join`. -/
def Join : List String → String → String
  | [], _ => ""
  | [e], _ => e
  | e :: es, sep => e ++ sep ++ Join es sep

/-- Lexicographic order on code-point lists. -/
def lessL : List Char → List Char → Bool
  | _, [] => false
  | [], _ :: _ => true
  | a :: as, b :: bs => decide (a < b) || (decide (a = b) && lessL as bs)

/-- Go `s < t` on strings.  The byte order of UTF-8 text is its code-point order. -/
def Less (s t : String) : Bool := lessL s.data t.data

end strings

/-! ## Go's `sort` -/

namespace sort

/-- Go `sort.Slice(x, less)`: a permutation of `x` in which no element is `less` than an
element before it.  The library promises no more (the sort is not stable); the model is
insertion sort, which keeps equal elements in their order. -/
def Slice {α : Type} (less : α → α → Bool) (x : List α) : List α :=
  x.insertionSort fun a b => less b a = false

end sort

/-! ## The standard library's `net/url`, as far as the program sees it -/

namespace url

/-- Go `url.Userinfo`. -/
structure Userinfo where
  username : String
  password : String
  passwordSet : Bool
deriving DecidableEq, Repr

/-- Go `url.URL`; `User = none` is the nil pointer. -/
structure URL where
  Scheme : String
  Opaque : String
  User : Option Userinfo
  Host : String
  Path : String
  RawPath : String
  OmitHost : Bool
  ForceQuery : Bool
  RawQuery : String
  Fragment : String
  RawFragment : String
deriving DecidableEq, Repr

/-- The three `net/url` operations the program calls.  They are a parameter of every
function that resolves URLs, so that what is proved about those functions does not
depend on how faithfully the library is modelled. -/
structure Lib where
  /-- Go `url.Parse`; `none` when it reports an error. -/
  Parse : String → Option URL
  /-- Go `(*URL).ResolveReference`: receiver first, reference second. -/
  ResolveReference : URL → URL → URL
  /-- Go `(*URL).String`. -/
  String : URL → String

/-! ### A model of `net/url`

`Parse`, `String` and `ResolveReference` after the Go sources, for the concrete
evaluations below.  One simplification: percent-escapes are checked but not decoded, so
`Path`, `Host` and `Fragment` hold the text as written.  The model is meant for URL text
without `%` and without a bracketed IP-literal host. -/

/-- The components of `url.URL` that an escaping mode selects. -/
inductive Encoding where
  | encodePath
  | encodeHost
  | encodeUserPassword
  | encodeFragment
deriving DecidableEq, Repr

/-- The zero `url.URL`. -/
def zero : URL :=
  { Scheme := "", Opaque := "", User := none, Host := "", Path := "", RawPath := "",
    OmitHost := false, ForceQuery := false, RawQuery := "", Fragment := "",
    RawFragment := "" }

/-- ASCII letter or digit. -/
def isAlnum (c : Char) : Bool :=
  ('a' ≤ c && c ≤ 'z') || ('A' ≤ c && c ≤ 'Z') || ('0' ≤ c && c ≤ '9')

/-- Go `url.ishex`. -/
def ishex (c : Char) : Bool :=
  ('0' ≤ c && c ≤ '9') || ('a' ≤ c && c ≤ 'f') || ('A' ≤ c && c ≤ 'F')

/-- Go `url.shouldEscape` on an ASCII character. -/
def shouldEscape (c : Char) (mode : Encoding) : Bool :=
  if isAlnum c then false
  else if mode = .encodeHost ∧ c ∈ ['!', '$', '&', '\'', '(', ')', '*', '+', ',', ';', '=', ':',
      '[', ']', '<', '>', '"'] then false
  else if c ∈ ['-', '_', '.', '~'] then false
  else if c ∈ ['$', '&', '+', ',', '/', ':', ';', '=', '?', '@'] ∧ mode = .encodePath then
    c = '?'
  else if c ∈ ['$', '&', '+', ',', '/', ':', ';', '=', '?', '@'] ∧
      mode = .encodeUserPassword then
    c = '@' || c = '/' || c = '?' || c = ':'
  else if c ∈ ['$', '&', '+', ',', '/', ':', ';', '=', '?', '@'] ∧ mode = .encodeFragment then
    false
  else if mode = .encodeFragment ∧ c ∈ ['!', '(', ')', '*'] then false
  else true

/-- The UTF-8 bytes of a code point. -/
def utf8Bytes (c : Char) : List Nat :=
  let n := c.toNat
  if n < 0x80 then [n]
  else if n < 0x800 then [0xC0 + n / 64, 0x80 + n % 64]
  else if n < 0x10000 then [0xE0 + n / 4096, 0x80 + n / 64 % 64, 0x80 + n % 64]
  else [0xF0 + n / 262144, 0x80 + n / 4096 % 64, 0x80 + n / 64 % 64, 0x80 + n % 64]

/-- The upper-case hexadecimal digit of a number below 16. -/
def hexDigit (n : Nat) : Char :=
  if n < 10 then Char.ofNat (48 + n) else Char.ofNat (55 + n)

/-- The escape `%XX` of a byte. -/
def pctByte (b : Nat) : List Char := ['%', hexDigit (b / 16), hexDigit (b % 16)]

/-- Go `url.escape`. -/
def escape (s : String) (mode : Encoding) : String :=
  ⟨s.data.flatMap fun c =>
    if c.toNat < 0x80 then (if shouldEscape c mode then pctByte c.toNat else [c])
    else (utf8Bytes c).flatMap pctByte⟩

/-- Go `url.validEncoded`. -/
def validEncoded (s : String) (mode : Encoding) : Bool :=
  s.data.all fun c =>
    if c ∈ ['!', '$', '&', '\'', '(', ')', '*', '+', ',', ';', '=', ':', '@', '[', ']', '%']
    then true
    else c.toNat < 0x80 && !shouldEscape c mode

/-- The checks of Go `url.unescape`: every `%` starts a well-formed escape and, in a host,
no ASCII character is escaped or in need of escaping. -/
def unescapeOK (mode : Encoding) : List Char → Bool
  | [] => true
  | '%' :: rest =>
    match rest with
    | a :: b :: rest' =>
      ishex a && ishex b &&
        !(mode = .encodeHost && a.toNat < 56 && !(a = '2' && b = '5')) &&
        unescapeOK mode rest'
    | _ => false
  | c :: rest =>
    !(mode = .encodeHost && c.toNat < 0x80 && shouldEscape c .encodeHost) && unescapeOK mode rest

/-- Go `url.unescape`, escapes kept as written; `none` is an error. -/
def unescape (s : String) (mode : Encoding) : Option String :=
  if unescapeOK mode s.data then some s else none

/-- Go `strings.Cut(s, string(c))`: the text before and after the first `c`. -/
def cutL (c : Char) : List Char → Option (List Char × List Char)
  | [] => none
  | d :: t =>
    if d = c then some ([], t)
    else
      match cutL c t with
      | none => none
      | some (a, b) => some (d :: a, b)

/-- Go `strings.LastIndex(s, string(c))`; `none` is `-1`. -/
def lastIndexL (c : Char) : List Char → Option Nat
  | [] => none
  | d :: t =>
    match lastIndexL c t with
    | some i => some (i + 1)
    | none => if d = c then some 0 else none

/-- Go `url.getScheme`: scheme and rest; `none` is the error `missing protocol scheme`. -/
def getScheme (raw : List Char) : List Char → Nat → Option (List Char × List Char)
  | [], _ => some ([], raw)
  | c :: rest, i =>
    if ('a' ≤ c && c ≤ 'z') || ('A' ≤ c && c ≤ 'Z') then getScheme raw rest (i + 1)
    else if ('0' ≤ c && c ≤ '9') || c = '+' || c = '-' || c = '.' then
      if i = 0 then some ([], raw) else getScheme raw rest (i + 1)
    else if c = ':' then
      if i = 0 then none else some (raw.take i, rest)
    else some ([], raw)

/-- Go `url.validOptionalPort`. -/
def validOptionalPort (port : List Char) : Bool :=
  match port with
  | [] => true
  | c :: ds => c = ':' && ds.all fun d => '0' ≤ d && d ≤ '9'

/-- Go `url.validUserinfo`. -/
def validUserinfo (s : List Char) : Bool :=
  s.all fun r => isAlnum r ||
    r ∈ ['-', '.', '_', ':', '~', '!', '$', '&', '\'', '(', ')', '*', '+', ',', ';', '=', '%', '@']

/-- Go `url.parseHost` for a host that is not a bracketed IP literal. -/
def parseHost (host : List Char) : Option String :=
  if (match lastIndexL ':' host with
      | some i => validOptionalPort (host.drop i)
      | none => true) then unescape ⟨host⟩ .encodeHost
  else none

/-- Go `url.parseAuthority`. -/
def parseAuthority (authority : List Char) : Option (Option Userinfo × String) :=
  match lastIndexL '@' authority with
  | none => (parseHost authority).map fun h => (none, h)
  | some i =>
    match parseHost (authority.drop (i + 1)) with
    | none => none
    | some host =>
      let userinfo := authority.take i
      if !validUserinfo userinfo then none
      else
        match cutL ':' userinfo with
        | none =>
          (unescape ⟨userinfo⟩ .encodeUserPassword).map fun u =>
            (some { username := u, password := "", passwordSet := false }, host)
        | some (name, pw) =>
          match unescape ⟨name⟩ .encodeUserPassword, unescape ⟨pw⟩ .encodeUserPassword with
          | some n, some p => some (some { username := n, password := p, passwordSet := true }, host)
          | _, _ => none

/-- Go `(*URL).setPath`; `none` is an error. -/
def setPath (u : URL) (p : String) : Option URL :=
  match unescape p .encodePath with
  | none => none
  | some path =>
    some { u with Path := path, RawPath := if escape path .encodePath = p then "" else p }

/-- Go `(*URL).setFragment`; `none` is an error. -/
def setFragment (u : URL) (f : String) : Option URL :=
  match unescape f .encodeFragment with
  | none => none
  | some frag =>
    some { u with Fragment := frag,
                  RawFragment := if escape frag .encodeFragment = f then "" else f }

/-- Go `url.parse(rawURL, false)`: a URL without fragment. -/
def parseNoFragment (rawURL : String) : Option URL :=
  if rawURL.data.any (fun c => c.toNat < 0x20 || c.toNat = 0x7f) then none
  else if rawURL = "*" then some { zero with Path := "*" }
  else
    match getScheme rawURL.data rawURL.data 0 with
    | none => none
    | some (scheme, rest) =>
      let u := { zero with Scheme := strings.ToLower ⟨scheme⟩ }
      let q := cutL '?' rest
      let force := q = some (rest.take (rest.length - 1), [])
      let u := { u with ForceQuery := force,
                        RawQuery := if force then "" else ⟨(q.map fun p => p.2).getD []⟩ }
      let rest := (q.map fun p => p.1).getD rest
      if rest.head? ≠ some '/' ∧ u.Scheme ≠ "" then some { u with Opaque := ⟨rest⟩ }
      else if rest.head? ≠ some '/' ∧ ':' ∈ ((cutL '/' rest).map fun p => p.1).getD rest then none
      else if (u.Scheme ≠ "" ∨ rest.take 3 ≠ ['/', '/', '/']) ∧ rest.take 2 = ['/', '/'] then
        let afterSlashes := rest.drop 2
        let authority := ((cutL '/' afterSlashes).map fun p => p.1).getD afterSlashes
        match parseAuthority authority with
        | none => none
        | some (user, host) =>
          setPath { u with User := user, Host := host } ⟨afterSlashes.drop authority.length⟩
      else if u.Scheme ≠ "" ∧ rest.head? = some '/' then setPath { u with OmitHost := true } ⟨rest⟩
      else setPath u ⟨rest⟩

/-- Go `url.Parse`; `none` is an error. -/
def Parse (rawURL : String) : Option URL :=
  match cutL '#' rawURL.data with
  | none => parseNoFragment rawURL
  | some (u, frag) =>
    match parseNoFragment ⟨u⟩ with
    | none => none
    | some parsed => if frag = [] then some parsed else setFragment parsed ⟨frag⟩

/-- Go `(*URL).EscapedPath`. -/
def EscapedPath (u : URL) : String :=
  if u.RawPath ≠ "" ∧ validEncoded u.RawPath .encodePath ∧
      unescape u.RawPath .encodePath = some u.Path then u.RawPath
  else if u.Path = "*" then "*"
  else escape u.Path .encodePath

/-- Go `(*URL).EscapedFragment`. -/
def EscapedFragment (u : URL) : String :=
  if u.RawFragment ≠ "" ∧ validEncoded u.RawFragment .encodeFragment ∧
      unescape u.RawFragment .encodeFragment = some u.Fragment then u.RawFragment
  else escape u.Fragment .encodeFragment

/-- Go `(*Userinfo).String`. -/
def Userinfo.String (ui : Userinfo) : String :=
  escape ui.username .encodeUserPassword ++
    (if ui.passwordSet then ":" ++ escape ui.password .encodeUserPassword else "")

/-- Go `(*URL).String`. -/
def URL.String (u : URL) : String :=
  let scheme := if u.Scheme ≠ "" then u.Scheme ++ ":" else ""
  let body :=
    if u.Opaque ≠ "" then scheme ++ u.Opaque
    else
      let auth :=
        if u.Scheme ≠ "" ∨ u.Host ≠ "" ∨ u.User ≠ none then
          if u.OmitHost ∧ u.Host = "" ∧ u.User = none then ""
          else
            (if u.Host ≠ "" ∨ u.Path ≠ "" ∨ u.User ≠ none then "//" else "") ++
            (match u.User with
             | some ui => ui.String ++ "@"
             | none => "") ++
            (if u.Host ≠ "" then escape u.Host .encodeHost else "")
        else ""
      let path := EscapedPath u
      let buf := scheme ++ auth ++
        (if path ≠ "" ∧ path.data.head? ≠ some '/' ∧ u.Host ≠ "" then "/" else "")
      let buf :=
        if buf = "" ∧ ':' ∈ ((cutL '/' path.data).map fun p => p.1).getD path.data then "./"
        else buf
      buf ++ path
  body ++ (if u.ForceQuery ∨ u.RawQuery ≠ "" then "?" ++ u.RawQuery else "") ++
    (if u.Fragment ≠ "" then "#" ++ EscapedFragment u else "")

/-- The segment loop of Go `url.resolvePath`: `dst` is the builder, `first` its flag. -/
def resolveSegments : List (List Char) → List Char → Bool → List Char
  | [], dst, _ => dst
  | seg :: rest, dst, first =>
    if seg = ['.'] then resolveSegments rest dst false
    else if seg = ['.', '.'] then
      let str := dst.drop 1
      match lastIndexL '/' str with
      | none => resolveSegments rest ['/'] true
      | some i => resolveSegments rest ('/' :: str.take i) first
    else resolveSegments rest ((if first then dst else dst ++ ['/']) ++ seg) false

/-- Go `url.resolvePath`. -/
def resolvePath (base ref : String) : String :=
  let full : List Char :=
    if ref = "" then base.data
    else if ref.data.head? ≠ some '/' then
      base.data.take (((lastIndexL '/' base.data).map fun i => i + 1).getD 0) ++ ref.data
    else ref.data
  if full = [] then ""
  else
    let segs := strings.splitL ['/'] full 0
    let dst := resolveSegments segs ['/'] true
    let dst := if segs.getLast? = some ['.'] ∨ segs.getLast? = some ['.', '.'] then dst ++ ['/']
               else dst
    if (dst.drop 1).head? = some '/' then ⟨dst.drop 1⟩ else ⟨dst⟩

/-- Go `(*URL).ResolveReference`; an error of `setPath` is ignored, as in the source. -/
def URL.ResolveReference (u ref : URL) : URL :=
  let r := if ref.Scheme = "" then { ref with Scheme := u.Scheme } else ref
  if ref.Scheme ≠ "" ∨ ref.Host ≠ "" ∨ ref.User ≠ none then
    (setPath r (resolvePath (EscapedPath ref) "")).getD r
  else if ref.Opaque ≠ "" then { r with User := none, Host := "", Path := "" }
  else
    let r :=
      if ref.Path = "" ∧ ¬ ref.ForceQuery ∧ ref.RawQuery = "" then
        let r := { r with RawQuery := u.RawQuery }
        if ref.Fragment = "" then { r with Fragment := u.Fragment, RawFragment := u.RawFragment }
        else r
      else r
    if ref.Path = "" ∧ u.Opaque ≠ "" then
      { r with Opaque := u.Opaque, User := none, Host := "", Path := "" }
    else
      let r := { r with Host := u.Host, User := u.User }
      (setPath r (resolvePath (EscapedPath u) (EscapedPath ref))).getD r

/-- The model of `net/url` as a library instance. -/
def std : Lib :=
  { Parse := Parse, ResolveReference := URL.ResolveReference, String := URL.String }

end url

/-! ## goquery: the element tree of a parsed page -/

namespace goquery

/-- A node of the tree `x/net/html` builds: a text node or an element with its attributes
(in source order) and children. -/
inductive Node where
  | text (data : String)
  | elem (tag : String) (attrs : List (String × String)) (children : List Node)

/-- A goquery `*Selection`: the selected nodes in document order. -/
abbrev Selection := List Node

/-- The CSS selector engine behind `Selection.Find`, restricted to a one-node
selection: selector text and scope node to the matching descendants in document order
(an invalid selector matches nothing). -/
abbrev Engine := String → Node → List Node

mutual
/-- Text content of a node: its own data for a text node, else that of its children. -/
def nodeText : Node → List Char
  | .text d => d.data
  | .elem _ _ cs => nodesText cs
/-- Concatenated text content of a list of nodes. -/
def nodesText : List Node → List Char
  | [] => []
  | n :: ns => nodeText n ++ nodesText ns
end

/-- Attribute lookup on a node: the value of the first attribute with that key. -/
def nodeAttr (name : String) : Node → Option String
  | .text _ => none
  | .elem _ attrs _ => (attrs.find? fun kv => kv.1 = name).map fun kv => kv.2

/-- Go `(*Selection).First`. -/
def First (s : Selection) : Selection := s.take 1

/-- Go `(*Selection).Text`: the combined text of the selected nodes. -/
def Text (s : Selection) : String := ⟨nodesText s⟩

/-- Go `(*Selection).Attr`, first component: the attribute of the first selected node,
`""` when the selection is empty or the attribute is missing. -/
def Attr (s : Selection) (name : String) : String :=
  match s with
  | [] => ""
  | n :: _ => (nodeAttr name n).getD ""

/-! ### A small selector engine

Type selectors (`link`, `a`) and class selectors (`.it`), the two forms the repository's
tests use; every other selector matches nothing.  It serves the concrete evaluations. -/

mutual
/-- The proper descendants of a node in document order. -/
def descendants : Node → List Node
  | .text _ => []
  | .elem _ _ cs => descendantsOfList cs
/-- The nodes of a list with their descendants, in document order. -/
def descendantsOfList : List Node → List Node
  | [] => []
  | n :: ns => n :: (descendants n ++ descendantsOfList ns)
end

/-- The white-space separated words of a text; `cur` is the word being read, reversed. -/
def fieldsL : List Char → List Char → List (List Char)
  | [], cur => if cur = [] then [] else [cur.reverse]
  | c :: t, cur =>
    if strings.isSpace c then (if cur = [] then fieldsL t [] else cur.reverse :: fieldsL t [])
    else fieldsL t (c :: cur)

/-- Whether an element matches a type selector or a class selector. -/
def matchesSimple (sel : String) : Node → Bool
  | .text _ => false
  | .elem tag attrs _ =>
    match sel.data with
    | [] => false
    | '.' :: cls =>
      cls ≠ [] && (fieldsL (((attrs.find? fun kv => kv.1 = "class").map
        fun kv => kv.2.data).getD []) []).contains cls
    | _ => sel = tag

/-- The small selector engine. -/
def simpleFind : Engine := fun sel scope => (descendants scope).filter (matchesSimple sel)

end goquery

/-! ## gofeed: the items of a parsed feed -/

/-- Instants (`time.Time`), counted in seconds from the zero value `time.Time{}`, which
is `0`. -/
abbrev Time := Int

namespace gofeed

/-- Go `gofeed.Person`. -/
structure Person where
  Name : String
  Email : String

/-- Go `gofeed.Item`, the fields `ParseFeed` reads. -/
structure Item where
  Title : String
  Link : String
  Author : Option Person
  UpdatedParsed : Option Time
  PublishedParsed : Option Time

end gofeed

/-! ## Package `fetch` -/

namespace fetch

/-- A 2xx response as the callers read it: the `Content-Type` header (`""` when absent),
the body, and what the two parsers make of that body. -/
structure Response where
  contentType : String
  body : String
  /-- The tree `goquery.NewDocumentFromReader` yields for the body. -/
  html : goquery.Node
  /-- The result of `gofeed.Parser.Parse` on the body. -/
  feed : Except String (List gofeed.Item)

/-- Outcome of one `c.http.Do(req)`. -/
inductive Attempt where
  | transportError (msg : String)
  | response (statusCode : Nat) (status : String) (resp : Response)

/-- An attempt that ends in a transport error or in a status outside 2xx. -/
def Attempt.failed : Attempt → Bool
  | .transportError _ => true
  | .response code _ _ => !(200 ≤ code && code < 300)

/-- The environment of a client: what happens to the requests it sends. -/
structure Transport where
  /-- The error of `http.NewRequestWithContext` for this URL, if any. -/
  newRequestErr : String → Option String
  /-- Outcome of the `i`-th attempt (from 0) of a `Get` of this URL. -/
  Do : String → Nat → Attempt
  /-- After the `i`-th failed attempt: `some e` when the context is done before the
  back-off delay elapses, `e` being `ctx.Err()`. -/
  ctxErr : String → Nat → Option String

/-- Go `fetch.Client`.  `retry` is a natural number: `main` passes `cfg.Concurrency.Retry`
after `config.Validate` has replaced a negative value, and the tests pass 0 or 1.  (With a
negative `Retry` the loop of `Get` would not run and it would return `nil, nil`: see
`GetRaw` below, which takes any `int`.) -/
structure Client where
  retry : Nat
  net : Transport

/-- The loop of `Client.Get`: `n` attempts left, `i` the index of the next one. -/
def getLoop (t : Transport) (url : String) : Nat → Nat → String → Except String Response
  | 0, _, lastErr => .error lastErr
  | n + 1, i, _ =>
    match t.newRequestErr url with
    | some e => .error ("new request: " ++ e)
    | none =>
      match t.Do url i with
      | .response code status resp =>
        if 200 ≤ code ∧ code < 300 then .ok resp
        else
          match t.ctxErr url i with
          | some e => .error e
          | none => getLoop t url n (i + 1) ("http status: " ++ status)
      | .transportError msg =>
        match t.ctxErr url i with
        | some e => .error e
        | none => getLoop t url n (i + 1) msg

/-- Go `(*Client).Get`: up to `retry + 1` attempts, the first 2xx response wins. -/
def Client.Get (c : Client) (url : String) : Except String Response :=
  getLoop c.net url (c.retry + 1) 0 ""

/-- Go `int` arithmetic on a 64-bit platform: the result of an operation is reduced to the
range from `-2^63` to `2^63 - 1`. -/
def intWrap (x : Int) : Int := (x + 2 ^ 63) % 2 ^ 64 - 2 ^ 63

/-- What a call of `Get` leaves behind: its two results (`none` is `nil`) and the number
of requests it has sent. -/
structure GetResult where
  resp : Option Response
  err : Option String
  calls : Nat

/-- The loop `for i := 0; i < attempts; i++` of `Get`, entered at index `i` with `n`
iterations left; `lastErr` is the variable of that name (`none` is `nil`). -/
def rawLoop (t : Transport) (url : String) : Nat → Nat → Option String → GetResult
  | 0, i, lastErr => { resp := none, err := lastErr, calls := i }
  | n + 1, i, _ =>
    match t.newRequestErr url with
    | some e => { resp := none, err := some ("new request: " ++ e), calls := i }
    | none =>
      match t.Do url i with
      | .response code status resp =>
        if 200 ≤ code ∧ code < 300 then { resp := some resp, err := none, calls := i + 1 }
        else
          match t.ctxErr url i with
          | some e => { resp := none, err := some e, calls := i + 1 }
          | none => rawLoop t url n (i + 1) (some ("http status: " ++ status))
      | .transportError msg =>
        match t.ctxErr url i with
        | some e => { resp := none, err := some e, calls := i + 1 }
        | none => rawLoop t url n (i + 1) (some msg)

/-- Go `(*Client).Get` for any value of the field `retry`, which `fetch.New` copies
unchecked from its options: `attempts := c.retry + 1` iterations of the loop, none when
that number is not positive. -/
def GetRaw (retry : Int) (t : Transport) (url : String) : GetResult :=
  rawLoop t url (intWrap (retry + 1)).toNat 0 none

end fetch

/-! ## Package `feeds` -/

namespace feeds

open strings

/-- The prefix of at most `n` bytes that `io.ReadAll(io.LimitReader(body, n))` returns.
A code point whose UTF-8 encoding straddles the limit is dropped: its partial bytes are
not valid UTF-8 and can take part in no match of an ASCII pattern. -/
def limitL : Nat → List Char → List Char
  | _, [] => []
  | n, c :: t => if c.utf8Size ≤ n then c :: limitL (n - c.utf8Size) t else []

/-- The length in bytes of the UTF-8 encoding of a text. -/
def byteLen (l : List Char) : Nat := (l.map Char.utf8Size).sum

/-- Go `io.ReadAll(io.LimitReader(r, n))` on a body held in memory. -/
def readLimited (body : String) (n : Nat) : String := ⟨limitL n body.data⟩

/-- Go `feeds.joinURL`: resolve `ref` against `base`. -/
def joinURL (L : url.Lib) (base ref : String) : String :=
  if HasPrefix ref "http" then ref
  else
    match L.Parse base with
    | none => base ++ ref
    | some u =>
      match L.Parse ref with
      | none => base ++ ref
      | some ru => L.String (L.ResolveReference u ru)

/-- Go `feeds.joinURLDir`: resolve `ref` against `base` taken as a directory. -/
def joinURLDir (L : url.Lib) (base ref : String) : String :=
  if HasPrefix ref "http" then ref
  else
    match L.Parse base with
    | none =>
      let b := if !HasSuffix base "/" then base ++ "/" else base
      b ++ TrimPrefix ref "/"
    | some u =>
      let u := if !HasSuffix u.Path "/" then { u with Path := u.Path ++ "/" } else u
      match L.Parse (TrimPrefix ref "/") with
      | none => L.String u ++ TrimPrefix ref "/"
      | some ru => L.String (L.ResolveReference u ru)

/-- The candidate list `DiscoverFeed` builds, in probing order. -/
def candidates (L : url.Lib) (site feedSuffix : String) : List String :=
  (if feedSuffix ≠ "" then [joinURL L site feedSuffix, joinURLDir L site feedSuffix] else []) ++
  [ joinURLDir L site "index.xml",
    joinURLDir L site "atom.xml",
    joinURLDir L site "rss.xml",
    joinURLDir L site "feed",
    joinURLDir L site "feed.xml" ] ++
  [ joinURL L site "/feed",
    joinURL L site "/feed/",
    joinURL L site "/feed.xml",
    joinURL L site "/index.xml",
    joinURL L site "/atom.xml",
    joinURL L site "/rss.xml",
    joinURL L site "/rss2.xml",
    joinURL L site "/rss.php",
    joinURL L site "/feed.php",
    joinURL L site "/rss",
    joinURL L site "/atom",
    joinURL L site "/index.rss",
    joinURL L site "/index.atom",
    joinURL L site "/?feed=rss2",
    joinURL L site "/?feed=atom",
    joinURL L site "/?feed=rss",
    joinURL L site "/feed/atom",
    joinURL L site "/posts/index.xml",
    joinURL L site "/blog/index.xml",
    joinURL L site "/index.json",
    joinURL L site "/feed.json",
    joinURL L site "/api/rss" ]

/-- Go `feeds.probeFeed`: one `Get`, then classification by `Content-Type` and by the first
2048 bytes of the body. -/
def probeFeed (cl : fetch.Client) (feedURL : String) : Bool :=
  match cl.Get feedURL with
  | .error _ => false
  | .ok resp =>
    let head := readLimited resp.body 2048
    let ct := ToLower resp.contentType
    if Contains ct "rss" || Contains ct "atom" || Contains ct "xml" then true
    else if Contains ct "json" || Contains ct "feed+json" then
      let lb := ToLower head
      if Contains lb "jsonfeed" || Contains lb "\"version\":\"https://jsonfeed.org/version" then
        true
      else false
    else
      let lb := ToLower head
      if Contains lb "<rss" || Contains lb "<feed" || Contains lb "<rdf" then true
      else if Contains lb "\"version\":\"https://jsonfeed.org/version" then true
      else false

/-- The candidate loop of `DiscoverFeed`: the first candidate that probes true, if any,
and the URLs requested on the way, in order. -/
def probeCandidates (cl : fetch.Client) : List String → Option String × List String
  | [] => (none, [])
  | u :: us =>
    if probeFeed cl u then (some u, [u])
    else ((probeCandidates cl us).1, u :: (probeCandidates cl us).2)

/-- The `EachWithBreak` callback of `DiscoverFeed` run over the `<link>` elements: the
value `found` holds when the iteration stops (`""` when no element sets it). -/
def pickLink (L : url.Lib) (site : String) : List goquery.Node → String
  | [] => ""
  | s :: rest =>
    let rel := goquery.Attr [s] "rel"
    let t := goquery.Attr [s] "type"
    let href := goquery.Attr [s] "href"
    let lt := ToLower t
    let lr := ToLower rel
    if Contains lr "alternate" &&
        (Contains lt "rss" || Contains lt "atom" || Contains lt "json") then
      joinURL L site href
    else if lt = "" &&
        (let lh := ToLower href
         HasSuffix lh ".xml" || HasSuffix lh ".rss" || HasSuffix lh ".atom" ||
           HasSuffix lh ".json") then
      joinURL L site href
    else pickLink L site rest

/-- The two stop conditions of the `EachWithBreak` callback of `DiscoverFeed`, read off one
`<link>` element: it declares a feed (`rel` contains `alternate` and `type` contains `rss`,
`atom` or `json`, both lower-cased), or it has no `type` and its lower-cased `href` ends in
`.xml`, `.rss`, `.atom` or `.json`. -/
def isFeedLink (s : goquery.Node) : Bool :=
  let rel := goquery.Attr [s] "rel"
  let t := goquery.Attr [s] "type"
  let href := goquery.Attr [s] "href"
  let lt := ToLower t
  let lr := ToLower rel
  (Contains lr "alternate" &&
      (Contains lt "rss" || Contains lt "atom" || Contains lt "json")) ||
    (lt = "" &&
      (let lh := ToLower href
       HasSuffix lh ".xml" || HasSuffix lh ".rss" || HasSuffix lh ".atom" ||
         HasSuffix lh ".json"))

/-- Go `feeds.DiscoverFeed`, returning next to its result the URLs it passed to `cl.Get`,
in order.  The page tree comes with the response, so the `parse html` error of the
source, which an in-memory reader cannot raise, has no counterpart. -/
def DiscoverFeed (L : url.Lib) (find : goquery.Engine) (cl : fetch.Client)
    (site feedSuffix : String) : Except String String × List String :=
  match probeCandidates cl (candidates L site feedSuffix) with
  | (some u, reqs) => (.ok u, reqs)
  | (none, reqs) =>
    match cl.Get site with
    | .error e => (.error ("GET site " ++ site ++ ": " ++ e), reqs ++ [site])
    | .ok resp =>
      let found := pickLink L site (find "link" resp.html)
      if found ≠ "" then
        if probeFeed cl found then (.ok found, reqs ++ [site, found])
        else (.error ("no feed discovered for " ++ site), reqs ++ [site, found])
      else (.error ("no feed discovered for " ++ site), reqs ++ [site])

/-- Go `feeds.Item`. -/
structure Item where
  Title : String
  Link : String
  Author : String
  Created : Time
  Updated : Time
deriving DecidableEq, Repr

/-- Go `feeds.pickTime`. -/
def pickTime (a b : Option Time) : Time :=
  match a with
  | some t => t
  | none =>
    match b with
    | some t => t
    | none => 0

/-- Go `feeds.authorName`. -/
def authorName (it : gofeed.Item) : String :=
  match it.Author with
  | some p => if p.Name ≠ "" then p.Name else if p.Email ≠ "" then p.Email else ""
  | none => ""

/-- Go `feeds.safe`. -/
def safe (s : String) : String := TrimSpace s

/-- The item loop of `ParseFeed`: `items` is the slice built so far. -/
def parseItems (max : Int) : List gofeed.Item → List Item → List Item
  | [], items => items
  | it :: rest, items =>
    let item : Item :=
      { Title := safe it.Title
        Link := safe it.Link
        Author := authorName it
        Updated := pickTime it.UpdatedParsed it.PublishedParsed
        Created := pickTime it.PublishedParsed it.UpdatedParsed }
    let items := items ++ [item]
    if max > 0 ∧ (items.length : Int) ≥ max then items else parseItems max rest items

/-- Go `feeds.ParseFeed`. -/
def ParseFeed (cl : fetch.Client) (feedURL : String) (max : Int) : Except String (List Item) :=
  match cl.Get feedURL with
  | .error e => .error ("GET feed " ++ feedURL ++ ": " ++ e)
  | .ok resp =>
    match resp.feed with
    | .error e => .error ("parse feed " ++ feedURL ++ ": " ++ e)
    | .ok feedItems => .ok (parseItems max feedItems [])

/-- The item `ParseFeed` builds from a parsed entry. -/
def itemOf (it : gofeed.Item) : Item :=
  { Title := safe it.Title
    Link := safe it.Link
    Author := authorName it
    Updated := pickTime it.UpdatedParsed it.PublishedParsed
    Created := pickTime it.PublishedParsed it.UpdatedParsed }

end feeds

/-! ## Packages `config`, `rules`, `model` -/

namespace config

/-- Go `config.LinkSource` (`Type_` is the field `Type`). -/
structure LinkSource where
  Type_ : String
  URL : String
  Theme : String
deriving DecidableEq, Repr

/-- Go `config.StaticFriend`. -/
structure StaticFriend where
  Name : String
  Link : String
  Avatar : String
  FeedSuffix : String
deriving DecidableEq, Repr

/-- Go `config.Database`. -/
structure Database where
  Type_ : String
  DSN : String
deriving DecidableEq, Repr

/-- Go `config.Concurrency`. -/
structure Concurrency where
  Fetch : Int
  Retry : Int
deriving DecidableEq, Repr

/-- Go `config.Proxy`. -/
structure Proxy where
  HTTP : String
  HTTPS : String
deriving DecidableEq, Repr

/-- Go `config.Config`. -/
structure Config where
  LinkSources : List LinkSource
  StaticFriends : List StaticFriend
  MaxPostsNum : Int
  OutdateCleanDays : Int
  SimpleMode : Bool
  ResetOnStart : Bool
  Database : Database
  Concurrency : Concurrency
  Proxy : Proxy
  LogLevel : String
  LogFormat : String
  LogLocale : String
  LogColor : String
deriving DecidableEq, Repr

/-- Go `(*Config).Validate`: the configuration after the call and the returned error. -/
def Validate (c : Config) : Config × Option String :=
  if c.MaxPostsNum < 0 then (c, some "MAX_POSTS_NUM must be >= 0")
  else if c.OutdateCleanDays < 0 then (c, some "OUTDATE_CLEAN must be >= 0")
  else
    let c := if c.Database.Type_ = "" then
        { c with Database := { c.Database with Type_ := "sqlite" } } else c
    if c.Database.Type_ ≠ "sqlite" then
      (c, some ("unsupported database type: " ++ c.Database.Type_))
    else
      let c := if c.Database.DSN = "" then
          { c with Database := { c.Database with DSN := "./data.db" } } else c
      let c := if c.Concurrency.Fetch ≤ 0 then
          { c with Concurrency := { c.Concurrency with Fetch := 8 } } else c
      let c := if c.Concurrency.Retry < 0 then
          { c with Concurrency := { c.Concurrency with Retry := 2 } } else c
      let c := if c.LogFormat = "" then { c with LogFormat := "pretty" } else c
      let c := if c.LogLocale = "" then { c with LogLocale := "zh-CN" } else c
      let c := if c.LogColor = "" then { c with LogColor := "auto" } else c
      (c, none)

end config

namespace rules

/-- Go `rules.FriendsPage`: the selector expressions of a friends page. -/
structure FriendsPage where
  Item : String
  Name : String
  Link : String
  Avatar : String
deriving DecidableEq, Repr

/-- Go `rules.Preset`; `none` is a nil `FriendsPage` pointer. -/
structure Preset where
  FriendsPage : Option FriendsPage
deriving DecidableEq, Repr

end rules

namespace model

/-- Go `model.Friend`. -/
structure Friend where
  Name : String
  Link : String
  Avatar : String
  Error : String
  CreatedAt : Time
deriving DecidableEq, Repr

/-- Go `model.Post`. -/
structure Post where
  Title : String
  Created : Time
  Updated : Time
  Link : String
  Author : String
  Avatar : String
  Rule : String
  CreatedAt : Time
deriving DecidableEq, Repr

/-- Go `model.Stats`. -/
structure Stats where
  FriendsTotal : Int
  FriendsAlive : Int
  FriendsError : Int
  PostsTotal : Int
  UpdatedAt : Time
deriving DecidableEq, Repr

/-- Go `model.Export`. -/
structure Export where
  Stats : Stats
  Friends : List Friend
  Posts : List Post
deriving DecidableEq, Repr

end model

/-! ## Package `friends` -/

namespace friends

open strings

/-- Go `friends.getValSingle`: one expression, text or attribute.  `First()` never returns
nil, so the two `return ""` after the `el != nil` tests of the source are not reached. -/
def getValSingle (find : goquery.Engine) (scope : goquery.Node) (expr : String) : String :=
  if expr = "" then ""
  else if expr = "." then TrimSpace (goquery.Text [scope])
  else
    match indexL '@' expr.data with
    | some i =>
      let sel := TrimSpace ⟨expr.data.take i⟩
      let attr := TrimSpace ⟨expr.data.drop (i + 1)⟩
      if sel = "" then TrimSpace (goquery.Attr [scope] attr)
      else TrimSpace (goquery.Attr (goquery.First (find sel scope)) attr)
    | none => TrimSpace (goquery.Text (goquery.First (find expr scope)))

/-- The first non-empty value of a list, `""` when every value is empty. -/
def firstNonEmpty : List String → String
  | [] => ""
  | v :: vs => if v ≠ "" then v else firstNonEmpty vs

/-- The `for _, p := range parts` loop of `getVal`. -/
def getValParts (find : goquery.Engine) (scope : goquery.Node) : List String → String
  | [] => ""
  | p :: ps =>
    let v := getValSingle find scope (TrimSpace p)
    if v ≠ "" then v else getValParts find scope ps

/-- Go `friends.getVal`: an expression with `||` fallbacks. -/
def getVal (find : goquery.Engine) (scope : goquery.Node) (expr : String) : String :=
  let expr := TrimSpace expr
  if expr = "" then ""
  else if Contains expr "||" then getValParts find scope (Split expr "||")
  else getValSingle find scope expr

/-- Go `friends.abs`: make a link absolute against the page URL. -/
def abs (L : url.Lib) (base ref : String) : String :=
  let ref := TrimSpace ref
  if ref = "" then ""
  else if HasPrefix ref "http://" || HasPrefix ref "https://" then ref
  else
    match L.Parse base with
    | none => ref
    | some bu =>
      match L.Parse ref with
      | none => ref
      | some ru => L.String (L.ResolveReference bu ru)

/-- What one matched item yields: the trimmed name, and the link and avatar made absolute
against the page URL. -/
def friendOfItem (L : url.Lib) (find : goquery.Engine) (pageURL : String)
    (fp : rules.FriendsPage) (s : goquery.Node) : config.StaticFriend :=
  { Name := TrimSpace (getVal find s fp.Name)
    Link := abs L pageURL (getVal find s fp.Link)
    Avatar := abs L pageURL (getVal find s fp.Avatar)
    FeedSuffix := "" }

/-- The `Each` callback of `ParseFriendsPage` run over the matched items: `out` is the
slice built so far. -/
def collectFriends (L : url.Lib) (find : goquery.Engine) (pageURL : String)
    (fp : rules.FriendsPage) : List goquery.Node → List config.StaticFriend →
    List config.StaticFriend
  | [], out => out
  | s :: rest, out =>
    let name := getVal find s fp.Name
    let link := abs L pageURL (getVal find s fp.Link)
    let avatar := abs L pageURL (getVal find s fp.Avatar)
    let name := TrimSpace name
    if name = "" ∧ link = "" then collectFriends L find pageURL fp rest out
    else
      collectFriends L find pageURL fp rest
        (out ++ [{ Name := name, Link := link, Avatar := avatar, FeedSuffix := "" }])

/-- Go `friends.ParseFriendsPage`.  As in `DiscoverFeed` the page tree comes with the
response. -/
def ParseFriendsPage (L : url.Lib) (find : goquery.Engine) (cl : fetch.Client)
    (pageURL : String) (preset : rules.Preset) : Except String (List config.StaticFriend) :=
  match preset.FriendsPage with
  | none => .ok []
  | some fp =>
    match cl.Get pageURL with
    | .error e => .error ("GET friends page " ++ pageURL ++ ": " ++ e)
    | .ok resp => .ok (collectFriends L find pageURL fp (find fp.Item resp.html) [])

/-- The four forms of a single expression in the grammar of the extraction language. -/
inductive Form where
  | textOfScope
  | textOfSelector (sel : String)
  | attrOfScope (attr : String)
  | attrOfSelector (sel attr : String)
deriving DecidableEq, Repr

/-- Reading a single expression by the grammar: `.` is the text of the scope; an
expression without `@` is a selector whose first match gives the text; with `@`, the text
before the first `@` is the selector and the text after it the attribute name, both
trimmed, an empty selector standing for the scope itself.  The empty expression has no
form. -/
def Form.read (expr : String) : Option Form :=
  if expr = "" then none
  else if expr = "." then some .textOfScope
  else
    match indexL '@' expr.data with
    | none => some (.textOfSelector expr)
    | some i =>
      if TrimSpace ⟨expr.data.take i⟩ = "" then
        some (.attrOfScope (TrimSpace ⟨expr.data.drop (i + 1)⟩))
      else
        some (.attrOfSelector (TrimSpace ⟨expr.data.take i⟩)
          (TrimSpace ⟨expr.data.drop (i + 1)⟩))

/-- The value of a form on a scope, by the grammar: trimmed text of the scope or of the
first match, named attribute of the scope or of the first match; empty when nothing
matches or the attribute is missing. -/
def Form.eval (find : goquery.Engine) (scope : goquery.Node) : Form → String
  | .textOfScope => TrimSpace (goquery.Text [scope])
  | .textOfSelector sel =>
    match find sel scope with
    | [] => ""
    | n :: _ => TrimSpace (goquery.Text [n])
  | .attrOfScope attr => TrimSpace ((goquery.nodeAttr attr scope).getD "")
  | .attrOfSelector sel attr =>
    match find sel scope with
    | [] => ""
    | n :: _ => TrimSpace ((goquery.nodeAttr attr n).getD "")

/-- The reference semantics of a single expression, after the grammar of the
specification: the value of its form, empty for the empty expression. -/
def refValSingle (find : goquery.Engine) (scope : goquery.Node) (expr : String) : String :=
  match Form.read expr with
  | none => ""
  | some f => f.eval find scope

end friends

/-! ## Go maps with string keys -/

namespace gomap

/-- A Go `map[string]V`: an association list with pairwise distinct keys, in insertion
order. -/
abbrev Map (V : Type) := List (String × V)

/-- Go `v, ok := m[k]`. -/
def lookup {V : Type} (m : Map V) (k : String) : Option V :=
  match m with
  | [] => none
  | (k', v) :: rest => if k' = k then some v else lookup rest k

/-- Go `m[k] = v`. -/
def insert {V : Type} (m : Map V) (k : String) (v : V) : Map V :=
  match m with
  | [] => [(k, v)]
  | (k', v') :: rest => if k' = k then (k, v) :: rest else (k', v') :: insert rest k v

/-- The values met by `for _, v := range m`, here in insertion order (Go fixes no order). -/
def values {V : Type} (m : Map V) : List V := m.map fun kv => kv.2

end gomap

/-! ## Package `rules`: the rule set -/

namespace rules

/-- Go `rules.Rules`. -/
structure Rules where
  Presets : gomap.Map Preset

/-- The first `for k, v := range r.Presets` loop of `GetPreset`: the first preset met whose
lower-cased name is `lower`. -/
def findFold (toLower : String → String) (lower : String) : gomap.Map Preset → Option Preset
  | [] => none
  | (k, v) :: rest => if toLower k = lower then some v else findFold toLower lower rest

/-- Go `(*Rules).GetPreset`; `none` is a nil receiver.  `toLower` is `strings.ToLower`: here
lowered names are compared with each other, so it is a parameter rather than the
ASCII-output model `strings.ToLower`.  The result is the preset and the flag `ok`. -/
def GetPreset (toLower : String → String) (r : Option Rules) (name : String) :
    Preset × Bool :=
  match r with
  | none => ({ FriendsPage := none }, false)
  | some r =>
    if r.Presets.length = 0 then ({ FriendsPage := none }, false)
    else
      let name := if name = "" then "default" else name
      match gomap.lookup r.Presets name with
      | some p => (p, true)
      | none =>
        match findFold toLower (toLower name) r.Presets with
        | some v => (v, true)
        | none =>
          match gomap.lookup r.Presets "default" with
          | some p => (p, true)
          | none =>
            match r.Presets with
            | (_, v) :: _ => (v, true)
            | [] => ({ FriendsPage := none }, false)

end rules

/-! ## Go's `time` and SQLite's date functions, as far as the store sees them -/

namespace gotime

/-- The location of a `time.Time` at the instant it holds, as far as the text of the time
shows it: the offset east of UTC in seconds and the abbreviation of the zone (`""` for a
zone without one, as `time.Parse` makes for a numeric offset). -/
structure Zone where
  offset : Int
  name : String
deriving DecidableEq, Repr

/-- Go `time.UTC`. -/
def UTC : Zone := { offset := 0, name := "UTC" }

/-- Go `time.FixedZone`. -/
def FixedZone (name : String) (offset : Int) : Zone := { offset := offset, name := name }

/-- One decimal digit. -/
def digit (n : Nat) : Char := Char.ofNat (48 + n % 10)

/-- Go `appendInt(b, n, 2)` for a number below 100. -/
def pad2 (n : Nat) : List Char := [digit (n / 10), digit n]

/-- Go `appendInt(b, y, 4)`: at least four digits, after the sign of a negative number. -/
def pad4 (y : Int) : List Char :=
  let n := y.natAbs
  let ds := if n < 10000 then [digit (n / 1000), digit (n / 100), digit (n / 10), digit n]
    else Nat.toDigits 10 n
  if y < 0 then '-' :: ds else ds

/-- Go `isLeap`. -/
def isLeap (year : Int) : Bool :=
  year % 4 = 0 && (year % 100 ≠ 0 || year % 400 = 0)

/-- The lengths of the months of a year. -/
def monthLengths (leap : Bool) : List Nat :=
  [31, if leap then 29 else 28, 31, 30, 31, 30, 31, 31, 30, 31, 30, 31]

/-- Month and day of the month of the day `yday` (from 0) of a year, walking the months
from month `m`. -/
def monthDayFrom : List Nat → Nat → Nat → Nat × Nat
  | [], m, yday => (m, yday + 1)
  | len :: rest, m, yday =>
    if yday < len then (m, yday + 1) else monthDayFrom rest (m + 1) (yday - len)

/-- Go `absDate`: year, month and day of the day `d`, counted from 1 January of the
year 1 in the proleptic Gregorian calendar.  The cycles of 400, 100, 4 and 1 years are cut
off in turn, as in Go, whose count of days starts at a year that a multiple of 400 years
separates from the year 1. -/
def absDate (d : Int) : Int × Nat × Nat :=
  let n400 := d / 146097
  let d := d % 146097
  let n100 := d / 36524 - d / 36524 / 4
  let d := d - 36524 * n100
  let n4 := d / 1461
  let d := d - 1461 * n4
  let n1 := d / 365 - d / 365 / 4
  let yday := d - 365 * n1
  let year := 400 * n400 + 100 * n100 + 4 * n4 + n1 + 1
  let md := monthDayFrom (monthLengths (isLeap year)) 1 yday.toNat
  (year, md.1, md.2)

/-- The layout `2006-01-02 15:04:05` of a wall clock that shows the second `lsec`, counted
from the start of the year 1. -/
def wallClock (lsec : Int) : List Char :=
  let date := absDate (lsec / 86400)
  let s := (lsec % 86400).toNat
  pad4 date.1 ++ '-' :: pad2 date.2.1 ++ '-' :: pad2 date.2.2 ++ ' ' :: pad2 (s / 3600) ++
    ':' :: pad2 (s % 3600 / 60) ++ ':' :: pad2 (s % 60)

/-- The layout element `-0700` of Go's `Time.Format`: sign, hours and minutes of the
offset, which is first cut to whole minutes. -/
def zoneOffset (offset : Int) : List Char :=
  let zone := offset.natAbs / 60
  (if offset < 0 ∧ zone ≠ 0 then '-' else '+') :: (pad2 (zone / 60) ++ pad2 (zone % 60))

/-- Go `Time.String` for a time of whole seconds, layout
`2006-01-02 15:04:05.999999999 -0700 MST`: the wall clock of the location, its offset, and
its abbreviation or, when it has none, the offset again.  `t` is the instant.  (The
monotonic clock reading that a time from `time.Now` carries is appended after this text
and is left out.) -/
def Time.String (t : Time) (z : Zone) : String :=
  ⟨wallClock (t + z.offset) ++ ' ' :: zoneOffset z.offset ++
    ' ' :: (if z.name ≠ "" then z.name.data else zoneOffset z.offset)⟩

end gotime

namespace sqlite

/-- SQLite `datetime` of an instant, as `datetime('now', '-N days')` yields it for the
instant `N` days before the reading of the clock: the text `YYYY-MM-DD HH:MM:SS` of its
UTC wall clock. -/
def datetime (t : Time) : String := ⟨gotime.wallClock t⟩

end sqlite

/-! ## Package `store` -/

namespace store

/-- The two tables of the SQLite database, both with a `UNIQUE` link column.  Statement
failures of the database engine are not modelled. -/
structure SQLite where
  friends : List model.Friend
  posts : List model.Post

/-- Go `store.nowOr`. -/
def nowOr (now t : Time) : Time := if t = 0 then now else t

/-- The statement of `UpsertFriend` on the rows of `friends`: insert, or on a link conflict
update name, avatar and error. -/
def upsertFriendRows (f : model.Friend) (createdAt : Time) :
    List model.Friend → List model.Friend
  | [] => [{ f with CreatedAt := createdAt }]
  | r :: rs =>
    if r.Link = f.Link then
      { r with Name := f.Name, Avatar := f.Avatar, Error := f.Error } :: rs
    else r :: upsertFriendRows f createdAt rs

/-- The statement of `UpsertPost` on the rows of `posts`: insert, or on a link conflict
update every column but `link` and `created_at`. -/
def upsertPostRows (p : model.Post) (createdAt : Time) : List model.Post → List model.Post
  | [] => [{ p with CreatedAt := createdAt }]
  | r :: rs =>
    if r.Link = p.Link then
      { r with Title := p.Title, Created := p.Created, Updated := p.Updated,
               Author := p.Author, Avatar := p.Avatar, Rule := p.Rule } :: rs
    else r :: upsertPostRows p createdAt rs

/-- Go `(*SQLite).UpsertFriend`: the new database and the returned error. -/
def SQLite.UpsertFriend (s : SQLite) (now : Time) (f : model.Friend) :
    SQLite × Option String :=
  ({ s with friends := upsertFriendRows f (nowOr now f.CreatedAt) s.friends }, none)

/-- Go `(*SQLite).UpsertPost`: the new database and the returned error. -/
def SQLite.UpsertPost (s : SQLite) (now : Time) (p : model.Post) : SQLite × Option String :=
  if p.Link = "" then (s, some "post.link required")
  else ({ s with posts := upsertPostRows p (nowOr now p.CreatedAt) s.posts }, none)

/-- The number of seconds of a day. -/
def secondsPerDay : Int := 86400

/-- Go `(*SQLite).ListFriends`: the rows ordered by name. -/
def SQLite.ListFriends (s : SQLite) : List model.Friend :=
  sort.Slice (fun a b => strings.Less a.Name b.Name) s.friends

/-- The text the column `created` of a post holds.  The driver, modernc.org/sqlite, opened
as `OpenSQLite` opens it, binds a `time.Time` argument as the text of its `String` method,
and the column, declared `TIMESTAMP`, keeps that text (it is no number).  The `Time` of the embedding is the instant
alone; the location in which the `Created` of a post is carried, which is part of the Go
value, is read through `zone` (the rows of the table have pairwise distinct links, so a
function of the post can give each row its own location). -/
def createdText (zone : model.Post → gotime.Zone) (p : model.Post) : String :=
  gotime.Time.String p.Created (zone p)

/-- Go `(*SQLite).ListPosts`: `ORDER BY created DESC` orders the rows by the text of
`created`, compared byte by byte, greatest first.  The rows come back as posts with the
instants that were stored (a row whose text the driver cannot read back as a time, which
would make `Scan` fail, is not modelled). -/
def SQLite.ListPosts (s : SQLite) (zone : model.Post → gotime.Zone) : List model.Post :=
  sort.Slice (fun a b => strings.Less (createdText zone b) (createdText zone a)) s.posts

/-- Go `(*SQLite).Stats`. -/
def SQLite.Stats (s : SQLite) (now : Time) : model.Stats :=
  let total : Int := s.friends.length
  let alive : Int := (s.friends.filter fun f => decide (f.Error = "")).length
  { FriendsTotal := total
    FriendsAlive := alive
    FriendsError := total - alive
    PostsTotal := s.posts.length
    UpdatedAt := now }

/-- Go `(*SQLite).CleanOldPosts`: the new database and the returned error.  The statement
`DELETE FROM posts WHERE created < datetime('now', '-<days> days')` deletes the rows whose
text of `created` is, byte by byte, below the text `YYYY-MM-DD HH:MM:SS` of the UTC wall
clock `days` days before `now`, the reading of the clock. -/
def SQLite.CleanOldPosts (s : SQLite) (zone : model.Post → gotime.Zone) (now : Time)
    (days : Int) : SQLite × Option String :=
  if days ≤ 0 then (s, none)
  else
    ({ s with
       posts := s.posts.filter fun p =>
         !strings.Less (createdText zone p) (sqlite.datetime (now - days * secondsPerDay)) },
     none)

end store

/-! ## Package `aggregate` -/

namespace aggregate

/-- Go `aggregate.SimpleBuffer` (the mutex is left out: calls are atomic here). -/
structure SimpleBuffer where
  friends : gomap.Map model.Friend
  posts : gomap.Map model.Post

/-- Go `NewSimpleBuffer`. -/
def NewSimpleBuffer : SimpleBuffer := { friends := [], posts := [] }

/-- Go `(*SimpleBuffer).AddFriend`. -/
def SimpleBuffer.AddFriend (b : SimpleBuffer) (f : model.Friend) : SimpleBuffer :=
  if f.Link = "" then b else { b with friends := gomap.insert b.friends f.Link f }

/-- Go `(*SimpleBuffer).AddPost`. -/
def SimpleBuffer.AddPost (b : SimpleBuffer) (p : model.Post) : SimpleBuffer :=
  if p.Link = "" then b else { b with posts := gomap.insert b.posts p.Link p }

/-- Go `(*SimpleBuffer).AddPosts`. -/
def SimpleBuffer.AddPosts (b : SimpleBuffer) : List model.Post → SimpleBuffer
  | [] => b
  | p :: rest =>
    if p.Link = "" then SimpleBuffer.AddPosts b rest
    else SimpleBuffer.AddPosts { b with posts := gomap.insert b.posts p.Link p } rest

/-- Go `aggregate.Runner`, without the rule set, which `processFriend` does not read.
`buf = none` is the nil buffer of normal mode, in which the store is the sink. -/
structure Runner where
  cfg : config.Config
  fetch : fetch.Client
  store : store.SQLite
  buf : Option SimpleBuffer

/-- The first loop of `dedup`: the map after the entries of `in`. -/
def dedupLoop : List config.StaticFriend → gomap.Map config.StaticFriend →
    gomap.Map config.StaticFriend
  | [], m => m
  | f :: rest, m =>
    if f.Link = "" then dedupLoop rest m
    else
      match gomap.lookup m f.Link with
      | none => dedupLoop rest (gomap.insert m f.Link f)
      | some _ => dedupLoop rest m

/-- Go `aggregate.dedup`. -/
def dedup (xs : List config.StaticFriend) : List config.StaticFriend :=
  gomap.values (dedupLoop xs [])

/-- The loop of `mergeDedup` over `base`. -/
def mergeBase : List config.StaticFriend → gomap.Map config.StaticFriend →
    gomap.Map config.StaticFriend
  | [], m => m
  | f :: rest, m => mergeBase rest (gomap.insert m f.Link f)

/-- The loop of `mergeDedup` over `add`. -/
def mergeAdd : List config.StaticFriend → gomap.Map config.StaticFriend →
    gomap.Map config.StaticFriend
  | [], m => m
  | f :: rest, m =>
    if f.Link = "" then mergeAdd rest m
    else
      match gomap.lookup m f.Link with
      | some _ => mergeAdd rest m
      | none => mergeAdd rest (gomap.insert m f.Link f)

/-- Go `aggregate.mergeDedup`. -/
def mergeDedup (base add : List config.StaticFriend) : List config.StaticFriend :=
  gomap.values (mergeAdd add (mergeBase base []))

/-- The list `roster` is a roster of the source list `src`: no entry has an empty link, no two
entries share a link, each entry is the first element of `src` that carries its link, and
every non-empty link of `src` is the link of an entry.  The order of `roster` plays no
part. -/
def IsRosterOf (roster src : List config.StaticFriend) : Prop :=
  (∀ f ∈ roster, f.Link ≠ "") ∧
  (roster.map fun f => f.Link).Nodup ∧
  (∀ f ∈ roster, src.find? (fun g => decide (g.Link = f.Link)) = some f) ∧
  (∀ g ∈ src, g.Link ≠ "" → g.Link ∈ roster.map fun f => f.Link)

instance (roster src : List config.StaticFriend) : Decidable (IsRosterOf roster src) := by
  unfold IsRosterOf
  infer_instance

/-- A map of the loops of `dedup` and `mergeDedup` that holds the source list `src`: its
keys are pairwise distinct, non-empty and are the non-empty links of `src`, and each key
maps to the first element of `src` with that link. -/
def MapOf (m : gomap.Map config.StaticFriend) (src : List config.StaticFriend) : Prop :=
  (m.map fun kv => kv.1).Nodup ∧
  (∀ kv ∈ m, kv.2.Link = kv.1 ∧ kv.1 ≠ "" ∧
    src.find? (fun g => decide (g.Link = kv.1)) = some kv.2) ∧
  (∀ f ∈ src, f.Link ≠ "" → f.Link ∈ m.map fun kv => kv.1)

/-- The friend the sink of a runner holds under a link, if any. -/
def Runner.friendAt (r : Runner) (link : String) : Option model.Friend :=
  match r.buf with
  | some b => gomap.lookup b.friends link
  | none => r.store.friends.find? fun f => decide (f.Link = link)

/-- The articles the sink of a runner holds. -/
def Runner.articles (r : Runner) : List model.Post :=
  match r.buf with
  | some b => gomap.values b.posts
  | none => r.store.posts

/-- The sink write of a friend in `processFriend`: the buffer when there is one, else the
store (whose error is dropped or only logged). -/
def writeFriend (r : Runner) (now : Time) (f : model.Friend) : Runner :=
  match r.buf with
  | some b => { r with buf := some (b.AddFriend f) }
  | none => { r with store := (r.store.UpsertFriend now f).1 }

/-- The item loop of `processFriend`: one post per item, written to the sink. -/
def writePosts (now : Time) (sf : config.StaticFriend) : List feeds.Item → Runner → Runner
  | [], r => r
  | it :: rest, r =>
    let p : model.Post :=
      { Title := it.Title
        Created := it.Created
        Updated := it.Updated
        Link := it.Link
        Author := it.Author
        Avatar := sf.Avatar
        Rule := "feed"
        CreatedAt := now }
    match r.buf with
    | some b => writePosts now sf rest { r with buf := some (b.AddPost p) }
    | none => writePosts now sf rest { r with store := (r.store.UpsertPost now p).1 }

/-- Go `(*Runner).processFriend`: discovery, friend write, feed parse, post writes.  `now`
is the reading of the clock. -/
def processFriend (L : url.Lib) (find : goquery.Engine) (now : Time) (r : Runner)
    (sf : config.StaticFriend) : Runner :=
  let f : model.Friend :=
    { Name := sf.Name, Link := sf.Link, Avatar := sf.Avatar, Error := "", CreatedAt := now }
  match (feeds.DiscoverFeed L find r.fetch sf.Link sf.FeedSuffix).1 with
  | .error e => writeFriend r now { f with Error := e }
  | .ok feedURL =>
    let r := writeFriend r now { f with Error := "" }
    match feeds.ParseFeed r.fetch feedURL r.cfg.MaxPostsNum with
    | .error _ => r
    | .ok items => writePosts now sf items r

/-- Go `(*SimpleBuffer).Snapshot`: friends by name, posts latest first.  The buffer itself
is only read. -/
def SimpleBuffer.Snapshot (b : SimpleBuffer) : List model.Friend × List model.Post :=
  let fr := sort.Slice (fun x y => strings.Less x.Name y.Name) (gomap.values b.friends)
  let ps := sort.Slice (fun x y => decide (x.Created > y.Created)) (gomap.values b.posts)
  (fr, ps)

/-- Go `(*Runner).BufferData`. -/
def Runner.BufferData (r : Runner) : List model.Friend × List model.Post :=
  match r.buf with
  | none => ([], [])
  | some b => b.Snapshot

/-- The post `processFriend` builds from a feed item. -/
def postOf (now : Time) (sf : config.StaticFriend) (it : feeds.Item) : model.Post :=
  { Title := it.Title
    Created := it.Created
    Updated := it.Updated
    Link := it.Link
    Author := it.Author
    Avatar := sf.Avatar
    Rule := "feed"
    CreatedAt := now }

/-- The sink write of one post in `processFriend`: the new runner and the error the caller
gets to see (`AddPost` returns nothing, `UpsertPost` returns an error). -/
def writePost (now : Time) (r : Runner) (p : model.Post) : Runner × Option String :=
  match r.buf with
  | some b => ({ r with buf := some (b.AddPost p) }, none)
  | none => ({ r with store := (r.store.UpsertPost now p).1 }, (r.store.UpsertPost now p).2)

/-- The article the sink of a runner holds under a link, if any. -/
def Runner.articleAt (r : Runner) (link : String) : Option model.Post :=
  match r.buf with
  | some b => gomap.lookup b.posts link
  | none => r.store.posts.find? fun p => decide (p.Link = link)

/-- A write to the buffer. -/
inductive Write where
  | friend (f : model.Friend)
  | post (p : model.Post)

/-- Performing a write: `AddFriend` or `AddPost`. -/
def Write.apply (w : Write) (b : SimpleBuffer) : SimpleBuffer :=
  match w with
  | .friend f => b.AddFriend f
  | .post p => b.AddPost p

/-- Two buffers hold the same friends and the same posts under every link (Go maps have
no order). -/
def SimpleBuffer.Same (a b : SimpleBuffer) : Prop :=
  (∀ k, gomap.lookup a.friends k = gomap.lookup b.friends k) ∧
  (∀ k, gomap.lookup a.posts k = gomap.lookup b.posts k)

/-- The representation invariant of a buffer: in each map the keys are pairwise distinct
and every entry is stored under its own link. -/
def SimpleBuffer.WF (b : SimpleBuffer) : Prop :=
  (b.friends.map fun kv => kv.1).Nodup ∧ (∀ kv ∈ b.friends, kv.2.Link = kv.1) ∧
  (b.posts.map fun kv => kv.1).Nodup ∧ (∀ kv ∈ b.posts, kv.2.Link = kv.1)

instance (b : SimpleBuffer) : Decidable b.WF := by
  unfold SimpleBuffer.WF
  infer_instance

/-! ### The worker pool of `Run`

The fan-out of `Run` (the semaphore channel, the wait group, one goroutine per roster
entry) as a transition system: a state holds where each goroutine stands and the
counters of the two synchronisation objects, an event is one step of one goroutine, and
a step that Go would block is not enabled.  What `processFriend` does to the sink is left
out here; only that it returns, with or without success. -/

/-- Where the goroutine of `Run` stands in the fan-out. -/
inductive MainPC where
  /-- At the head of `for _, sf := range friendsList`. -/
  | loop
  /-- After `wg.Add(1)`, at `sem <- struct{}{}` for this entry. -/
  | send (sf : config.StaticFriend)
  /-- After the send, at `go func() { ... }()` for this entry. -/
  | spawn (sf : config.StaticFriend)
  /-- At `wg.Wait()`. -/
  | wait
  /-- Past `wg.Wait()`, at the clean-up of old posts. -/
  | cleanup
  /-- After the clean-up: `Run` has returned. -/
  | returned
deriving DecidableEq, Repr

/-- Where the goroutine of one roster entry stands. -/
inductive TaskPC where
  /-- Executing `r.processFriend(ctx, sf)`. -/
  | run
  /-- The call has ended, with success or not; next is the deferred `<-sem`. -/
  | release (ok : Bool)
  /-- The slot is released; next is the deferred `wg.Done()`. -/
  | finish (ok : Bool)
  /-- The goroutine has ended. -/
  | exited (ok : Bool)
deriving DecidableEq, Repr

/-- The state of the fan-out. -/
structure Pool where
  /-- The capacity of `sem`. -/
  cap : Nat
  /-- The roster entries the loop has not reached yet. -/
  todo : List config.StaticFriend
  /-- The goroutine of `Run`. -/
  pc : MainPC
  /-- The number of elements in the channel `sem`. -/
  sem : Nat
  /-- The counter of the wait group. -/
  wg : Nat
  /-- The goroutines started so far, in the order of their start. -/
  tasks : List (config.StaticFriend × TaskPC)
deriving DecidableEq, Repr

/-- A step of one goroutine. -/
inductive Event where
  /-- The goroutine of `Run` executes its next statement. -/
  | main
  /-- The call of `processFriend` in the goroutine with this index ends, with this
  outcome. -/
  | ret (i : Nat) (ok : Bool)
  /-- The goroutine with this index executes its next deferred call. -/
  | deferred (i : Nat)
deriving DecidableEq, Repr

/-- The state at `sem := make(chan struct{}, max(1, r.cfg.Concurrency.Fetch))`, before the
loop over the roster. -/
def Pool.init (fetch : Int) (roster : List config.StaticFriend) : Pool :=
  { cap := (if 1 > fetch then 1 else fetch).toNat, todo := roster, pc := .loop, sem := 0,
    wg := 0, tasks := [] }

/-- One step; `none` when the goroutine cannot take it: a send on the full channel, a
receive on the empty one and `wg.Wait()` with a positive counter block, a goroutine that
has ended has no step, and `wg.Done()` at counter 0 would panic. -/
def Pool.step (s : Pool) : Event → Option Pool
  | .main =>
    match s.pc with
    | .loop =>
      match s.todo with
      | sf :: rest => some { s with todo := rest, wg := s.wg + 1, pc := .send sf }
      | [] => some { s with pc := .wait }
    | .send sf => if s.sem < s.cap then some { s with sem := s.sem + 1, pc := .spawn sf } else none
    | .spawn sf => some { s with tasks := s.tasks ++ [(sf, .run)], pc := .loop }
    | .wait => if s.wg = 0 then some { s with pc := .cleanup } else none
    | .cleanup => some { s with pc := .returned }
    | .returned => none
  | .ret i ok =>
    match s.tasks.get? i with
    | some (sf, .run) => some { s with tasks := s.tasks.set i (sf, .release ok) }
    | _ => none
  | .deferred i =>
    match s.tasks.get? i with
    | some (sf, .release ok) =>
      if 0 < s.sem then some { s with sem := s.sem - 1, tasks := s.tasks.set i (sf, .finish ok) }
      else none
    | some (sf, .finish ok) =>
      if 0 < s.wg then some { s with wg := s.wg - 1, tasks := s.tasks.set i (sf, .exited ok) }
      else none
    | _ => none

/-- A run: the events of a schedule one after the other; `none` when one of them is not
enabled. -/
def Pool.exec (s : Pool) : List Event → Option Pool
  | [] => some s
  | e :: es =>
    match s.step e with
    | some s' => Pool.exec s' es
    | none => none

/-- Whether a goroutine holds a slot of the semaphore: from its start until its deferred
receive. -/
def TaskPC.holdsSlot : TaskPC → Bool
  | .run => true
  | .release _ => true
  | _ => false

/-- Whether a goroutine has not yet called `wg.Done()`. -/
def TaskPC.pending : TaskPC → Bool
  | .exited _ => false
  | _ => true

/-- The number of per-friend tasks that are executing: started and not yet past the
release of their slot. -/
def Pool.executing (s : Pool) : Nat := (s.tasks.filter fun t => t.2.holdsSlot).length

/-- The roster entry the goroutine of `Run` holds between `wg.Add(1)` and the start of the
entry's goroutine. -/
def MainPC.inHand : MainPC → List config.StaticFriend
  | .send sf => [sf]
  | .spawn sf => [sf]
  | _ => []

/-- The slots taken by a send whose goroutine is not started yet. -/
def MainPC.sent : MainPC → Nat
  | .spawn _ => 1
  | _ => 0

/-- Whether the loop over the roster is over. -/
def MainPC.pastLoop : MainPC → Bool
  | .wait => true
  | .cleanup => true
  | .returned => true
  | _ => false

/-- Whether `wg.Wait()` has returned. -/
def MainPC.pastWait : MainPC → Bool
  | .cleanup => true
  | .returned => true
  | _ => false

/-- The invariant of the fan-out for a roster: the channel holds one element per goroutine
that holds a slot (and one for a send not yet followed by its `go`), never more than its
capacity; the wait-group counter is the number of goroutines that have not called
`wg.Done()` plus one for an entry in hand; the roster is the entries of the goroutines
started, the entry in hand and the entries to do, in this order; after the loop nothing
is left to do, and after `wg.Wait()` every goroutine has ended. -/
def Pool.Inv (roster : List config.StaticFriend) (s : Pool) : Prop :=
  s.sem = s.executing + s.pc.sent ∧
  s.sem ≤ s.cap ∧
  s.wg = (s.tasks.filter fun t => t.2.pending).length + s.pc.inHand.length ∧
  roster = s.tasks.map (fun t => t.1) ++ s.pc.inHand ++ s.todo ∧
  (s.pc.pastLoop = true → s.todo = []) ∧
  (s.pc.pastWait = true → ∀ t ∈ s.tasks, t.2.pending = false)

end aggregate

/-! ## Package `export` -/

namespace export_

/-- The cap on exported posts. -/
def maxExportPosts : Nat := 150

/-- Go `export.ToJSONData`: the value encoded into the file (creating and writing the
file is not modelled). -/
def ToJSONData (now : Time) (friends : List model.Friend) (posts : List model.Post) :
    model.Export :=
  let posts := if posts.length > maxExportPosts then posts.take maxExportPosts else posts
  let alive : Int := friends.foldl (fun n f => if f.Error = "" then n + 1 else n) 0
  let st : model.Stats :=
    { FriendsTotal := friends.length
      FriendsAlive := alive
      FriendsError := (friends.length : Int) - alive
      PostsTotal := posts.length
      UpdatedAt := now }
  { Stats := st, Friends := friends, Posts := posts }

/-- Go `export.ToJSON`: the value encoded into the file.  `zone` gives the location in
which the creation time of each stored post is carried (see `store.createdText`). -/
def ToJSON (now : Time) (zone : model.Post → gotime.Zone) (s : store.SQLite) : model.Export :=
  let friends := s.ListFriends
  let posts := s.ListPosts zone
  let stats := s.Stats now
  let posts := if posts.length > maxExportPosts then posts.take maxExportPosts else posts
  let stats := { stats with PostsTotal := posts.length }
  { Stats := stats, Friends := friends, Posts := posts }

end export_

/-! ## Concrete sites for the evaluations -/

namespace demo

/-- A page without elements. -/
def emptyDoc : goquery.Node := .elem "html" [] []

/-- A response that is neither a page with elements nor a feed. -/
def plain (contentType body : String) : fetch.Response :=
  { contentType := contentType, body := body, html := emptyDoc, feed := .error "no feed" }

/-- A server that answers the listed URLs with status 200 and every other URL with 404;
the context is never cancelled. -/
def serve (pages : List (String × fetch.Response)) : fetch.Transport :=
  { newRequestErr := fun _ => none
    Do := fun u _ =>
      match pages.lookup u with
      | some r => .response 200 "200 OK" r
      | none => .response 404 "404 Not Found" (plain "text/plain" "404 page not found")
    ctxErr := fun _ _ => none }

/-- A site whose only feed is at `/rss.xml`, served as `application/rss+xml`. -/
def rssOnly : fetch.Client :=
  { retry := 0
    net := serve [("http://h/rss.xml", plain "application/rss+xml" "<rss version=\"2.0\"></rss>")] }

/-- A page whose first `<link>` has no `type` and a feed-like extension, and whose second
`<link>` is the declared feed (`rel="alternate"`, an Atom `type`). -/
def typelessFirstPage : goquery.Node :=
  .elem "html" []
    [.elem "head" []
      [.elem "link" [("href", "/sitemap.xml")] [],
       .elem "link"
         [("rel", "alternate"), ("type", "application/atom+xml"), ("href", "/feeds/all.atom")] []]]

/-- The same two `<link>` elements, the declared feed first. -/
def alternateFirstPage : goquery.Node :=
  .elem "html" []
    [.elem "head" []
      [.elem "link"
         [("rel", "alternate"), ("type", "application/atom+xml"), ("href", "/feeds/all.atom")] [],
       .elem "link" [("href", "/sitemap.xml")] []]]

/-- A site `http://h` with the page `typelessFirstPage`, a sitemap served as
`application/xml` and an Atom feed at `/feeds/all.atom`; no conventional feed path. -/
def sitemapSite : fetch.Client :=
  { retry := 0
    net := serve
      [("http://h",
        { contentType := "text/html", body := "", html := typelessFirstPage,
          feed := .error "no feed" }),
       ("http://h/sitemap.xml", plain "application/xml" "<urlset></urlset>"),
       ("http://h/feeds/all.atom", plain "application/atom+xml" "<feed></feed>")] }

/-- A page with a style sheet, an alternate page in another language, and a declared RSS
feed, in this order. -/
def linkedPage : goquery.Node :=
  .elem "html" []
    [.elem "head" []
      [.elem "link" [("rel", "stylesheet"), ("href", "/s.css")] [],
       .elem "link" [("rel", "alternate"), ("type", "text/html"), ("href", "/en")] [],
       .elem "link"
         [("rel", "Alternate"), ("type", "application/rss+xml"), ("href", "/feeds/main")] []],
     .elem "body" [] [.elem "p" [] [.text "hello"]]]

/-- A site `http://h` with the page `linkedPage` and a feed at `/feeds/main`; no conventional
feed path. -/
def linkedSite : fetch.Client :=
  { retry := 0
    net := serve
      [("http://h",
        { contentType := "text/html", body := "", html := linkedPage, feed := .error "no feed" }),
       ("http://h/feeds/main", plain "application/rss+xml" "<rss version=\"2.0\"></rss>")] }

/-- The same site without the feed: the declared link leads to a 404. -/
def brokenLinkSite : fetch.Client :=
  { retry := 0
    net := serve
      [("http://h",
        { contentType := "text/html", body := "", html := linkedPage,
          feed := .error "no feed" })] }

/-- A page whose `<link>` elements declare no feed: a style sheet, an icon with a type, an
alternate page in another language. -/
def unlinkedPage : goquery.Node :=
  .elem "html" []
    [.elem "head" []
      [.elem "link" [("rel", "stylesheet"), ("href", "/s.css")] [],
       .elem "link" [("rel", "icon"), ("type", "image/png"), ("href", "/favicon.xml")] [],
       .elem "link" [("rel", "alternate"), ("type", "text/html"), ("href", "/en")] []]]

/-- A site `http://h` with the page `unlinkedPage`, and a feed at `/feeds/main` that
nothing points to. -/
def unlinkedSite : fetch.Client :=
  { retry := 0
    net := serve
      [("http://h",
        { contentType := "text/html", body := "", html := unlinkedPage,
          feed := .error "no feed" }),
       ("http://h/feeds/main", plain "application/rss+xml" "<rss version=\"2.0\"></rss>")] }

/-- A site that answers no request with a 2xx status. -/
def deadSite : fetch.Client := { retry := 0, net := serve [] }

/-- A body of `n` spaces followed by `tail`, which so starts after byte `n`. -/
def padded (n : Nat) (tail : String) : String := ⟨List.replicate n ' ' ++ tail.data⟩

/-- A JSON Feed document written with a space after each colon and comma. -/
def spacedJsonFeed : String :=
  "\x7b\"version\": \"https://jsonfeed.org/version/1.1\", \"title\": \"t\", \"items\": []\x7d"

/-- A site for the probe: responses by `Content-Type` and body. -/
def probeSite : fetch.Client :=
  { retry := 0
    net := serve
      [("http://p/upper",
        plain "Application/RSS+XML; charset=UTF-8" "<html><body>not a feed</body></html>"),
       ("http://p/index.json",
        plain "application/feed+json"
          "\x7b\"version\":\"https://jsonfeed.org/version/1.1\",\"items\":[]\x7d"),
       ("http://p/data.json",
        plain "application/json" "\x7b\"note\":\"<rss> <feed> <rdf>\",\"n\":1\x7d"),
       ("http://p/untyped-feed",
        plain "" "<?xml version=\"1.0\"?><RSS version=\"2.0\"></RSS>"),
       ("http://p/untyped-jsonfeed",
        plain "text/plain" "\x7b\"version\":\"https://jsonfeed.org/version/1.1\",\"items\":[]\x7d"),
       ("http://p/late", plain "text/html" (padded 2048 "<rss version=\"2.0\">")),
       ("http://p/late.json",
        plain "application/json"
          (padded 2048 "\x7b\"version\":\"https://jsonfeed.org/version/1.1\"\x7d")),
       ("http://p/edge-in.json", plain "application/json" (padded 2040 "jsonfeed")),
       ("http://p/edge-out.json", plain "application/json" (padded 2041 "jsonfeed")),
       ("http://p/upper.json",
        plain "application/json" "\x7b\"Version\":\"HTTPS://JSONFEED.ORG/VERSION/1\"\x7d"),
       ("http://p/spaced-jsonfeed", plain "text/plain" spacedJsonFeed),
       ("http://p/spaced.json", plain "application/feed+json" spacedJsonFeed),
       ("http://p/edge-in", plain "" (padded 2044 "<rss")),
       ("http://p/edge-out", plain "" (padded 2045 "<rss"))] }

/-- The list item of the repository's `getVal` test:
`<li class="it" data-href="/x"><a class="nm2" href="/ok">NM</a><span class="nm1">X</span></li>`. -/
def friendItem : goquery.Node :=
  .elem "li" [("class", "it"), ("data-href", "/x")]
    [.elem "a" [("class", "nm2"), ("href", "/ok")] [.text "NM"],
     .elem "span" [("class", "nm1")] [.text "X"]]

/-- The selector engine `simpleFind` extended by one attribute selector, `a[lang|=en]`:
the `a` elements whose `lang` attribute is `en` or starts with `en-`. -/
def langFind : goquery.Engine := fun sel scope =>
  if sel = "a[lang|=en]" then
    (goquery.simpleFind "a" scope).filter fun n =>
      decide ((goquery.nodeAttr "lang" n).getD "" = "en") ||
        strings.HasPrefix ((goquery.nodeAttr "lang" n).getD "") "en-"
  else goquery.simpleFind sel scope

/-- A list item with a German and an English link. -/
def langItem : goquery.Node :=
  .elem "li" [("class", "it")]
    [.elem "a" [("lang", "de"), ("href", "/de")] [.text "DE"],
     .elem "a" [("lang", "en-GB"), ("href", "/en")] [.text "EN"],
     .elem "span" [("class", "nm1")] [.text "X"]]

/-- A friends page: the first item of the repository's test twice, an item with a name and
no link, an item with a link and no name, and an item with neither. -/
def friendsPage : goquery.Node :=
  .elem "ul" []
    [.elem "li" [("class", "it")]
       [.elem "a" [("class", "nm"), ("href", "/s1")] [.text "A"],
        .elem "img" [("src", "/a.png")] []],
     .elem "li" [("class", "it")]
       [.elem "a" [("class", "nm"), ("href", "/s1")] [.text "A"],
        .elem "img" [("src", "/a.png")] []],
     .elem "li" [("class", "it")] [.elem "span" [("class", "nm")] [.text " NoLink "]],
     .elem "li" [("class", "it")] [.elem "a" [("href", "/s3")] []],
     .elem "li" [("class", "it")] [.text "  "]]

/-- The site serving `friendsPage` at `http://h/links`. -/
def friendsSite : fetch.Client :=
  { retry := 0
    net := serve
      [("http://h/links",
        { contentType := "text/html; charset=utf-8", body := "", html := friendsPage,
          feed := .error "no feed" })] }

/-- The preset of the repository's test. -/
def friendsPreset : rules.Preset :=
  { FriendsPage := some { Item := ".it", Name := ".nm", Link := "a@href", Avatar := "img@src" } }

/-- A static list with a repeated link and an entry without link. -/
def staticList : List config.StaticFriend :=
  [{ Name := "A (static)", Link := "http://a", Avatar := "a.png", FeedSuffix := "/atom.xml" },
   { Name := "nameless", Link := "", Avatar := "", FeedSuffix := "" },
   { Name := "A again", Link := "http://a", Avatar := "a2.png", FeedSuffix := "" }]

/-- A page list that repeats a static link, brings a new link twice, and has an entry
without link. -/
def pageList : List config.StaticFriend :=
  [{ Name := "A (page)", Link := "http://a", Avatar := "pa.png", FeedSuffix := "" },
   { Name := "B first", Link := "http://b", Avatar := "b1.png", FeedSuffix := "" },
   { Name := "B second", Link := "http://b", Avatar := "b2.png", FeedSuffix := "" },
   { Name := "only a name", Link := "", Avatar := "", FeedSuffix := "" }]

/-- A configuration with the defaults of `config.Validate`. -/
def cfg (simple : Bool) : config.Config :=
  { LinkSources := [], StaticFriends := [], MaxPostsNum := 0, OutdateCleanDays := 0,
    SimpleMode := simple, ResetOnStart := false,
    Database := { Type_ := "sqlite", DSN := "./data.db" },
    Concurrency := { Fetch := 8, Retry := 0 },
    Proxy := { HTTP := "", HTTPS := "" },
    LogLevel := "", LogFormat := "pretty", LogLocale := "zh-CN", LogColor := "auto" }

/-- A roster entry of the site that answers nothing. -/
def deadFriend : config.StaticFriend :=
  { Name := "Bob", Link := "http://h", Avatar := "http://h/bob.png", FeedSuffix := "" }

/-- An article already in the sink. -/
def oldPost : model.Post :=
  { Title := "old", Created := 5, Updated := 6, Link := "http://x/1", Author := "x",
    Avatar := "x.png", Rule := "feed", CreatedAt := 7 }

/-- A runner in simple mode whose buffer holds one article. -/
def simpleRunner : aggregate.Runner :=
  { cfg := cfg true, fetch := deadSite, store := { friends := [], posts := [] },
    buf := some { friends := [], posts := [("http://x/1", oldPost)] } }

/-- A runner in normal mode whose store holds one article and an earlier row of the
friend. -/
def storeRunner : aggregate.Runner :=
  { cfg := cfg false, fetch := deadSite,
    store :=
      { friends := [{ Name := "Bobby", Link := "http://h", Avatar := "", Error := "",
                      CreatedAt := 3 }],
        posts := [oldPost] },
    buf := none }

/-- Three entries of a parsed feed, with white space around titles and links. -/
def entries3 : List gofeed.Item :=
  [{ Title := " p1 ", Link := "http://a/1\n", Author := some { Name := "ann", Email := "" },
     UpdatedParsed := none, PublishedParsed := some 1000 },
   { Title := "p2", Link := " http://a/2", Author := some { Name := "", Email := "b@a" },
     UpdatedParsed := some 2500, PublishedParsed := some 2000 },
   { Title := "\tp3", Link := "http://a/3", Author := none,
     UpdatedParsed := some 3000, PublishedParsed := none }]

/-- The response of a feed with the entries `entries3`. -/
def feedResp3 : fetch.Response :=
  { contentType := "application/rss+xml", body := "<rss version=\"2.0\"></rss>",
    html := emptyDoc, feed := .ok entries3 }

/-- A site that serves `feedResp3` at `http://a/feed.xml`. -/
def feedSite3 : fetch.Client := { retry := 0, net := serve [("http://a/feed.xml", feedResp3)] }

/-- The preset stored under `Default` in `rulesDC`. -/
def presetDefault : rules.Preset :=
  { FriendsPage := some { Item := ".d", Name := ".n", Link := "a@href", Avatar := "img@src" } }

/-- The preset stored under `clarity` in `rulesDC`. -/
def presetClarity : rules.Preset :=
  { FriendsPage := some { Item := ".c", Name := ".n", Link := "a@href", Avatar := "img@src" } }

/-- The rule set of the repository's test: the presets `Default` and `clarity`. -/
def rulesDC : rules.Rules :=
  { Presets := [("Default", presetDefault), ("clarity", presetClarity)] }

/-- The same rule set, met in the other order by a `range` over the map. -/
def rulesCD : rules.Rules :=
  { Presets := [("clarity", presetClarity), ("Default", presetDefault)] }

/-- The two friends of the repository's export test: `A` alive, `B` with an error. -/
def twoFriends : List model.Friend :=
  [{ Name := "A", Link := "l", Avatar := "a", Error := "", CreatedAt := 0 },
   { Name := "B", Link := "l2", Avatar := "b", Error := "x", CreatedAt := 0 }]

/-- The i-th post of the repository's export tests, created `i` minutes after instant
`1000`. -/
def postAt (i : Nat) : model.Post :=
  { Title := "t", Created := 1000 + 60 * (i : Int), Updated := 0,
    Link := String.mk ['p', Char.ofNat (i + 65)],
    Author := "", Avatar := "", Rule := "", CreatedAt := 0 }

/-- The first `n` posts of the export tests, earliest first. -/
def postsUpTo (n : Nat) : List model.Post := (List.range n).map postAt

/-- China Standard Time, eight hours east of UTC. -/
def cst : gotime.Zone := gotime.FixedZone "CST" 28800

/-- Pacific Standard Time, eight hours west of UTC. -/
def pst : gotime.Zone := gotime.FixedZone "PST" (-28800)

/-- The location in which the creation time of a post of the evaluations is carried, told
by its link: `cst` for the posts of `http://east/`, `pst` for those of `http://west/`, UTC
for the others. -/
def zoneOf (p : model.Post) : gotime.Zone :=
  if strings.HasPrefix p.Link "http://east/" then cst
  else if strings.HasPrefix p.Link "http://west/" then pst
  else gotime.UTC

/-- The instant 15 June 2025, 12:00:00 UTC. -/
def noon : Time := 63885585600

/-- The instant 30 days before `noon`: 16 May 2025, 12:00:00 UTC. -/
def limit30 : Time := noon - 30 * 86400

/-- A store with posts created around the retention limit of 30 days at `noon`: in
`cst` one second, one hour and nine hours before the limit, in `pst` one second after it,
in UTC one second before it, on it and one second after it. -/
def zonedStore : store.SQLite :=
  { friends := twoFriends,
    posts :=
      [{ oldPost with Link := "http://east/before", Created := limit30 - 1 },
       { oldPost with Link := "http://east/hour-before", Created := limit30 - 3600 },
       { oldPost with Link := "http://east/nine-hours-before", Created := limit30 - 9 * 3600 },
       { oldPost with Link := "http://west/after", Created := limit30 + 1 },
       { oldPost with Link := "http://utc/before", Created := limit30 - 1 },
       { oldPost with Link := "http://utc/on", Created := limit30 },
       { oldPost with Link := "http://utc/after", Created := limit30 + 1 }] }

/-- The instant 1 January 2025, 00:00:00 UTC. -/
def newYear : Time := 63871286400

/-- A post created at 05:00 UTC of `newYear`, carried in UTC. -/
def laterPost : model.Post :=
  { oldPost with Link := "http://utc/later", Created := newYear + 5 * 3600 }

/-- A post created three hours before `laterPost`, at 10:00 in `cst`. -/
def earlierPost : model.Post :=
  { oldPost with Link := "http://east/earlier", Created := newYear + 2 * 3600 }

/-- A store with the two posts. -/
def twoZoneStore : store.SQLite := { friends := [], posts := [laterPost, earlierPost] }

/-- A buffer with the two posts. -/
def twoZoneBuf : aggregate.SimpleBuffer :=
  { friends := [],
    posts := [("http://utc/later", laterPost), ("http://east/earlier", earlierPost)] }

/-- The i-th of 150 posts carried in `cst`, created `i` minutes before `earlierPost`. -/
def eastPost (i : Nat) : model.Post :=
  { oldPost with
    Link := String.mk ("http://east/".data ++ (Nat.toDigits 10 i))
    Created := newYear + 2 * 3600 - 60 * (i : Int) }

/-- A store with 151 posts: 150 carried in `cst`, and `laterPost`, which was created after
each of them. -/
def capStore : store.SQLite :=
  { friends := [], posts := (List.range 150).map eastPost ++ [laterPost] }

/-- A buffer after the writes of three friends and three posts, out of order; the friend
`http://b` is written twice. -/
def buf3 : aggregate.SimpleBuffer :=
  let b := aggregate.NewSimpleBuffer
  let b := b.AddFriend
    { Name := "Carol", Link := "http://c", Avatar := "", Error := "", CreatedAt := 1 }
  let b := b.AddFriend
    { Name := "bob", Link := "http://b", Avatar := "", Error := "", CreatedAt := 1 }
  let b := b.AddFriend
    { Name := "Alice", Link := "http://a", Avatar := "", Error := "x", CreatedAt := 1 }
  let b := b.AddFriend
    { Name := "Bob", Link := "http://b", Avatar := "", Error := "", CreatedAt := 2 }
  let b := b.AddPost { oldPost with Link := "http://c/1", Created := 20 }
  let b := b.AddPost { oldPost with Link := "http://a/1", Created := 30 }
  b.AddPost { oldPost with Link := "http://b/1", Created := 10 }

/-- A buffer that holds the 200 posts of the repository's export test, each under its
link. -/
def buf200 : aggregate.SimpleBuffer :=
  { friends := [], posts := (postsUpTo 200).map fun p => (p.Link, p) }

/-- An article without link. -/
def linklessPost : model.Post := { oldPost with Title := "no link", Link := "" }

/-- The article `http://s/1` as the task of a friend with avatar `a.png` writes it. -/
def sharedPostA : model.Post := { oldPost with Link := "http://s/1", Avatar := "a.png" }

/-- The same article as the task of a friend with avatar `b.png` writes it. -/
def sharedPostB : model.Post := { oldPost with Link := "http://s/1", Avatar := "b.png" }

/-- The friend `http://h` as a later run writes it, at instant `100`. -/
def bobAt100 : model.Friend :=
  { Name := "Bob", Link := "http://h", Avatar := "http://h/bob.png", Error := "",
    CreatedAt := 100 }

/-- The article `http://x/1` as a later run writes it, at instant `100`. -/
def newPost : model.Post :=
  { Title := "new", Created := 50, Updated := 60, Link := "http://x/1", Author := "y",
    Avatar := "y.png", Rule := "feed", CreatedAt := 100 }

/-- The roster entry of the scenario: site `http://a`, feed suffix `/feed.xml`. -/
def friendA : config.StaticFriend :=
  { Name := "A", Link := "http://a", Avatar := "http://a/a.png", FeedSuffix := "/feed.xml" }

/-- A feed response with the given entries. -/
def feedOf (entries : List gofeed.Item) : fetch.Response :=
  { contentType := "application/rss+xml", body := "<rss version=\"2.0\"></rss>",
    html := emptyDoc, feed := .ok entries }

/-- A feed entry with a title, a link and a publication date. -/
def entry (title link : String) (pub : Time) : gofeed.Item :=
  { Title := title, Link := link, Author := some { Name := "ann", Email := "" },
    UpdatedParsed := none, PublishedParsed := some pub }

/-- The site of the scenario: it serves at exactly `/feed.xml` a feed with one item. -/
def feedSiteA : fetch.Client :=
  { retry := 0, net := serve [("http://a/feed.xml", feedOf [entry "p1" "http://a/1" 1000])] }

/-- A site whose feed has two items with the same link. -/
def feedSiteDup : fetch.Client :=
  { retry := 0,
    net := serve
      [("http://a/feed.xml", feedOf [entry "p1" "http://a/1" 1000, entry "p2" "http://a/1" 2000])] }

/-- A runner with an empty sink: the buffer in simple mode, the store otherwise. -/
def freshRunner (simple : Bool) (cl : fetch.Client) : aggregate.Runner :=
  { cfg := cfg simple, fetch := cl, store := { friends := [], posts := [] },
    buf := if simple then some aggregate.NewSimpleBuffer else none }

/-- The configuration `yaml.Unmarshal` yields for the minimal file of the repository's
test: every field zero but `SIMPLE_MODE`. -/
def minimalCfg : config.Config :=
  { LinkSources := [], StaticFriends := [], MaxPostsNum := 0, OutdateCleanDays := 0,
    SimpleMode := true, ResetOnStart := false,
    Database := { Type_ := "", DSN := "" },
    Concurrency := { Fetch := 0, Retry := 0 },
    Proxy := { HTTP := "", HTTPS := "" },
    LogLevel := "", LogFormat := "", LogLocale := "", LogColor := "" }

/-- The server of the repository's retry test: status 500 for the first request of a URL,
200 with the body `ok` from the second on. -/
def flaky : fetch.Transport :=
  { newRequestErr := fun _ => none
    Do := fun _ i =>
      if i = 0 then .response 500 "500 Internal Server Error" (plain "text/plain" "")
      else .response 200 "200 OK" (plain "text/plain" "ok")
    ctxErr := fun _ _ => none }

/-- A roster of three entries for the worker pool. -/
def roster3 : List config.StaticFriend :=
  [{ Name := "a", Link := "http://a", Avatar := "", FeedSuffix := "" },
   { Name := "b", Link := "http://b", Avatar := "", FeedSuffix := "" },
   { Name := "c", Link := "http://c", Avatar := "", FeedSuffix := "" }]

/-- A schedule for `roster3` with two slots up to the moment the third entry waits for a
slot: two goroutines are started and still run. -/
def scheduleFull : List aggregate.Event :=
  [.main, .main, .main, .main, .main, .main, .main]

/-- The rest of the schedule: the first task ends without success and frees its slot, the
third entry is admitted, all tasks end, `Run` passes `wg.Wait()` and cleans up. -/
def scheduleDrain : List aggregate.Event :=
  [.ret 0 false, .deferred 0, .main, .main, .deferred 0, .ret 2 true, .ret 1 true, .main,
   .deferred 1, .deferred 2, .deferred 1, .deferred 2, .main, .main]

/-- The state the schedule `scheduleFull` leads to: the goroutines of the first two entries
run, the third entry waits for a slot. -/
def poolFull : aggregate.Pool :=
  { cap := 2, todo := [],
    pc := .send { Name := "c", Link := "http://c", Avatar := "", FeedSuffix := "" },
    sem := 2, wg := 3,
    tasks :=
      [({ Name := "a", Link := "http://a", Avatar := "", FeedSuffix := "" }, .run),
       ({ Name := "b", Link := "http://b", Avatar := "", FeedSuffix := "" }, .run)] }

end demo

/-! # Theorems -/

/-! ## Feed discovery: the candidate loop -/

namespace feeds

/-- The candidate loop returns the first candidate that probes true and has requested
exactly the candidates up to it. -/
theorem probeCandidates_eq (cl : fetch.Client) (cs : List String) :
    probeCandidates cl cs =
      (cs.find? (probeFeed cl),
       cs.takeWhile (fun c => !probeFeed cl c) ++ (cs.find? (probeFeed cl)).toList) := by
  induction cs with
  | nil => rfl
  | cons c cs ih =>
    by_cases hc : probeFeed cl c = true
    · simp [probeCandidates, hc]
    · simp only [Bool.not_eq_true] at hc
      simp [probeCandidates, hc, ih]

/-- The root-relative `/rss.xml` is always among the candidates. -/
theorem rss_mem_candidates (L : url.Lib) (site hint : String) :
    joinURL L site "/rss.xml" ∈ candidates L site hint := by
  simp [candidates]

/-- C1. If some candidate probes true, `DiscoverFeed` returns the first candidate, in list
order, that probes true, and the requests it issued are exactly the candidates before that
one followed by that one: no later candidate is probed and the site page is not fetched.
In particular, when the only URL that probes true is the site's `/rss.xml`, the result is
that URL, and every candidate requested before it differs from it and probed false. -/
theorem DiscoverFeed_first_true_candidate (L : url.Lib) (find : goquery.Engine)
    (cl : fetch.Client) (site hint : String) :
    ((∃ c ∈ candidates L site hint, probeFeed cl c = true) →
      ∃ u, (candidates L site hint).find? (probeFeed cl) = some u ∧
        DiscoverFeed L find cl site hint =
          (.ok u, (candidates L site hint).takeWhile (fun c => !probeFeed cl c) ++ [u])) ∧
    ((∀ c, probeFeed cl c = true ↔ c = joinURL L site "/rss.xml") →
      DiscoverFeed L find cl site hint =
        (.ok (joinURL L site "/rss.xml"),
         (candidates L site hint).takeWhile (fun c => !probeFeed cl c) ++
           [joinURL L site "/rss.xml"]) ∧
      ∀ c ∈ (candidates L site hint).takeWhile (fun c => !probeFeed cl c),
        c ≠ joinURL L site "/rss.xml" ∧ probeFeed cl c = false) := by
  have key : ∀ u, (candidates L site hint).find? (probeFeed cl) = some u →
      DiscoverFeed L find cl site hint =
        (.ok u, (candidates L site hint).takeWhile (fun c => !probeFeed cl c) ++ [u]) := by
    intro u hu
    simp [DiscoverFeed, probeCandidates_eq, hu]
  constructor
  · rintro ⟨c, hc, hp⟩
    cases hf : (candidates L site hint).find? (probeFeed cl) with
    | none =>
      rw [List.find?_eq_none] at hf
      exact absurd hp (hf c hc)
    | some u => exact ⟨u, rfl, key u hf⟩
  · intro honly
    have hX : probeFeed cl (joinURL L site "/rss.xml") = true := (honly _).2 rfl
    cases hf : (candidates L site hint).find? (probeFeed cl) with
    | none =>
      rw [List.find?_eq_none] at hf
      exact absurd hX (hf _ (rss_mem_candidates L site hint))
    | some u =>
      have hu : u = joinURL L site "/rss.xml" := (honly u).1 (List.find?_some hf)
      subst hu
      refine ⟨key _ hf, ?_⟩
      intro c hc
      have hfalse := List.mem_takeWhile_imp hc
      simp only [Bool.not_eq_true'] at hfalse
      refine ⟨?_, hfalse⟩
      intro hcx
      rw [hcx, hX] at hfalse
      exact absurd hfalse (by decide)

/-- Witness for C1: the site `http://h` whose only feed is `/rss.xml`.  Discovery returns
`http://h/rss.xml` after requesting `index.xml` and `atom.xml`, and nothing else. -/
theorem DiscoverFeed_first_true_candidate_witness :
    (∃ c ∈ candidates url.std "http://h" "", probeFeed demo.rssOnly c = true) ∧
    (candidates url.std "http://h" "").find? (probeFeed demo.rssOnly) = some "http://h/rss.xml" ∧
    DiscoverFeed url.std goquery.simpleFind demo.rssOnly "http://h" "" =
      (.ok "http://h/rss.xml", ["http://h/index.xml", "http://h/atom.xml", "http://h/rss.xml"]) := by
  have hex : ∃ c ∈ candidates url.std "http://h" "", probeFeed demo.rssOnly c = true := by decide
  obtain ⟨u, hu, hd⟩ :=
    (DiscoverFeed_first_true_candidate url.std goquery.simpleFind demo.rssOnly "http://h" "").1 hex
  have hfind : (candidates url.std "http://h" "").find? (probeFeed demo.rssOnly) =
      some "http://h/rss.xml" := by decide
  have hu' : u = "http://h/rss.xml" := Option.some.inj (hu.symm.trans hfind)
  subst hu'
  refine ⟨hex, hfind, ?_⟩
  rw [hd]
  rfl

end feeds

/-! ## Feed discovery: the HTML fallback -/

namespace strings

/-- Substring search decides the infix relation. -/
theorem containsL_iff_isInfix (pat s : List Char) : containsL pat s = true ↔ pat <:+: s := by
  induction s with
  | nil => simp [containsL, List.isPrefixOf_iff_prefix]
  | cons c t ih =>
    simp only [containsL, Bool.or_eq_true, List.isPrefixOf_iff_prefix, ih, List.infix_cons_iff]

/-- A text contains what it was put together around. -/
theorem Contains_mid (a s b : String) : Contains (a ++ s ++ b) s = true := by
  unfold Contains
  rw [containsL_iff_isInfix]
  exact ⟨a.data, b.data, by simp [String.data_append]⟩

end strings

namespace feeds

open strings

/-- C2 (behaviour of the code at the failing input). On a page whose type-less
`/sitemap.xml` link precedes the `rel="alternate"` Atom link, the link chosen for probing
is the type-less one, and `DiscoverFeed` returns the sitemap as the feed; with the two
links in the other order the declared feed is chosen. -/
theorem pickLink_takes_first_in_document_order :
    pickLink url.std "http://h" (goquery.simpleFind "link" demo.typelessFirstPage) =
      "http://h/sitemap.xml" ∧
    (DiscoverFeed url.std goquery.simpleFind demo.sitemapSite "http://h" "").1 =
      .ok "http://h/sitemap.xml" ∧
    pickLink url.std "http://h" (goquery.simpleFind "link" demo.alternateFirstPage) =
      "http://h/feeds/all.atom" := by
  refine ⟨by decide, by rfl, by decide⟩

/-- The link the callback of `DiscoverFeed` stops at is the first `<link>` element that
meets one of its two conditions, and `found` is its `href` joined to the site; `found`
stays empty when no element meets them. -/
theorem pickLink_eq_find (L : url.Lib) (site : String) : ∀ links : List goquery.Node,
    pickLink L site links =
      match links.find? isFeedLink with
      | none => ""
      | some s => joinURL L site (goquery.Attr [s] "href") := by
  intro links
  induction links with
  | nil => rfl
  | cons s rest ih =>
    by_cases h1 : (Contains (ToLower (goquery.Attr [s] "rel")) "alternate" &&
        (Contains (ToLower (goquery.Attr [s] "type")) "rss" ||
          Contains (ToLower (goquery.Attr [s] "type")) "atom" ||
          Contains (ToLower (goquery.Attr [s] "type")) "json")) = true
    · have hq : isFeedLink s = true := by
        unfold isFeedLink
        simp only [h1, Bool.true_or]
      simp only [pickLink, h1, if_true, List.find?_cons, hq]
    · by_cases h2 : (decide (ToLower (goquery.Attr [s] "type") = "") &&
          (HasSuffix (ToLower (goquery.Attr [s] "href")) ".xml" ||
            HasSuffix (ToLower (goquery.Attr [s] "href")) ".rss" ||
            HasSuffix (ToLower (goquery.Attr [s] "href")) ".atom" ||
            HasSuffix (ToLower (goquery.Attr [s] "href")) ".json")) = true
      · have hq : isFeedLink s = true := by
          unfold isFeedLink
          simp only [h2, Bool.or_true]
        simp only [pickLink, h1, h2, if_true, List.find?_cons, hq]
        simp
      · have hq : isFeedLink s = false := by
          unfold isFeedLink
          simp only [Bool.not_eq_true] at h1 h2
          simp only [h1, h2, Bool.or_self]
        simp only [pickLink, h1, h2, List.find?_cons, hq, ih]
        simp


/-- The two error texts of `DiscoverFeed` contain the site URL. -/
theorem error_texts_name_site (site cause : String) :
    Contains ("no feed discovered for " ++ site) site = true ∧
    Contains ("GET site " ++ site ++ ": " ++ cause) site = true := by
  constructor
  · have := Contains_mid "no feed discovered for " site ""
    rwa [String.append_empty] at this
  · have := Contains_mid "GET site " site (": " ++ cause)
    rwa [← String.append_assoc] at this

/-- C3. `DiscoverFeed` returns a URL only if that URL probed true.  It returns `u` exactly
when `u` is the first candidate that probes true, or no candidate probes true, the site
page is fetched, the first `<link>` element of the page that declares a feed (or has no
type and a feed-like `href`) resolves to `u`, and `u` is not empty and probes true.  It
fails exactly when no candidate probes true and the fallback gives no link that probes
true: the fetch of the site fails, or no `<link>` element of the page qualifies, or the
first one that does resolves to the empty text or to a URL that probes false.  The error
of every failure is `no feed discovered for <site>` or `GET site <site>: <cause>`, and
contains the site URL. -/
theorem DiscoverFeed_result_sound (L : url.Lib) (find : goquery.Engine)
    (cl : fetch.Client) (site hint : String) :
    (∀ u, (DiscoverFeed L find cl site hint).1 = .ok u → probeFeed cl u = true) ∧
    (∀ u, (DiscoverFeed L find cl site hint).1 = .ok u ↔
      ((candidates L site hint).find? (probeFeed cl) = some u ∨
       ((∀ c ∈ candidates L site hint, probeFeed cl c = false) ∧
        ∃ resp s, cl.Get site = .ok resp ∧
          (find "link" resp.html).find? isFeedLink = some s ∧
          u = joinURL L site (goquery.Attr [s] "href") ∧ u ≠ "" ∧ probeFeed cl u = true))) ∧
    ((∃ e, (DiscoverFeed L find cl site hint).1 = .error e) ↔
      (∀ c ∈ candidates L site hint, probeFeed cl c = false) ∧
      ((∃ e, cl.Get site = .error e) ∨
       ∃ resp, cl.Get site = .ok resp ∧
         ((∀ s ∈ find "link" resp.html, isFeedLink s = false) ∨
          ∃ s, (find "link" resp.html).find? isFeedLink = some s ∧
            (joinURL L site (goquery.Attr [s] "href") = "" ∨
             probeFeed cl (joinURL L site (goquery.Attr [s] "href")) = false)))) ∧
    (∀ e, (DiscoverFeed L find cl site hint).1 = .error e →
      (e = "no feed discovered for " ++ site ∨
        ∃ cause, e = "GET site " ++ site ++ ": " ++ cause) ∧
      Contains e site = true) := by
  cases hf : (candidates L site hint).find? (probeFeed cl) with
  | some u0 =>
    have hu : probeFeed cl u0 = true := List.find?_some hf
    have hmem : u0 ∈ candidates L site hint := List.mem_of_find?_eq_some hf
    have hd : (DiscoverFeed L find cl site hint).1 = .ok u0 := by
      simp [DiscoverFeed, probeCandidates_eq, hf]
    rw [hd]
    refine ⟨?_, ?_, ?_, ?_⟩
    · intro v hv
      cases hv
      exact hu
    · intro u
      constructor
      · intro h
        cases h
        exact Or.inl rfl
      · rintro (h | ⟨hall, _⟩)
        · cases h
          rfl
        · rw [hall u0 hmem] at hu
          cases hu
    · constructor
      · rintro ⟨e, he⟩
        cases he
      · rintro ⟨hall, _⟩
        rw [hall u0 hmem] at hu
        cases hu
    · intro e he
      cases he
  | none =>
    have hall : ∀ c ∈ candidates L site hint, probeFeed cl c = false := by
      intro c hc
      have := (List.find?_eq_none.1 hf) c hc
      simpa using this
    cases hg : cl.Get site with
    | error cause =>
      have hd : (DiscoverFeed L find cl site hint).1 =
          .error ("GET site " ++ site ++ ": " ++ cause) := by
        simp [DiscoverFeed, probeCandidates_eq, hf, hg]
      rw [hd]
      refine ⟨?_, ?_, ?_, ?_⟩
      · intro v hv
        cases hv
      · intro u
        constructor
        · intro h
          cases h
        · rintro (h | ⟨_, resp, s, hr, _⟩)
          · cases h
          · cases hr
      · exact ⟨fun _ => ⟨hall, Or.inl ⟨cause, rfl⟩⟩, fun _ => ⟨_, rfl⟩⟩
      · intro e he
        cases he
        exact ⟨Or.inr ⟨cause, rfl⟩, (error_texts_name_site site cause).2⟩
    | ok resp =>
      have hpick := pickLink_eq_find L site (find "link" resp.html)
      cases hfind : (find "link" resp.html).find? isFeedLink with
      | none =>
        rw [hfind] at hpick
        have hnone : ∀ s ∈ find "link" resp.html, isFeedLink s = false := by
          intro s hs
          have := (List.find?_eq_none.1 hfind) s hs
          simpa using this
        have hd : (DiscoverFeed L find cl site hint).1 =
            .error ("no feed discovered for " ++ site) := by
          simp [DiscoverFeed, probeCandidates_eq, hf, hg, hpick]
        rw [hd]
        refine ⟨?_, ?_, ?_, ?_⟩
        · intro v hv
          cases hv
        · intro u
          constructor
          · intro h
            cases h
          · rintro (h | ⟨_, r, s, hr, hs, _⟩)
            · cases h
            · cases hr
              rw [hfind] at hs
              cases hs
        · exact ⟨fun _ => ⟨hall, Or.inr ⟨resp, rfl, Or.inl hnone⟩⟩, fun _ => ⟨_, rfl⟩⟩
        · intro e he
          cases he
          exact ⟨Or.inl rfl, (error_texts_name_site site "").1⟩
      | some s =>
        rw [hfind] at hpick
        dsimp only at hpick
        by_cases hempty : joinURL L site (goquery.Attr [s] "href") = ""
        · have hd : (DiscoverFeed L find cl site hint).1 =
              .error ("no feed discovered for " ++ site) := by
            simp [DiscoverFeed, probeCandidates_eq, hf, hg, hpick, hempty]
          rw [hd]
          refine ⟨?_, ?_, ?_, ?_⟩
          · intro v hv
            cases hv
          · intro u
            constructor
            · intro h
              cases h
            · rintro (h | ⟨_, r, s', hr, hs, hu, hne, _⟩)
              · cases h
              · cases hr
                rw [hfind] at hs
                cases hs
                exact absurd (hu.trans hempty) hne
          · exact ⟨fun _ => ⟨hall, Or.inr ⟨resp, rfl, Or.inr ⟨s, hfind, Or.inl hempty⟩⟩⟩,
              fun _ => ⟨_, rfl⟩⟩
          · intro e he
            cases he
            exact ⟨Or.inl rfl, (error_texts_name_site site "").1⟩
        · by_cases hp : probeFeed cl (joinURL L site (goquery.Attr [s] "href")) = true
          · have hd : (DiscoverFeed L find cl site hint).1 =
                .ok (joinURL L site (goquery.Attr [s] "href")) := by
              simp [DiscoverFeed, probeCandidates_eq, hf, hg, hpick, hempty, hp]
            rw [hd]
            refine ⟨?_, ?_, ?_, ?_⟩
            · intro v hv
              cases hv
              exact hp
            · intro u
              constructor
              · intro h
                cases h
                exact Or.inr ⟨hall, resp, s, rfl, hfind, rfl, hempty, hp⟩
              · rintro (h | ⟨_, r, s', hr, hs, hu, _, _⟩)
                · cases h
                · cases hr
                  rw [hfind] at hs
                  cases hs
                  rw [hu]
            · constructor
              · rintro ⟨e, he⟩
                cases he
              · rintro ⟨_, h | ⟨r, hr, h⟩⟩
                · obtain ⟨e, he⟩ := h
                  cases he
                · cases hr
                  rcases h with h | ⟨s', hs, h⟩
                  · have := h s (List.mem_of_find?_eq_some hfind)
                    rw [List.find?_some hfind] at this
                    cases this
                  · rw [hfind] at hs
                    cases hs
                    rcases h with h | h
                    · exact absurd h hempty
                    · rw [hp] at h
                      cases h
            · intro e he
              cases he
          · have hp' : probeFeed cl (joinURL L site (goquery.Attr [s] "href")) = false := by
              simpa using hp
            have hd : (DiscoverFeed L find cl site hint).1 =
                .error ("no feed discovered for " ++ site) := by
              simp [DiscoverFeed, probeCandidates_eq, hf, hg, hpick, hempty, hp']
            rw [hd]
            refine ⟨?_, ?_, ?_, ?_⟩
            · intro v hv
              cases hv
            · intro u
              constructor
              · intro h
                cases h
              · rintro (h | ⟨_, r, s', hr, hs, hu, _, hpu⟩)
                · cases h
                · cases hr
                  rw [hfind] at hs
                  cases hs
                  rw [hu, hp'] at hpu
                  cases hpu
            · exact ⟨fun _ => ⟨hall, Or.inr ⟨resp, rfl, Or.inr ⟨s, hfind, Or.inr hp'⟩⟩⟩,
                fun _ => ⟨_, rfl⟩⟩
            · intro e he
              cases he
              exact ⟨Or.inl rfl, (error_texts_name_site site "").1⟩

/-- Witness for C3.  On the site with the page `linkedPage` no candidate probes true and
discovery succeeds through the page: the style sheet and the alternate HTML page do not
qualify, the declared RSS link does, and its URL probes true.  Discovery fails, with an
error that contains the site URL, on the page without a qualifying link (although the site
has a feed), on the page whose declared link leads to a 404, and on the site that answers
nothing. -/
theorem DiscoverFeed_result_sound_witness :
    (DiscoverFeed url.std goquery.simpleFind demo.linkedSite "http://h" "").1 =
      .ok "http://h/feeds/main" ∧
    probeFeed demo.linkedSite "http://h/feeds/main" = true ∧
    (goquery.simpleFind "link" demo.linkedPage).map isFeedLink = [false, false, true] ∧
    (DiscoverFeed url.std goquery.simpleFind demo.unlinkedSite "http://h" "").1 =
      .error "no feed discovered for http://h" ∧
    (goquery.simpleFind "link" demo.unlinkedPage).map isFeedLink = [false, false, false] ∧
    (DiscoverFeed url.std goquery.simpleFind demo.brokenLinkSite "http://h" "").1 =
      .error "no feed discovered for http://h" ∧
    (DiscoverFeed url.std goquery.simpleFind demo.deadSite "http://h" "").1 =
      .error "GET site http://h: http status: 404 Not Found" ∧
    Contains "GET site http://h: http status: 404 Not Found" "http://h" = true ∧
    Contains "no feed discovered for http://h" "http://h" = true := by
  have hlinked := DiscoverFeed_result_sound url.std goquery.simpleFind demo.linkedSite
    "http://h" ""
  have hunlinked := DiscoverFeed_result_sound url.std goquery.simpleFind demo.unlinkedSite
    "http://h" ""
  have hbroken := DiscoverFeed_result_sound url.std goquery.simpleFind demo.brokenLinkSite
    "http://h" ""
  have hdead := DiscoverFeed_result_sound url.std goquery.simpleFind demo.deadSite
    "http://h" ""
  have h1 : (DiscoverFeed url.std goquery.simpleFind demo.linkedSite "http://h" "").1 =
      .ok "http://h/feeds/main" :=
    (hlinked.2.1 "http://h/feeds/main").mpr (Or.inr ⟨by decide,
      { contentType := "text/html", body := "", html := demo.linkedPage,
        feed := .error "no feed" },
      .elem "link"
        [("rel", "Alternate"), ("type", "application/rss+xml"), ("href", "/feeds/main")] [],
      rfl, rfl, by decide, by decide, by decide⟩)
  have h2 : (DiscoverFeed url.std goquery.simpleFind demo.unlinkedSite "http://h" "").1 =
      .error "no feed discovered for http://h" := by rfl
  have h3 : (DiscoverFeed url.std goquery.simpleFind demo.brokenLinkSite "http://h" "").1 =
      .error "no feed discovered for http://h" := by rfl
  have h4 : (DiscoverFeed url.std goquery.simpleFind demo.deadSite "http://h" "").1 =
      .error "GET site http://h: http status: 404 Not Found" := by rfl
  exact ⟨h1, hlinked.1 _ h1, by decide, h2, by decide, h3, h4, (hdead.2.2.2 _ h4).2,
    (hunlinked.2.2.2 _ h2).2⟩


end feeds

/-! ## The transport wrapper and the probe -/

namespace strings

/-- A text that contains `mid` contains every substring of `mid`. -/
theorem Contains_of_Contains_sub (s mid pat : String)
    (hp : containsL pat.data mid.data = true) (h : Contains s mid = true) :
    Contains s pat = true := by
  unfold Contains at *
  rw [containsL_iff_isInfix] at *
  exact List.IsInfix.trans hp h

end strings

namespace fetch

/-- When every attempt fails, the loop of `Get` ends in an error. -/
theorem getLoop_error_of_failed (t : Transport) (url : String) :
    ∀ (n i : Nat) (lastErr : String),
      (∀ j, i ≤ j → j < i + n → (t.Do url j).failed = true) →
      ∃ e, getLoop t url n i lastErr = .error e := by
  intro n
  induction n with
  | zero => intro i lastErr _; exact ⟨lastErr, rfl⟩
  | succ n ih =>
    intro i lastErr h
    have hi := h i (Nat.le_refl i) (by omega)
    have hrest : ∀ j, i + 1 ≤ j → j < i + 1 + n → (t.Do url j).failed = true :=
      fun j h1 h2 => h j (by omega) (by omega)
    unfold getLoop
    cases hreq : t.newRequestErr url with
    | some e => exact ⟨_, rfl⟩
    | none =>
      cases hdo : t.Do url i with
      | transportError msg =>
        cases hctx : t.ctxErr url i with
        | some e => exact ⟨_, rfl⟩
        | none => exact ih (i + 1) msg hrest
      | response code status resp =>
        rw [hdo] at hi
        have hcode : ¬(200 ≤ code ∧ code < 300) := by
          simp only [Attempt.failed, Bool.not_eq_true', Bool.and_eq_false_iff,
            decide_eq_false_iff_not] at hi
          omega
        simp only [hcode, if_false]
        cases hctx : t.ctxErr url i with
        | some e => exact ⟨_, rfl⟩
        | none => exact ih (i + 1) _ hrest

/-- When each of the `retry + 1` attempts is a transport error or a non-2xx status, `Get`
returns an error. -/
theorem Get_error_of_failed (c : Client) (url : String)
    (h : ∀ i, i ≤ c.retry → (c.net.Do url i).failed = true) :
    ∃ e, c.Get url = .error e :=
  getLoop_error_of_failed c.net url (c.retry + 1) 0 ""
    (fun j _ hj => h j (by omega))

end fetch

namespace feeds

open strings

/-- What follows the first `n` bytes of a body is not read. -/
theorem limitL_append_of_le (pad rest : List Char) :
    ∀ n, n ≤ byteLen pad → limitL n (pad ++ rest) = limitL n pad := by
  induction pad with
  | nil =>
    intro n hn
    have hn0 : n = 0 := by simpa [byteLen] using hn
    subst hn0
    cases rest with
    | nil => rfl
    | cons c t =>
      have := Char.utf8Size_pos c
      simp [limitL]
      omega
  | cons c p ih =>
    intro n hn
    simp only [List.cons_append, limitL]
    by_cases hc : c.utf8Size ≤ n
    · simp only [hc, if_true]
      have hle : n - c.utf8Size ≤ byteLen p := by
        simp only [byteLen, List.map_cons, List.sum_cons] at hn ⊢
        omega
      exact congrArg (c :: ·) (ih (n - c.utf8Size) hle)
    · simp [hc]

/-- A body of at most `n` bytes is read whole. -/
theorem limitL_of_byteLen_le (l : List Char) : ∀ n, byteLen l ≤ n → limitL n l = l := by
  induction l with
  | nil => intro n _; rfl
  | cons c t ih =>
    intro n hn
    simp only [byteLen, List.map_cons, List.sum_cons] at hn
    have hc : c.utf8Size ≤ n := by omega
    simp only [limitL, hc, if_true]
    exact congrArg (c :: ·) (ih (n - c.utf8Size) (by simp only [byteLen]; omega))

/-- C4. A 2xx response whose `Content-Type`, lower-cased, contains `rss`, `atom` or `xml`
probes true whatever its body; and when every attempt of the request ends in a transport
error or a non-2xx status (more generally, whenever `Get` returns an error) the probe is
`false`: a boolean, not an error. -/
theorem probeFeed_content_type_and_errors (cl : fetch.Client) (feedURL : String) :
    (∀ resp, cl.Get feedURL = .ok resp →
      (Contains (ToLower resp.contentType) "rss" = true ∨
       Contains (ToLower resp.contentType) "atom" = true ∨
       Contains (ToLower resp.contentType) "xml" = true) →
      probeFeed cl feedURL = true) ∧
    ((∀ i, i ≤ cl.retry → (cl.net.Do feedURL i).failed = true) →
      probeFeed cl feedURL = false) ∧
    (∀ e, cl.Get feedURL = .error e → probeFeed cl feedURL = false) := by
  have herr : ∀ e, cl.Get feedURL = .error e → probeFeed cl feedURL = false := by
    intro e he
    simp [probeFeed, he]
  refine ⟨?_, ?_, herr⟩
  · intro resp hget hct
    simp only [probeFeed, hget]
    rcases hct with h | h | h <;> simp [h]
  · intro h
    obtain ⟨e, he⟩ := fetch.Get_error_of_failed cl feedURL h
    exact herr e he

/-- Witness for C4: an upper-case RSS `Content-Type` on an HTML body probes true; a URL
answered with 404 probes false. -/
theorem probeFeed_content_type_and_errors_witness :
    probeFeed demo.probeSite "http://p/upper" = true ∧
    probeFeed demo.probeSite "http://p/missing" = false := by
  refine ⟨?_, ?_⟩
  · exact (probeFeed_content_type_and_errors demo.probeSite "http://p/upper").1
      (demo.plain "Application/RSS+XML; charset=UTF-8" "<html><body>not a feed</body></html>")
      (by rfl) (Or.inl (by decide))
  · exact (probeFeed_content_type_and_errors demo.probeSite "http://p/missing").2.1
      (by intro i _; rfl)

/-- What `io.LimitReader` lets through: a prefix of the body, of at most `n` bytes, that
cannot be extended by the next character without passing `n` bytes. -/
theorem limitL_spec : ∀ (l : List Char) (n : Nat),
    limitL n l <+: l ∧ byteLen (limitL n l) ≤ n ∧
    ∀ c rest, l = limitL n l ++ c :: rest → n < byteLen (limitL n l) + c.utf8Size := by
  intro l
  induction l with
  | nil =>
    intro n
    refine ⟨by simp [limitL], by simp [limitL, byteLen], ?_⟩
    intro c rest h
    simp [limitL] at h
  | cons d t ih =>
    intro n
    by_cases hd : d.utf8Size ≤ n
    · obtain ⟨h1, h2, h3⟩ := ih (n - d.utf8Size)
      have hl : limitL n (d :: t) = d :: limitL (n - d.utf8Size) t := by
        simp only [limitL, hd, if_true]
      rw [hl]
      refine ⟨?_, ?_, ?_⟩
      · exact (List.prefix_cons_inj d).2 h1
      · simp only [byteLen, List.map_cons, List.sum_cons] at h2 ⊢
        omega
      · intro c rest h
        have h' : t = limitL (n - d.utf8Size) t ++ c :: rest := by
          simpa using h
        have := h3 c rest h'
        simp only [byteLen, List.map_cons, List.sum_cons] at this ⊢
        omega
    · have hl : limitL n (d :: t) = [] := by
        simp only [limitL, hd, if_false]
      rw [hl]
      refine ⟨List.nil_prefix, by simp [byteLen], ?_⟩
      intro c rest h
      simp only [List.nil_append, List.cons.injEq] at h
      rw [← h.1]
      simp only [byteLen, List.map_nil, List.sum_nil]
      omega

/-- Reading a body that starts with `n` spaces: the spaces, then what the remaining limit
lets through of the rest. -/
theorem limitL_replicate_space_append (rest : List Char) (k : Nat) : ∀ n : Nat,
    limitL (n + k) (List.replicate n ' ' ++ rest) = List.replicate n ' ' ++ limitL k rest := by
  have h1 : Char.utf8Size ' ' = 1 := by decide
  intro n
  induction n with
  | zero => simp
  | succ n ih =>
    have hle : Char.utf8Size ' ' ≤ n + 1 + k := by rw [h1]; omega
    have hsub : n + 1 + k - Char.utf8Size ' ' = n + k := by rw [h1]; omega
    show limitL (n + 1 + k) (' ' :: (List.replicate n ' ' ++ rest)) = _
    rw [limitL, if_pos hle, hsub, ih]
    rfl

/-- A pattern that does not start with the character of a run does not start inside the
run. -/
theorem containsL_replicate_append (c d : Char) (pat tail : List Char) (hcd : d ≠ c) :
    ∀ n : Nat, containsL (d :: pat) (List.replicate n c ++ tail) = containsL (d :: pat) tail := by
  intro n
  induction n with
  | zero => simp
  | succ n ih =>
    have hdc : (d == c) = false := by simpa using hcd
    simp only [List.replicate_succ, List.cons_append, containsL, List.isPrefixOf, hdc,
      Bool.false_and, Bool.false_or]
    exact ih

/-- Lower-casing a run of spaces followed by a tail. -/
theorem map_lowerRune_replicate_space (n : Nat) (tail : List Char) :
    (List.replicate n ' ' ++ tail).map lowerRune = List.replicate n ' ' ++ tail.map lowerRune := by
  have h1 : lowerRune ' ' = ' ' := by decide
  simp only [List.map_append, List.map_replicate, h1]

/-- The probe's view of a body of `n` spaces followed by `tail`, with `n + k = 2048`:
whether the lower-cased bytes read contain a pattern that does not start with a space is
decided on the first `k` bytes of the tail. -/
theorem Contains_head_padded (n k : Nat) (hnk : n + k = 2048) (tail pat : String) (d : Char)
    (rest : List Char) (hpat : pat.data = d :: rest) (hd : d ≠ ' ') :
    Contains (ToLower (readLimited (demo.padded n tail) 2048)) pat =
      containsL pat.data ((limitL k tail.data).map lowerRune) := by
  unfold Contains ToLower readLimited demo.padded
  simp only
  rw [← hnk, limitL_replicate_space_append, map_lowerRune_replicate_space, hpat,
    containsL_replicate_append ' ' d rest _ hd]

/-- C5. For a 2xx response whose `Content-Type` contains `json` and none of `rss`, `atom`,
`xml`, the probe is true exactly when the lower-cased first 2048 bytes of the body contain
`jsonfeed` or the JSON-Feed version text `"version":"https://jsonfeed.org/version`, which
is exactly when they contain `jsonfeed`; so it is true when they contain the version URL
`https://jsonfeed.org/version`, and JSON whose prefix lacks `jsonfeed` probes false, also
when it contains `<rss`, `<feed` or `<rdf`.  The bytes read are a prefix of the body of at
most 2048 bytes that the next character of the body would take past 2048 bytes; they are
those of any prefix of the body that is at least 2048 bytes long, so that what follows
byte 2048 does not count. -/
theorem probeFeed_json_needs_signature (cl : fetch.Client) (feedURL : String)
    (resp : fetch.Response) (hget : cl.Get feedURL = .ok resp)
    (hjson : Contains (ToLower resp.contentType) "json" = true)
    (hrss : Contains (ToLower resp.contentType) "rss" = false)
    (hatom : Contains (ToLower resp.contentType) "atom" = false)
    (hxml : Contains (ToLower resp.contentType) "xml" = false) :
    (probeFeed cl feedURL = true ↔
      (Contains (ToLower (readLimited resp.body 2048)) "jsonfeed" = true ∨
       Contains (ToLower (readLimited resp.body 2048))
         "\"version\":\"https://jsonfeed.org/version" = true)) ∧
    (probeFeed cl feedURL = true ↔
      Contains (ToLower (readLimited resp.body 2048)) "jsonfeed" = true) ∧
    (Contains (ToLower (readLimited resp.body 2048)) "https://jsonfeed.org/version" = true →
      probeFeed cl feedURL = true) ∧
    (Contains (ToLower (readLimited resp.body 2048)) "jsonfeed" = false →
      probeFeed cl feedURL = false) ∧
    ((readLimited resp.body 2048).data <+: resp.body.data ∧
      byteLen (readLimited resp.body 2048).data ≤ 2048 ∧
      ∀ c rest, resp.body.data = (readLimited resp.body 2048).data ++ c :: rest →
        2048 < byteLen (readLimited resp.body 2048).data + c.utf8Size) ∧
    (∀ pad rest : String, resp.body = pad ++ rest → 2048 ≤ byteLen pad.data →
      readLimited resp.body 2048 = readLimited pad 2048) := by
  have hiff : probeFeed cl feedURL = true ↔
      (Contains (ToLower (readLimited resp.body 2048)) "jsonfeed" = true ∨
       Contains (ToLower (readLimited resp.body 2048))
         "\"version\":\"https://jsonfeed.org/version" = true) := by
    simp [probeFeed, hget, hjson, hrss, hatom, hxml]
  have htoken : probeFeed cl feedURL = true ↔
      Contains (ToLower (readLimited resp.body 2048)) "jsonfeed" = true := by
    rw [hiff]
    constructor
    · rintro (h | h)
      · exact h
      · exact Contains_of_Contains_sub _ "\"version\":\"https://jsonfeed.org/version" "jsonfeed"
          (by decide) h
    · exact Or.inl
  refine ⟨hiff, htoken, ?_, ?_, limitL_spec resp.body.data 2048, ?_⟩
  · intro h
    exact htoken.2 (Contains_of_Contains_sub _ "https://jsonfeed.org/version" "jsonfeed"
      (by decide) h)
  · intro hno
    cases hp : probeFeed cl feedURL with
    | false => rfl
    | true =>
      rw [htoken.1 hp] at hno
      cases hno
  · intro pad rest hbody hlen
    simp only [readLimited, hbody, String.data_append]
    rw [limitL_append_of_le pad.data rest.data 2048 hlen]

/-- Witness for C5: the JSON Feed of the repository's test probes true, also with its
version text in upper case; a JSON document that only mentions `<rss>`, `<feed>` and
`<rdf>` probes false; a version text that starts after 2048 bytes of padding does not
count; the token `jsonfeed` counts when it ends with byte 2048 and does not when its last
letter is byte 2049. -/
theorem probeFeed_json_needs_signature_witness :
    probeFeed demo.probeSite "http://p/index.json" = true ∧
    probeFeed demo.probeSite "http://p/data.json" = false ∧
    probeFeed demo.probeSite "http://p/upper.json" = true ∧
    probeFeed demo.probeSite "http://p/late.json" = false ∧
    probeFeed demo.probeSite "http://p/edge-in.json" = true ∧
    probeFeed demo.probeSite "http://p/edge-out.json" = false := by
  have h1 := probeFeed_json_needs_signature demo.probeSite "http://p/index.json"
    (demo.plain "application/feed+json"
      "\x7b\"version\":\"https://jsonfeed.org/version/1.1\",\"items\":[]\x7d")
    (by rfl) (by decide) (by decide) (by decide) (by decide)
  have h2 := probeFeed_json_needs_signature demo.probeSite "http://p/data.json"
    (demo.plain "application/json" "\x7b\"note\":\"<rss> <feed> <rdf>\",\"n\":1\x7d")
    (by rfl) (by decide) (by decide) (by decide) (by decide)
  have h3 := probeFeed_json_needs_signature demo.probeSite "http://p/upper.json"
    (demo.plain "application/json" "\x7b\"Version\":\"HTTPS://JSONFEED.ORG/VERSION/1\"\x7d")
    (by rfl) (by decide) (by decide) (by decide) (by decide)
  have h4 := probeFeed_json_needs_signature demo.probeSite "http://p/late.json"
    (demo.plain "application/json"
      (demo.padded 2048 "\x7b\"version\":\"https://jsonfeed.org/version/1.1\"\x7d"))
    (by rfl) (by decide) (by decide) (by decide) (by decide)
  have h5 := probeFeed_json_needs_signature demo.probeSite "http://p/edge-in.json"
    (demo.plain "application/json" (demo.padded 2040 "jsonfeed"))
    (by rfl) (by decide) (by decide) (by decide) (by decide)
  have h6 := probeFeed_json_needs_signature demo.probeSite "http://p/edge-out.json"
    (demo.plain "application/json" (demo.padded 2041 "jsonfeed"))
    (by rfl) (by decide) (by decide) (by decide) (by decide)
  refine ⟨h1.1.2 (Or.inr (by decide)), h2.2.2.2.1 (by decide), h3.2.2.1 (by decide),
    h4.2.2.2.1 ?_, h5.2.1.2 ?_, h6.2.2.2.1 ?_⟩
  · exact (Contains_head_padded 2048 0 rfl _ "jsonfeed" 'j' _ rfl (by decide)).trans (by decide)
  · exact (Contains_head_padded 2040 8 rfl _ "jsonfeed" 'j' _ rfl (by decide)).trans (by decide)
  · exact (Contains_head_padded 2041 7 rfl _ "jsonfeed" 'j' _ rfl (by decide)).trans (by decide)

/-- Counterexample to C6: a JSON Feed document written with a space after the colon of its
`version` member, served as `text/plain`.  Its version URL is in the first 2048 bytes, yet
the probe is false, because the text searched for, `"version":"https://jsonfeed.org/version`,
has no space; the same document served as `application/feed+json` probes true, by the
token `jsonfeed`. -/
theorem probeFeed_version_url_alone :
    Contains (ToLower "text/plain") "rss" = false ∧
    Contains (ToLower "text/plain") "atom" = false ∧
    Contains (ToLower "text/plain") "xml" = false ∧
    Contains (ToLower "text/plain") "json" = false ∧
    Contains (ToLower (readLimited demo.spacedJsonFeed 2048)) "https://jsonfeed.org/version" =
      true ∧
    Contains (ToLower (readLimited demo.spacedJsonFeed 2048))
      "\"version\":\"https://jsonfeed.org/version" = false ∧
    probeFeed demo.probeSite "http://p/spaced-jsonfeed" = false ∧
    probeFeed demo.probeSite "http://p/spaced.json" = true := by
  decide

/-- Claim C6, amended: for a 2xx response whose `Content-Type` is absent or contains none of
`rss`, `atom`, `xml`, `json`, the probe is true exactly when the lower-cased first 2048
bytes of the body contain `<rss`, `<feed`, `<rdf` or the text
`"version":"https://jsonfeed.org/version`, written so, without white space.  The bytes read
are a prefix of the body of at most 2048 bytes that the next character of the body would
take past 2048 bytes; they are those of any prefix of the body that is at least 2048 bytes
long, so that what follows byte 2048 does not count. -/
theorem probeFeed_sniffs_body_prefix (cl : fetch.Client) (feedURL : String)
    (resp : fetch.Response) (hget : cl.Get feedURL = .ok resp)
    (hrss : Contains (ToLower resp.contentType) "rss" = false)
    (hatom : Contains (ToLower resp.contentType) "atom" = false)
    (hxml : Contains (ToLower resp.contentType) "xml" = false)
    (hjson : Contains (ToLower resp.contentType) "json" = false) :
    (probeFeed cl feedURL = true ↔
      (Contains (ToLower (readLimited resp.body 2048)) "<rss" = true ∨
       Contains (ToLower (readLimited resp.body 2048)) "<feed" = true ∨
       Contains (ToLower (readLimited resp.body 2048)) "<rdf" = true ∨
       Contains (ToLower (readLimited resp.body 2048))
         "\"version\":\"https://jsonfeed.org/version" = true)) ∧
    ((readLimited resp.body 2048).data <+: resp.body.data ∧
      byteLen (readLimited resp.body 2048).data ≤ 2048 ∧
      ∀ c rest, resp.body.data = (readLimited resp.body 2048).data ++ c :: rest →
        2048 < byteLen (readLimited resp.body 2048).data + c.utf8Size) ∧
    (∀ pad rest : String, resp.body = pad ++ rest → 2048 ≤ byteLen pad.data →
      readLimited resp.body 2048 = readLimited pad 2048) := by
  refine ⟨?_, limitL_spec resp.body.data 2048, ?_⟩
  · have hfj : Contains (ToLower resp.contentType) "feed+json" = false := by
      cases hc : Contains (ToLower resp.contentType) "feed+json" with
      | false => rfl
      | true =>
        have := Contains_of_Contains_sub _ "feed+json" "json" (by decide) hc
        rw [hjson] at this
        cases this
    simp [probeFeed, hget, hjson, hrss, hatom, hxml, hfj, or_assoc]
  · intro pad rest hbody hlen
    simp only [readLimited, hbody, String.data_append]
    rw [limitL_append_of_le pad.data rest.data 2048 hlen]

/-- Witness for C6: without a `Content-Type` an upper-case `<RSS` marker probes true; a
JSON Feed written without white space and served as `text/plain` probes true by its
version text; a marker that starts after 2048 bytes of padding does not count; the marker
`<rss` counts when it ends with byte 2048 and does not when its last letter is byte
2049. -/
theorem probeFeed_sniffs_body_prefix_witness :
    probeFeed demo.probeSite "http://p/untyped-feed" = true ∧
    probeFeed demo.probeSite "http://p/untyped-jsonfeed" = true ∧
    probeFeed demo.probeSite "http://p/late" = false ∧
    probeFeed demo.probeSite "http://p/edge-in" = true ∧
    probeFeed demo.probeSite "http://p/edge-out" = false := by
  have h1 := probeFeed_sniffs_body_prefix demo.probeSite "http://p/untyped-feed"
    (demo.plain "" "<?xml version=\"1.0\"?><RSS version=\"2.0\"></RSS>")
    (by rfl) (by decide) (by decide) (by decide) (by decide)
  have h2 := probeFeed_sniffs_body_prefix demo.probeSite "http://p/untyped-jsonfeed"
    (demo.plain "text/plain" "\x7b\"version\":\"https://jsonfeed.org/version/1.1\",\"items\":[]\x7d")
    (by rfl) (by decide) (by decide) (by decide) (by decide)
  have h3 := probeFeed_sniffs_body_prefix demo.probeSite "http://p/late"
    (demo.plain "text/html" (demo.padded 2048 "<rss version=\"2.0\">"))
    (by rfl) (by decide) (by decide) (by decide) (by decide)
  have h4 := probeFeed_sniffs_body_prefix demo.probeSite "http://p/edge-in"
    (demo.plain "" (demo.padded 2044 "<rss"))
    (by rfl) (by decide) (by decide) (by decide) (by decide)
  have h5 := probeFeed_sniffs_body_prefix demo.probeSite "http://p/edge-out"
    (demo.plain "" (demo.padded 2045 "<rss"))
    (by rfl) (by decide) (by decide) (by decide) (by decide)
  refine ⟨h1.1.2 (Or.inl (by decide)), h2.1.2 (Or.inr (Or.inr (Or.inr (by decide)))), ?_,
    h4.1.2 (Or.inl ?_), ?_⟩
  · cases hp : probeFeed demo.probeSite "http://p/late" with
    | false => rfl
    | true =>
      have hsig := h3.1.1 hp
      have e1 := (Contains_head_padded 2048 0 rfl "<rss version=\"2.0\">" "<rss" '<' _ rfl
        (by decide)).trans (by decide : _ = false)
      have e2 := (Contains_head_padded 2048 0 rfl "<rss version=\"2.0\">" "<feed" '<' _ rfl
        (by decide)).trans (by decide : _ = false)
      have e3 := (Contains_head_padded 2048 0 rfl "<rss version=\"2.0\">" "<rdf" '<' _ rfl
        (by decide)).trans (by decide : _ = false)
      have e4 := (Contains_head_padded 2048 0 rfl "<rss version=\"2.0\">"
        "\"version\":\"https://jsonfeed.org/version" '"' _ rfl (by decide)).trans
        (by decide : _ = false)
      rcases hsig with h | h | h | h
      · exact Bool.noConfusion (e1.symm.trans h)
      · exact Bool.noConfusion (e2.symm.trans h)
      · exact Bool.noConfusion (e3.symm.trans h)
      · exact Bool.noConfusion (e4.symm.trans h)
  · exact (Contains_head_padded 2044 4 rfl "<rss" "<rss" '<' _ rfl (by decide)).trans (by decide)
  · cases hp : probeFeed demo.probeSite "http://p/edge-out" with
    | false => rfl
    | true =>
      have hsig := h5.1.1 hp
      have e1 := (Contains_head_padded 2045 3 rfl "<rss" "<rss" '<' _ rfl
        (by decide)).trans (by decide : _ = false)
      have e2 := (Contains_head_padded 2045 3 rfl "<rss" "<feed" '<' _ rfl
        (by decide)).trans (by decide : _ = false)
      have e3 := (Contains_head_padded 2045 3 rfl "<rss" "<rdf" '<' _ rfl
        (by decide)).trans (by decide : _ = false)
      have e4 := (Contains_head_padded 2045 3 rfl "<rss"
        "\"version\":\"https://jsonfeed.org/version" '"' _ rfl (by decide)).trans
        (by decide : _ = false)
      rcases hsig with h | h | h | h
      · exact Bool.noConfusion (e1.symm.trans h)
      · exact Bool.noConfusion (e2.symm.trans h)
      · exact Bool.noConfusion (e3.symm.trans h)
      · exact Bool.noConfusion (e4.symm.trans h)


end feeds

/-! ## The attribute-extraction expressions -/

namespace strings

/-- A split has at least one part. -/
theorem splitL_ne_nil (sep : List Char) : ∀ (l : List Char) (k : Nat), splitL sep l k ≠ [] := by
  intro l
  induction l with
  | nil => intro k; simp [splitL]
  | cons c t ih =>
    intro k
    cases k with
    | succ k => simpa [splitL] using ih k
    | zero =>
      simp only [splitL]
      split
      · simp
      · split <;> simp

/-- Appending a character that does not occur in `sep` creates no match of `sep`. -/
theorem isPrefixOf_snoc (c : Char) : ∀ (sep l : List Char), c ∉ sep →
    sep.isPrefixOf (l ++ [c]) = sep.isPrefixOf l := by
  intro sep
  induction sep with
  | nil => intro l _; simp
  | cons d s ih =>
    intro l hc
    have hdc : d ≠ c := fun h => hc (by simp [h])
    have hcs : c ∉ s := fun h => hc (by simp [h])
    cases l with
    | nil => simp [List.isPrefixOf, hdc]
    | cons x t => simp [List.isPrefixOf, ih t hcs]

/-- The function `snocLast` passes over a part that is not the last. -/
theorem snocLast_cons (c : Char) (p : List Char) (ps : List (List Char)) (h : ps ≠ []) :
    snocLast c (p :: ps) = p :: snocLast c ps := by
  cases ps with
  | nil => exact absurd rfl h
  | cons q qs => rfl

/-- Appending a character that does not occur in the separator extends the last part. -/
theorem splitL_snoc (sep : List Char) (c : Char) (hsep : sep ≠ []) (hc : c ∉ sep) :
    ∀ (l : List Char) (k : Nat), k ≤ l.length →
      splitL sep (l ++ [c]) k = snocLast c (splitL sep l k) := by
  intro l
  induction l with
  | nil =>
    intro k hk
    have hk0 : k = 0 := by simpa using hk
    subst hk0
    have hpre : sep.isPrefixOf [c] = false := by
      cases sep with
      | nil => exact absurd rfl hsep
      | cons d s =>
        have hdc : d ≠ c := fun h => hc (by simp [h])
        simp [List.isPrefixOf, hdc]
    simp [splitL, hpre, snocLast]
  | cons d t ih =>
    intro k hk
    cases k with
    | succ k =>
      simp only [List.cons_append, splitL]
      exact ih k (by simpa using hk)
    | zero =>
      simp only [List.cons_append, splitL, List.append_eq]
      have hpre : sep.isPrefixOf (d :: (t ++ [c])) = sep.isPrefixOf (d :: t) := by
        have := isPrefixOf_snoc c sep (d :: t) hc
        simpa using this
      rw [hpre]
      by_cases hm : sep.isPrefixOf (d :: t) = true
      · simp only [hm, if_true]
        have hlen : sep.length - 1 ≤ t.length := by
          have := (List.isPrefixOf_iff_prefix.1 hm).length_le
          simp at this
          omega
        rw [ih _ hlen, snocLast_cons _ _ _ (splitL_ne_nil _ _ _)]
      · simp only [hm]
        rw [ih 0 (Nat.zero_le _)]
        cases hs : splitL sep t 0 with
        | nil => exact absurd hs (splitL_ne_nil _ _ _)
        | cons p ps =>
          cases ps with
          | nil => simp [snocLast]
          | cons q qs => simp [snocLast]

/-- Right trimming is `List.rdropWhile`. -/
theorem trimRightL_eq (l : List Char) : trimRightL l = l.rdropWhile isSpace := rfl

/-- A trailing space is trimmed. -/
theorem trimRightL_snoc_space (l : List Char) (c : Char) (h : isSpace c = true) :
    trimRightL (l ++ [c]) = trimRightL l := by
  simp [trimRightL_eq, List.rdropWhile_concat_pos, h]

/-- A leading space does not change the trimmed text. -/
theorem trim_cons_space (c : Char) (l : List Char) (h : isSpace c = true) :
    trimRightL ((c :: l).dropWhile isSpace) = trimRightL (l.dropWhile isSpace) := by
  simp [List.dropWhile_cons, h]

/-- A trailing space does not change the trimmed text. -/
theorem trim_snoc_space (l : List Char) (c : Char) (h : isSpace c = true) :
    trimRightL ((l ++ [c]).dropWhile isSpace) = trimRightL (l.dropWhile isSpace) := by
  rw [List.dropWhile_append]
  split
  · rename_i hempty
    have : l.dropWhile isSpace = [] := by simpa using hempty
    simp [this, List.dropWhile_cons, h, trimRightL]
  · exact trimRightL_snoc_space _ c h

/-- A space appended to the last part does not change the trimmed parts. -/
theorem map_trim_snocLast (c : Char) (h : isSpace c = true) :
    ∀ parts : List (List Char),
      (snocLast c parts).map (fun p => trimRightL (p.dropWhile isSpace)) =
        parts.map (fun p => trimRightL (p.dropWhile isSpace)) := by
  intro parts
  induction parts with
  | nil => rfl
  | cons p ps ih =>
    cases ps with
    | nil => simp [snocLast, trim_snoc_space _ _ h]
    | cons q qs =>
      simp only [snocLast, List.map_cons] at ih ⊢
      rw [ih]

/-- White space is not the bar character. -/
theorem space_ne_bar (c : Char) (h : isSpace c = true) : c ≠ '|' := by
  intro hc
  subst hc
  revert h
  decide

/-- Left-trimming the whole text does not change the trimmed parts. -/
theorem map_trim_splitL_dropWhile (l : List Char) :
    (splitL ['|', '|'] (l.dropWhile isSpace) 0).map (fun p => trimRightL (p.dropWhile isSpace)) =
      (splitL ['|', '|'] l 0).map (fun p => trimRightL (p.dropWhile isSpace)) := by
  induction l with
  | nil => rfl
  | cons c t ih =>
    by_cases h : isSpace c = true
    · have hne := space_ne_bar c h
      have hpre : List.isPrefixOf ['|', '|'] (c :: t) = false := by
        simp [List.isPrefixOf, Ne.symm hne]
      simp only [List.dropWhile_cons, h, if_true, splitL, hpre]
      rw [ih]
      cases hs : splitL ['|', '|'] t 0 with
      | nil => exact absurd hs (splitL_ne_nil _ _ _)
      | cons p ps => simp [trim_cons_space c p h]
    · simp [List.dropWhile_cons, h]

/-- Right-trimming the whole text does not change the trimmed parts. -/
theorem map_trim_splitL_trimRight (l : List Char) :
    (splitL ['|', '|'] (trimRightL l) 0).map (fun p => trimRightL (p.dropWhile isSpace)) =
      (splitL ['|', '|'] l 0).map (fun p => trimRightL (p.dropWhile isSpace)) := by
  induction l using List.reverseRecOn with
  | nil => rfl
  | append_singleton t c ih =>
    by_cases h : isSpace c = true
    · have hne := space_ne_bar c h
      rw [trimRightL_snoc_space t c h, ih,
        splitL_snoc ['|', '|'] c (by simp) (by simp [hne]) t 0 (Nat.zero_le _),
        map_trim_snocLast c h]
    · have : trimRightL (t ++ [c]) = t ++ [c] := by
        simp [trimRightL_eq, List.rdropWhile_concat_neg, h]
      rw [this]

/-- A text without the separator is its only part. -/
theorem splitL_of_not_contains (sep : List Char) :
    ∀ l : List Char, containsL sep l = false → splitL sep l 0 = [l] := by
  intro l
  induction l with
  | nil => intro _; rfl
  | cons c t ih =>
    intro h
    simp only [containsL, Bool.or_eq_false_iff] at h
    simp [splitL, h.1, ih h.2]

/-- Trimming twice is trimming once (on lists). -/
theorem trimL_idem (l : List Char) :
    trimRightL ((trimRightL (l.dropWhile isSpace)).dropWhile isSpace) =
      trimRightL (l.dropWhile isSpace) := by
  have hidem : (List.rdropWhile isSpace (l.dropWhile isSpace)).rdropWhile isSpace =
      List.rdropWhile isSpace (l.dropWhile isSpace) := List.rdropWhile_idempotent _ _
  suffices h : (List.rdropWhile isSpace (l.dropWhile isSpace)).dropWhile isSpace =
      List.rdropWhile isSpace (l.dropWhile isSpace) by
    rw [trimRightL_eq, trimRightL_eq, h, hidem]
  obtain ⟨s, hs⟩ := List.rdropWhile_prefix isSpace (l.dropWhile isSpace)
  cases hm : List.rdropWhile isSpace (l.dropWhile isSpace) with
  | nil => rfl
  | cons x m =>
    have hd : l.dropWhile isSpace = x :: (m ++ s) := by rw [← hs, hm]; rfl
    have hx : isSpace x = false := by
      have := List.head?_dropWhile_not isSpace l
      rw [hd] at this
      simpa using this
    simp [List.dropWhile_cons, hx]

/-- Trimming the expression before splitting it at `||` does not change the trimmed parts. -/
theorem map_TrimSpace_Split_TrimSpace (s : String) :
    (Split (TrimSpace s) "||").map TrimSpace = (Split s "||").map TrimSpace := by
  have hsep : ("||" : String).data = ['|', '|'] := rfl
  simp only [Split, hsep, List.map_map]
  simp only [show (['|', '|'] : List Char) = [] ↔ False from by simp, if_false, List.map_map]
  have hcomp : (TrimSpace ∘ fun p : List Char => (⟨p⟩ : String)) =
      (fun p : List Char => (⟨p⟩ : String)) ∘ fun p => trimRightL (p.dropWhile isSpace) := by
    funext p
    rfl
  rw [hcomp, ← List.map_map, ← List.map_map]
  congr 1
  show (splitL ['|', '|'] (trimRightL (s.data.dropWhile isSpace)) 0).map _ = _
  rw [map_trim_splitL_trimRight, map_trim_splitL_dropWhile]

/-- Splitting a text without `||` gives that text alone. -/
theorem Split_of_not_Contains (s : String) (h : Contains s "||" = false) :
    Split s "||" = [s] := by
  have hsep : ("||" : String).data = ['|', '|'] := rfl
  unfold Contains at h
  rw [hsep] at h
  simp [Split, hsep, splitL_of_not_contains _ _ h]

/-- Trimming twice is trimming once. -/
theorem TrimSpace_idem (s : String) : TrimSpace (TrimSpace s) = TrimSpace s := by
  simp only [TrimSpace, trimL_idem]

/-- A text ends in a bar exactly when its last character is one. -/
theorem HasSuffix_bar_iff (e : String) : HasSuffix e "|" = true ↔ e.data.getLast? = some '|' := by
  have hsep : ("|" : String).data = ['|'] := rfl
  unfold HasSuffix
  rw [hsep, List.getLast?_eq_head?_reverse]
  cases e.data.reverse with
  | nil => simp only [List.isPrefixOf, List.head?_nil]; simp
  | cons c t =>
    simp only [List.isPrefixOf, List.head?_cons, Bool.and_true, beq_iff_eq, Option.some.injEq]
    exact eq_comm

/-- A text without `||` that does not end in a bar, followed by `||`, is the first part of
the split. -/
theorem splitL_append_sep : ∀ (e r : List Char), containsL ['|', '|'] e = false →
    e.getLast? ≠ some '|' →
    splitL ['|', '|'] (e ++ '|' :: '|' :: r) 0 = e :: splitL ['|', '|'] r 0 := by
  intro e
  induction e with
  | nil => intro r _ _; simp [splitL, List.isPrefixOf]
  | cons c t ih =>
    intro r hc hl
    simp only [containsL, Bool.or_eq_false_iff] at hc
    have hpre : List.isPrefixOf ['|', '|'] (c :: (t ++ '|' :: '|' :: r)) = false := by
      cases t with
      | nil =>
        have hcb : c ≠ '|' := fun h => hl (by simp [h])
        simp [List.isPrefixOf, Ne.symm hcb]
      | cons d t' =>
        have := hc.1
        simp only [List.isPrefixOf, Bool.and_eq_false_iff] at this ⊢
        simpa using this
    have hl' : t.getLast? ≠ some '|' := by
      cases t with
      | nil => simp
      | cons d t' => simpa [List.getLast?_cons_cons] using hl
    simp only [List.cons_append]
    rw [splitL, if_neg (by rw [hpre]; simp), ih r hc.2 hl']

/-- Splitting `e1||...||en` gives back `e1, ..., en` when no `ei` contains `||` and none
but the last ends in a bar. -/
theorem Split_Join_sep : ∀ es : List String, es ≠ [] →
    (∀ e ∈ es, Contains e "||" = false) → (∀ e ∈ es.dropLast, HasSuffix e "|" = false) →
    Split (Join es "||") "||" = es := by
  intro es
  induction es with
  | nil => intro h; exact absurd rfl h
  | cons e rest ih =>
    intro _ hsep hlast
    cases rest with
    | nil => simpa [Join] using Split_of_not_Contains e (hsep e (by simp))
    | cons e' rest' =>
      have hbars : ("||" : String).data = ['|', '|'] := rfl
      have he : containsL ['|', '|'] e.data = false := by
        have := hsep e (by simp)
        unfold Contains at this
        rwa [hbars] at this
      have hel : e.data.getLast? ≠ some '|' := by
        intro h
        have h1 := (HasSuffix_bar_iff e).2 h
        rw [hlast e (by simp [List.dropLast])] at h1
        cases h1
      have ih' := ih (by simp) (fun x hx => hsep x (by simp [hx]))
        (fun x hx => hlast x (by
          simp only [List.dropLast_cons₂, List.mem_cons]
          exact Or.inr hx))
      simp only [Split, hbars, show (['|', '|'] : List Char) = [] ↔ False from by simp,
        if_false] at ih' ⊢
      simp only [Join, String.data_append, hbars, List.append_assoc, List.cons_append,
        List.nil_append]
      rw [splitL_append_sep _ _ he hel, List.map_cons, ih']

end strings

namespace friends
open strings

/-- The loop of `getVal` returns the first non-empty value of the trimmed parts. -/
theorem getValParts_eq (find : goquery.Engine) (scope : goquery.Node) :
    ∀ ps : List String, getValParts find scope ps =
      firstNonEmpty ((ps.map TrimSpace).map (getValSingle find scope)) := by
  intro ps
  induction ps with
  | nil => rfl
  | cons p ps ih => simp only [getValParts, List.map_cons, firstNonEmpty, ih]

/-- The value of `getVal` is its loop run over the parts of the untrimmed expression, for every
expression (with or without `||`). -/
theorem getVal_eq_parts (find : goquery.Engine) (scope : goquery.Node) (expr : String) :
    getVal find scope expr = getValParts find scope (Split expr "||") := by
  rw [getValParts_eq, ← map_TrimSpace_Split_TrimSpace]
  unfold getVal
  by_cases hempty : TrimSpace expr = ""
  · simp only [hempty, if_true]
    rfl
  · simp only [hempty, if_false]
    by_cases hc : Contains (TrimSpace expr) "||" = true
    · simp only [hc, if_true, getValParts_eq]
    · have hc' : Contains (TrimSpace expr) "||" = false := by simpa using hc
      simp only [hc', Bool.false_eq_true, if_false]
      rw [Split_of_not_Contains _ hc']
      simp only [List.map_cons, List.map_nil, TrimSpace_idem, firstNonEmpty]
      by_cases hv : getValSingle find scope (TrimSpace expr) = "" <;> simp [hv]

/-- Empty values are skipped and what follows the first non-empty value is not read. -/
theorem firstNonEmpty_append (pre : List String) (v : String) (post : List String)
    (hpre : ∀ x ∈ pre, x = "") (hv : v ≠ "") : firstNonEmpty (pre ++ v :: post) = v := by
  induction pre with
  | nil => simp [firstNonEmpty, hv]
  | cons x xs ih =>
    have hx : x = "" := hpre x (by simp)
    simp only [List.cons_append, firstNonEmpty, hx]
    simpa using ih (fun y hy => hpre y (by simp [hy]))

/-- When every value is empty the result is empty. -/
theorem firstNonEmpty_all_empty (vs : List String) (h : ∀ x ∈ vs, x = "") :
    firstNonEmpty vs = "" := by
  induction vs with
  | nil => rfl
  | cons x xs ih =>
    have hx : x = "" := h x (by simp)
    simp only [firstNonEmpty, hx]
    simpa using ih (fun y hy => h y (by simp [hy]))

/-- C7. For every expression, with `e1, ..., en` the parts it has between its `||`
separators, `getVal` is the first non-empty value among those of the trimmed `ei`, taken
left to right: if every part before `p` has an empty value and `p` a non-empty one, the
result is the value of `p`, and every expression with the same parts up to `p` has the
same result, whatever parts follow; if all values are empty the result is the empty
string.  An expression written `e1||...||en` has the parts `e1, ..., en` whenever the
separators are the ones written: no `ei` contains `||` and none but the last ends in a
bar (a bar inside a part, as in `a[lang|=en]`, is part of it). -/
theorem getVal_fallback_order (find : goquery.Engine) (scope : goquery.Node) (expr : String) :
    getVal find scope expr =
      firstNonEmpty ((Split expr "||").map fun e => getValSingle find scope (TrimSpace e)) ∧
    (∀ pre p post, Split expr "||" = pre ++ p :: post →
      (∀ e ∈ pre, getValSingle find scope (TrimSpace e) = "") →
      getValSingle find scope (TrimSpace p) ≠ "" →
      getVal find scope expr = getValSingle find scope (TrimSpace p) ∧
      ∀ other post', Split other "||" = pre ++ p :: post' →
        getVal find scope other = getVal find scope expr) ∧
    ((∀ e ∈ Split expr "||", getValSingle find scope (TrimSpace e) = "") →
      getVal find scope expr = "") ∧
    (∀ es : List String, es ≠ [] → (∀ e ∈ es, Contains e "||" = false) →
      (∀ e ∈ es.dropLast, HasSuffix e "|" = false) →
      expr = Join es "||" → Split expr "||" = es) := by
  have hmain : ∀ x : String, getVal find scope x =
      firstNonEmpty ((Split x "||").map fun e => getValSingle find scope (TrimSpace e)) := by
    intro x
    rw [getVal_eq_parts, getValParts_eq, List.map_map]
    rfl
  have hfirst : ∀ (x : String) (pre : List String) (p : String) (post : List String),
      Split x "||" = pre ++ p :: post →
      (∀ e ∈ pre, getValSingle find scope (TrimSpace e) = "") →
      getValSingle find scope (TrimSpace p) ≠ "" →
      getVal find scope x = getValSingle find scope (TrimSpace p) := by
    intro x pre p post hes hpre hp
    rw [hmain, hes, List.map_append, List.map_cons]
    exact firstNonEmpty_append _ _ _
      (by
        intro v hv
        obtain ⟨e, he, rfl⟩ := List.mem_map.1 hv
        exact hpre e he) hp
  refine ⟨hmain expr, ?_, ?_, ?_⟩
  · intro pre p post hes hpre hp
    refine ⟨hfirst expr pre p post hes hpre hp, ?_⟩
    intro other post' hother
    rw [hfirst other pre p post' hother hpre hp, hfirst expr pre p post hes hpre hp]
  · intro hall
    rw [hmain]
    exact firstNonEmpty_all_empty _
      (by
        intro v hv
        obtain ⟨e, he, rfl⟩ := List.mem_map.1 hv
        exact hall e he)
  · intro es hne hsep hlast hexpr
    rw [hexpr]
    exact Split_Join_sep es hne hsep hlast

/-- Witness for C7, on the list item of the repository's test: in `.nm0||img@src||.nm1`
the first two sub-expressions yield nothing and the third yields `X`; white space around
the parts is trimmed; a bar inside a selector does not separate, so that
`a[lang|=en]@href||.nm1` has the two parts `a[lang|=en]@href` and `.nm1`, and its value is
that of the first part when an `a` element matches and that of the second when none
does. -/
theorem getVal_fallback_order_witness :
    getVal goquery.simpleFind demo.friendItem ".nm0||img@src||.nm1" = "X" ∧
    getVal goquery.simpleFind demo.friendItem " a@href || @data-href " = "/ok" ∧
    Split "a[lang|=en]@href||.nm1" "||" = ["a[lang|=en]@href", ".nm1"] ∧
    getVal demo.langFind demo.langItem "a[lang|=en]@href||.nm1" = "/en" ∧
    getVal demo.langFind demo.friendItem "a[lang|=en]@href||.nm1" = "X" := by
  have h1 := ((getVal_fallback_order goquery.simpleFind demo.friendItem
    ".nm0||img@src||.nm1").2.1 [".nm0", "img@src"] ".nm1" [] (by decide) (by decide)
    (by decide)).1
  have h2 := ((getVal_fallback_order goquery.simpleFind demo.friendItem
    " a@href || @data-href ").2.1 [] " a@href " [" @data-href "] (by decide) (by decide)
    (by decide)).1
  have h3 := (getVal_fallback_order demo.langFind demo.langItem
    "a[lang|=en]@href||.nm1").2.2.2 ["a[lang|=en]@href", ".nm1"] (by decide) (by decide)
    (by decide) (by decide)
  have h4 := ((getVal_fallback_order demo.langFind demo.langItem
    "a[lang|=en]@href||.nm1").2.1 [] "a[lang|=en]@href" [".nm1"] h3 (by decide) (by decide)).1
  have h5 := ((getVal_fallback_order demo.langFind demo.friendItem
    "a[lang|=en]@href||.nm1").2.1 ["a[lang|=en]@href"] ".nm1" [] h3 (by decide) (by decide)).1
  exact ⟨h1.trans (by decide), h2.trans (by decide), h3, h4.trans (by decide),
    h5.trans (by decide)⟩

end friends

/-! ## The friends-page extractor -/

namespace friends

open strings

/-- The item loop appends, in order, what each item yields unless name and link are both
empty. -/
theorem collectFriends_eq (L : url.Lib) (find : goquery.Engine) (pageURL : String)
    (fp : rules.FriendsPage) :
    ∀ (items : List goquery.Node) (out : List config.StaticFriend),
      collectFriends L find pageURL fp items out =
        out ++ (items.map (friendOfItem L find pageURL fp)).filter
          (fun f => !(decide (f.Name = "") && decide (f.Link = ""))) := by
  intro items
  induction items with
  | nil => intro out; simp [collectFriends]
  | cons s rest ih =>
    intro out
    by_cases h : TrimSpace (getVal find s fp.Name) = "" ∧
        abs L pageURL (getVal find s fp.Link) = ""
    · simp [collectFriends, friendOfItem, h.1, h.2, ih]
    · have h' : ¬(TrimSpace (getVal find s fp.Name) = "" ∧
          abs L pageURL (getVal find s fp.Link) = "") := h
      simp only [collectFriends, h', if_false, ih, List.map_cons, List.append_assoc]
      rw [List.filter_cons_of_pos]
      · rfl
      · simp only [friendOfItem, Bool.not_eq_true', Bool.and_eq_false_iff,
          decide_eq_false_iff_not]
        tauto

/-- C8. When the preset has a friends-page rule and the page is fetched, the result of
`ParseFriendsPage` is the list of what the elements matching the item selector yield, in
document order, from which exactly the entries whose name and link are both empty are
left out: nothing is merged or deduplicated, and an entry with only a name or only a link
is kept. -/
theorem ParseFriendsPage_emits_items (L : url.Lib) (find : goquery.Engine)
    (cl : fetch.Client) (pageURL : String) (preset : rules.Preset) (fp : rules.FriendsPage)
    (resp : fetch.Response) (hfp : preset.FriendsPage = some fp)
    (hget : cl.Get pageURL = .ok resp) :
    ParseFriendsPage L find cl pageURL preset =
      .ok (((find fp.Item resp.html).map (friendOfItem L find pageURL fp)).filter
        (fun f => !(decide (f.Name = "") && decide (f.Link = "")))) ∧
    (∀ out, ParseFriendsPage L find cl pageURL preset = .ok out →
      List.Sublist out ((find fp.Item resp.html).map (friendOfItem L find pageURL fp)) ∧
      ∀ s ∈ find fp.Item resp.html,
        (friendOfItem L find pageURL fp s ∈ out ↔
          ¬((friendOfItem L find pageURL fp s).Name = "" ∧
            (friendOfItem L find pageURL fp s).Link = ""))) := by
  have hmain : ParseFriendsPage L find cl pageURL preset =
      .ok (((find fp.Item resp.html).map (friendOfItem L find pageURL fp)).filter
        (fun f => !(decide (f.Name = "") && decide (f.Link = "")))) := by
    simp [ParseFriendsPage, hfp, hget, collectFriends_eq]
  refine ⟨hmain, ?_⟩
  intro out hout
  rw [hmain] at hout
  cases hout
  refine ⟨List.filter_sublist _, ?_⟩
  intro s hs
  simp only [List.mem_filter, List.mem_map, Bool.not_eq_true', Bool.and_eq_false_iff,
    decide_eq_false_iff_not]
  constructor
  · rintro ⟨_, h⟩
    tauto
  · intro h
    exact ⟨⟨s, hs, rfl⟩, by tauto⟩

/-- Witness for C8: of the five items of `friendsPage` the first two (equal) are both
emitted, the item with only a name and the item with only a link are emitted, and the item
with neither is left out. -/
theorem ParseFriendsPage_emits_items_witness :
    ParseFriendsPage url.std goquery.simpleFind demo.friendsSite "http://h/links"
        demo.friendsPreset =
      .ok [{ Name := "A", Link := "http://h/s1", Avatar := "http://h/a.png", FeedSuffix := "" },
           { Name := "A", Link := "http://h/s1", Avatar := "http://h/a.png", FeedSuffix := "" },
           { Name := "NoLink", Link := "", Avatar := "", FeedSuffix := "" },
           { Name := "", Link := "http://h/s3", Avatar := "", FeedSuffix := "" }] := by
  have h := (ParseFriendsPage_emits_items url.std goquery.simpleFind demo.friendsSite
    "http://h/links" demo.friendsPreset
    { Item := ".it", Name := ".nm", Link := "a@href", Avatar := "img@src" }
    { contentType := "text/html; charset=utf-8", body := "", html := demo.friendsPage,
      feed := .error "no feed" } rfl (by rfl)).1
  rw [h]
  rfl

end friends

/-! ## Roster assembly -/

namespace gomap

/-- A key is absent exactly when the lookup fails. -/
theorem lookup_eq_none_iff {V : Type} (m : Map V) (k : String) :
    lookup m k = none ↔ k ∉ m.map (fun kv => kv.1) := by
  induction m with
  | nil => simp [lookup]
  | cons kv rest ih =>
    obtain ⟨k', v⟩ := kv
    by_cases h : k' = k
    · simp [lookup, h]
    · simp [lookup, h, ih, Ne.symm h]

/-- Assigning to an absent key appends the entry. -/
theorem insert_of_not_mem {V : Type} (m : Map V) (k : String) (v : V)
    (h : k ∉ m.map (fun kv => kv.1)) : insert m k v = m ++ [(k, v)] := by
  induction m with
  | nil => rfl
  | cons kv rest ih =>
    obtain ⟨k', v'⟩ := kv
    have hk : k' ≠ k := fun e => h (by simp [e])
    have hr : k ∉ rest.map (fun kv => kv.1) := fun e => h (by simp [e])
    simp [insert, hk, ih hr]

/-- After `m[k] = v` the lookup of `k` gives `v`. -/
theorem lookup_insert_self {V : Type} (m : Map V) (k : String) (v : V) :
    lookup (insert m k v) k = some v := by
  induction m with
  | nil => simp [insert, lookup]
  | cons kv rest ih =>
    obtain ⟨k', v'⟩ := kv
    by_cases h : k' = k
    · simp [insert, lookup, h]
    · simp [insert, lookup, h, ih]

end gomap

namespace aggregate

open config

/-- The empty map holds the empty list. -/
theorem MapOf_nil : MapOf [] [] := by
  simp [MapOf]

/-- One step of the loops of `dedup` and `mergeDedup` keeps the map a map of the elements
seen so far. -/
theorem MapOf_step (m : gomap.Map StaticFriend) (src : List StaticFriend) (f : StaticFriend)
    (h : MapOf m src) :
    MapOf (if f.Link = "" then m
           else match gomap.lookup m f.Link with
                | none => gomap.insert m f.Link f
                | some _ => m) (src ++ [f]) := by
  obtain ⟨hnd, hent, hcov⟩ := h
  have hkeep : ∀ kv ∈ m, kv.2.Link = kv.1 ∧ kv.1 ≠ "" ∧
      (src ++ [f]).find? (fun g => decide (g.Link = kv.1)) = some kv.2 := by
    intro kv hkv
    obtain ⟨h1, h2, h3⟩ := hent kv hkv
    exact ⟨h1, h2, by simp [List.find?_append, h3]⟩
  by_cases hl : f.Link = ""
  · simp only [hl, if_true]
    refine ⟨hnd, ?_, ?_⟩
    · intro kv hkv
      have := hkeep kv hkv
      simpa [hl] using this
    · intro g hg hgl
      rcases List.mem_append.1 hg with hg | hg
      · exact hcov g hg hgl
      · simp at hg
        subst hg
        exact absurd hl hgl
  · simp only [hl, if_false]
    cases hlk : gomap.lookup m f.Link with
    | some v =>
      have hmem : f.Link ∈ m.map (fun kv => kv.1) := by
        by_contra hc
        rw [(gomap.lookup_eq_none_iff m f.Link).2 hc] at hlk
        cases hlk
      refine ⟨hnd, hkeep, ?_⟩
      intro g hg hgl
      rcases List.mem_append.1 hg with hg | hg
      · exact hcov g hg hgl
      · simp at hg
        subst hg
        exact hmem
    | none =>
      have hnot : f.Link ∉ m.map (fun kv => kv.1) := (gomap.lookup_eq_none_iff m f.Link).1 hlk
      have hins : gomap.insert m f.Link f = m ++ [(f.Link, f)] :=
        gomap.insert_of_not_mem m f.Link f hnot
      simp only [hins]
      have hnone : src.find? (fun g => decide (g.Link = f.Link)) = none := by
        rw [List.find?_eq_none]
        intro g hg hgl
        have hgl' : g.Link = f.Link := by simpa using hgl
        exact hnot (hgl' ▸ hcov g hg (hgl' ▸ hl))
      refine ⟨?_, ?_, ?_⟩
      · rw [List.map_append, List.nodup_append]
        refine ⟨hnd, by simp, ?_⟩
        intro a ha hb
        simp at hb
        subst hb
        exact hnot ha
      · intro kv hkv
        rcases List.mem_append.1 hkv with hkv | hkv
        · exact hkeep kv hkv
        · simp at hkv
          subst hkv
          exact ⟨rfl, hl, by simp [List.find?_append, hnone]⟩
      · intro g hg hgl
        rw [List.map_append]
        rcases List.mem_append.1 hg with hg | hg
        · exact List.mem_append_left _ (hcov g hg hgl)
        · simp at hg
          subst hg
          simp

/-- The loop of `dedup` keeps the invariant. -/
theorem MapOf_dedupLoop : ∀ (xs : List StaticFriend) (m : gomap.Map StaticFriend)
    (src : List StaticFriend), MapOf m src → MapOf (dedupLoop xs m) (src ++ xs) := by
  intro xs
  induction xs with
  | nil => intro m src h; simpa [dedupLoop] using h
  | cons f rest ih =>
    intro m src h
    have hstep := MapOf_step m src f h
    have := ih _ (src ++ [f]) hstep
    rw [List.append_assoc] at this
    simp only [List.singleton_append] at this
    unfold dedupLoop
    by_cases hl : f.Link = ""
    · simpa [hl] using this
    · simp only [hl, if_false] at this ⊢
      cases hlk : gomap.lookup m f.Link with
      | none => simpa [hlk] using this
      | some v => simpa [hlk] using this

/-- The second loop of `mergeDedup` keeps the invariant. -/
theorem MapOf_mergeAdd : ∀ (xs : List StaticFriend) (m : gomap.Map StaticFriend)
    (src : List StaticFriend), MapOf m src → MapOf (mergeAdd xs m) (src ++ xs) := by
  intro xs
  induction xs with
  | nil => intro m src h; simpa [mergeAdd] using h
  | cons f rest ih =>
    intro m src h
    have hstep := MapOf_step m src f h
    have := ih _ (src ++ [f]) hstep
    rw [List.append_assoc] at this
    simp only [List.singleton_append] at this
    unfold mergeAdd
    by_cases hl : f.Link = ""
    · simpa [hl] using this
    · simp only [hl, if_false] at this ⊢
      cases hlk : gomap.lookup m f.Link with
      | none => simpa [hlk] using this
      | some v => simpa [hlk] using this

/-- Ranging over a map of `src` yields a roster of `src`. -/
theorem IsRosterOf_values (m : gomap.Map StaticFriend) (src : List StaticFriend)
    (h : MapOf m src) : IsRosterOf (gomap.values m) src := by
  obtain ⟨hnd, hent, hcov⟩ := h
  have hkeys : (gomap.values m).map (fun f => f.Link) = m.map (fun kv => kv.1) := by
    simp only [gomap.values, List.map_map]
    apply List.map_congr_left
    intro kv hkv
    exact (hent kv hkv).1
  refine ⟨?_, ?_, ?_, ?_⟩
  · intro f hf
    obtain ⟨kv, hkv, rfl⟩ := List.mem_map.1 hf
    obtain ⟨h1, h2, _⟩ := hent kv hkv
    rw [h1]
    exact h2
  · rw [hkeys]
    exact hnd
  · intro f hf
    obtain ⟨kv, hkv, rfl⟩ := List.mem_map.1 hf
    obtain ⟨h1, _, h3⟩ := hent kv hkv
    rw [h1]
    exact h3
  · intro g hg hgl
    rw [hkeys]
    exact hcov g hg hgl

/-- The first loop of `mergeDedup` on entries with fresh, pairwise distinct links appends
them. -/
theorem mergeBase_of_nodup : ∀ (base : List StaticFriend) (m : gomap.Map StaticFriend),
    (m.map (fun kv => kv.1) ++ base.map (fun f => f.Link)).Nodup →
    mergeBase base m = m ++ base.map (fun f => (f.Link, f)) := by
  intro base
  induction base with
  | nil => intro m _; simp [mergeBase]
  | cons f rest ih =>
    intro m hnd
    have hnot : f.Link ∉ m.map (fun kv => kv.1) := by
      intro hmem
      have := (List.nodup_append.1 hnd).2.2
      exact this hmem (by simp)
    have hnd' : ((m ++ [(f.Link, f)]).map (fun kv => kv.1) ++ rest.map (fun f => f.Link)).Nodup := by
      simpa [List.map_append, List.append_assoc] using hnd
    simp only [mergeBase, gomap.insert_of_not_mem m f.Link f hnot]
    rw [ih _ hnd']
    simp

/-- The first loop of `mergeDedup` turns a roster of `src` into a map of `src`. -/
theorem MapOf_mergeBase (base src : List StaticFriend) (h : IsRosterOf base src) :
    MapOf (mergeBase base []) src := by
  obtain ⟨hne, hnd, hfirst, hcov⟩ := h
  rw [mergeBase_of_nodup base [] (by simpa using hnd)]
  simp only [List.nil_append]
  refine ⟨?_, ?_, ?_⟩
  · simpa [List.map_map, Function.comp_def] using hnd
  · intro kv hkv
    obtain ⟨f, hf, rfl⟩ := List.mem_map.1 hkv
    exact ⟨rfl, hne f hf, hfirst f hf⟩
  · intro g hg hgl
    have := hcov g hg hgl
    simpa [List.map_map, Function.comp_def] using this

/-- The result of `dedup` is a roster of its input. -/
theorem IsRosterOf_dedup (S : List StaticFriend) : IsRosterOf (dedup S) S := by
  have := MapOf_dedupLoop S [] [] MapOf_nil
  exact IsRosterOf_values _ _ (by simpa using this)

/-- Merging a page list into a roster of `src` yields a roster of `src ++ add`. -/
theorem IsRosterOf_mergeDedup (base src add : List StaticFriend) (h : IsRosterOf base src) :
    IsRosterOf (mergeDedup base add) (src ++ add) :=
  IsRosterOf_values _ _ (MapOf_mergeAdd add _ src (MapOf_mergeBase base src h))

/-- Being a roster does not depend on the order of the entries. -/
theorem IsRosterOf_of_perm (r r' src : List StaticFriend) (hp : r'.Perm r)
    (h : IsRosterOf r src) : IsRosterOf r' src := by
  obtain ⟨hne, hnd, hfirst, hcov⟩ := h
  refine ⟨fun f hf => hne f (hp.mem_iff.1 hf), ?_, fun f hf => hfirst f (hp.mem_iff.1 hf), ?_⟩
  · exact (List.Perm.nodup_iff (hp.map _)).2 hnd
  · intro g hg hgl
    exact (hp.map _).mem_iff.2 (hcov g hg hgl)

/-- The links of a roster of `src` are the non-empty links of `src`. -/
theorem IsRosterOf_links (r src : List StaticFriend) (h : IsRosterOf r src) (l : String)
    (hl : l ≠ "") : l ∈ r.map (fun f => f.Link) ↔ l ∈ src.map (fun f => f.Link) := by
  obtain ⟨_, _, hfirst, hcov⟩ := h
  constructor
  · intro hmem
    obtain ⟨f, hf, rfl⟩ := List.mem_map.1 hmem
    exact List.mem_map.2 ⟨f, List.mem_of_find?_eq_some (hfirst f hf), rfl⟩
  · intro hmem
    obtain ⟨g, hg, rfl⟩ := List.mem_map.1 hmem
    exact hcov g hg hl

/-- C9. The roster `mergeDedup (dedup S) P` has no entry with an empty link, no two entries
with the same link, and its links are exactly the non-empty links of `S` and `P`; an
entry whose link occurs in `S` is the first element of `S` with that link (name, avatar and
feed suffix from `S`), and an entry whose link does not occur in `S` is the first element
of `P` with that link.  The same holds whatever order `dedup` hands its result over in.
Merging a further page list into any roster gives a roster of the longer source list in
which every entry already present is kept as it is. -/
theorem mergeDedup_dedup_roster (S P : List StaticFriend) :
    (∀ f ∈ mergeDedup (dedup S) P, f.Link ≠ "") ∧
    ((mergeDedup (dedup S) P).map fun f => f.Link).Nodup ∧
    (∀ l, l ≠ "" →
      (l ∈ (mergeDedup (dedup S) P).map (fun f => f.Link) ↔
        l ∈ (S ++ P).map (fun f => f.Link))) ∧
    (∀ f ∈ mergeDedup (dedup S) P, f.Link ∈ S.map (fun g => g.Link) →
      S.find? (fun g => decide (g.Link = f.Link)) = some f) ∧
    (∀ f ∈ mergeDedup (dedup S) P, f.Link ∉ S.map (fun g => g.Link) →
      P.find? (fun g => decide (g.Link = f.Link)) = some f) ∧
    (∀ base, base.Perm (dedup S) → IsRosterOf (mergeDedup base P) (S ++ P)) ∧
    (∀ base src add, IsRosterOf base src →
      IsRosterOf (mergeDedup base add) (src ++ add) ∧ ∀ f ∈ base, f ∈ mergeDedup base add) := by
  have hstep := fun base src add h => IsRosterOf_mergeDedup base src add h
  have hres := hstep (dedup S) S P (IsRosterOf_dedup S)
  have hne := hres.1
  have hnd := hres.2.1
  have hfirst := hres.2.2.1
  refine ⟨hne, hnd, IsRosterOf_links _ _ hres, ?_, ?_, ?_, ?_⟩
  · intro f hf hS
    have h1 := hfirst f hf
    rw [List.find?_append] at h1
    obtain ⟨g, hg, hgl⟩ := List.mem_map.1 hS
    cases hfs : S.find? (fun g => decide (g.Link = f.Link)) with
    | none =>
      rw [List.find?_eq_none] at hfs
      exact absurd (by simpa using hgl) (hfs g hg)
    | some x =>
      rw [hfs] at h1
      simpa using h1
  · intro f hf hS
    have h1 := hfirst f hf
    rw [List.find?_append] at h1
    have hfs : S.find? (fun g => decide (g.Link = f.Link)) = none := by
      rw [List.find?_eq_none]
      intro g hg hgl
      exact hS (List.mem_map.2 ⟨g, hg, by simpa using hgl⟩)
    rw [hfs] at h1
    simpa using h1
  · intro base hp
    exact hstep base S P (IsRosterOf_of_perm _ _ _ hp (IsRosterOf_dedup S))
  · intro base src add h
    have hres2 := hstep base src add h
    refine ⟨hres2, ?_⟩
    intro f hf
    obtain ⟨hne', _, hfirst', _⟩ := h
    have hfl : f.Link ≠ "" := hne' f hf
    have hmem : f.Link ∈ (mergeDedup base add).map (fun f => f.Link) := by
      rw [IsRosterOf_links _ _ hres2 f.Link hfl, List.map_append]
      exact List.mem_append_left _
        (List.mem_map.2 ⟨f, List.mem_of_find?_eq_some (hfirst' f hf), rfl⟩)
    obtain ⟨g, hg, hgl⟩ := List.mem_map.1 hmem
    have h2 := hres2.2.2.1 g hg
    have h1 := hfirst' f hf
    rw [hgl, List.find?_append, h1] at h2
    have : f = g := by simpa using h2
    rw [this]
    exact hg

/-- Evaluation for C9: the static entry wins over the page entry with the same link, the
first page entry wins over the second, and entries without link are dropped; the same
roster results when `dedup` hands its result over in reverse order. -/
theorem mergeDedup_dedup_roster_witness :
    mergeDedup (dedup demo.staticList) demo.pageList =
      [{ Name := "A (static)", Link := "http://a", Avatar := "a.png", FeedSuffix := "/atom.xml" },
       { Name := "B first", Link := "http://b", Avatar := "b1.png", FeedSuffix := "" }] ∧
    ((mergeDedup (dedup demo.staticList) demo.pageList).map fun f => f.Link).Nodup ∧
    IsRosterOf (mergeDedup (dedup demo.staticList).reverse demo.pageList)
      (demo.staticList ++ demo.pageList) := by
  have h := mergeDedup_dedup_roster demo.staticList demo.pageList
  exact ⟨by decide, h.2.1, h.2.2.2.2.2.1 _ (List.reverse_perm _)⟩

end aggregate

/-! ## The per-friend task -/

namespace feeds

/-- The error of a failed discovery is `no feed discovered for <site>` or
`GET site <site>: <cause>`, hence not the empty string. -/
theorem DiscoverFeed_error_ne_empty (L : url.Lib) (find : goquery.Engine) (cl : fetch.Client)
    (site hint e : String) (h : (DiscoverFeed L find cl site hint).1 = .error e) : e ≠ "" := by
  have hform : e = "no feed discovered for " ++ site ∨
      ∃ cause, e = "GET site " ++ site ++ ": " ++ cause := by
    unfold DiscoverFeed at h
    split at h
    · cases h
    · split at h
      · cases h
        exact Or.inr ⟨_, rfl⟩
      · dsimp only at h
        split at h
        · split at h
          · cases h
          · cases h
            exact Or.inl rfl
        · cases h
          exact Or.inl rfl
  intro he
  have hd := congrArg String.data he
  rcases hform with h1 | ⟨cause, h1⟩
  · rw [h1] at hd
    simp at hd
  · rw [h1] at hd
    simp at hd

end feeds

namespace store

/-- After the upsert of a friend, the row found under its link carries its name, avatar
and error. -/
theorem find_upsertFriendRows (f : model.Friend) (createdAt : Time) :
    ∀ rows : List model.Friend,
      ∃ row, (upsertFriendRows f createdAt rows).find? (fun g => decide (g.Link = f.Link)) =
          some row ∧
        row.Link = f.Link ∧ row.Name = f.Name ∧ row.Avatar = f.Avatar ∧ row.Error = f.Error := by
  intro rows
  induction rows with
  | nil => exact ⟨{ f with CreatedAt := createdAt }, by simp [upsertFriendRows], rfl, rfl, rfl, rfl⟩
  | cons r rs ih =>
    by_cases h : r.Link = f.Link
    · exact ⟨{ r with Name := f.Name, Avatar := f.Avatar, Error := f.Error },
        by simp [upsertFriendRows, h], h, rfl, rfl, rfl⟩
    · obtain ⟨row, hrow, hrest⟩ := ih
      exact ⟨row, by simp [upsertFriendRows, h, hrow], hrest⟩

end store

namespace aggregate

/-- C10. When feed discovery fails for a roster entry (whose link is not empty) with the
error text `e`, then `e` is not empty, and after `processFriend` the sink holds under the
entry's link a friend with that link, error `e` and the entry's name and avatar, while
the articles of the sink are unchanged, in the buffer as in the store. -/
theorem processFriend_discovery_failure (L : url.Lib) (find : goquery.Engine) (now : Time)
    (r : Runner) (sf : config.StaticFriend) (e : String) (hlink : sf.Link ≠ "")
    (hfail : (feeds.DiscoverFeed L find r.fetch sf.Link sf.FeedSuffix).1 = .error e) :
    e ≠ "" ∧
    (∃ f, (processFriend L find now r sf).friendAt sf.Link = some f ∧
      f.Link = sf.Link ∧ f.Error = e ∧ f.Name = sf.Name ∧ f.Avatar = sf.Avatar) ∧
    (processFriend L find now r sf).articles = r.articles ∧
    (processFriend L find now r sf).store.posts = r.store.posts ∧
    (processFriend L find now r sf).buf.map (fun b => b.posts) = r.buf.map (fun b => b.posts) := by
  refine ⟨feeds.DiscoverFeed_error_ne_empty L find r.fetch sf.Link sf.FeedSuffix e hfail, ?_⟩
  simp only [processFriend, hfail, writeFriend]
  cases hb : r.buf with
  | some b =>
    simp only [Runner.friendAt, Runner.articles, SimpleBuffer.AddFriend, hlink, if_false,
      Option.map_some', hb]
    exact ⟨⟨_, gomap.lookup_insert_self _ _ _, rfl, rfl, rfl, rfl⟩, trivial, trivial, trivial⟩
  | none =>
    simp only [Runner.friendAt, Runner.articles, store.SQLite.UpsertFriend, Option.map_none',
      hb]
    obtain ⟨row, hrow, h1, h2, h3, h4⟩ := store.find_upsertFriendRows
      { Name := sf.Name, Link := sf.Link, Avatar := sf.Avatar, Error := e, CreatedAt := now }
      (store.nowOr now now) r.store.friends
    exact ⟨⟨row, hrow, h1, h4, h2, h3⟩, trivial, trivial, trivial⟩

/-- Witness for C10: the entry `Bob` of a site that answers nothing, in simple mode and in
normal mode (where the row that existed keeps its creation time); the one article of the
sink stays. -/
theorem processFriend_discovery_failure_witness :
    (processFriend url.std goquery.simpleFind 100 demo.simpleRunner demo.deadFriend).friendAt
        "http://h" =
      some { Name := "Bob", Link := "http://h", Avatar := "http://h/bob.png",
             Error := "GET site http://h: http status: 404 Not Found", CreatedAt := 100 } ∧
    (processFriend url.std goquery.simpleFind 100 demo.simpleRunner demo.deadFriend).articles =
      [demo.oldPost] ∧
    (processFriend url.std goquery.simpleFind 100 demo.storeRunner demo.deadFriend).friendAt
        "http://h" =
      some { Name := "Bob", Link := "http://h", Avatar := "http://h/bob.png",
             Error := "GET site http://h: http status: 404 Not Found", CreatedAt := 3 } ∧
    (processFriend url.std goquery.simpleFind 100 demo.storeRunner demo.deadFriend).articles =
      [demo.oldPost] := by
  have h1 := processFriend_discovery_failure url.std goquery.simpleFind 100 demo.simpleRunner
    demo.deadFriend "GET site http://h: http status: 404 Not Found" (by decide) (by rfl)
  have h2 := processFriend_discovery_failure url.std goquery.simpleFind 100 demo.storeRunner
    demo.deadFriend "GET site http://h: http status: 404 Not Found" (by decide) (by rfl)
  exact ⟨by rfl, h1.2.2.1, by rfl, h2.2.2.1⟩

end aggregate

/-! ## Feed parsing -/


namespace feeds
open strings

theorem parseItems_cons (max : Int) (it : gofeed.Item) (rest : List gofeed.Item)
    (items : List Item) :
    parseItems max (it :: rest) items =
      if max > 0 ∧ ((items ++ [itemOf it]).length : Int) ≥ max then items ++ [itemOf it]
      else parseItems max rest (items ++ [itemOf it]) := rfl

/-- With no cap, the item loop appends the item of every entry. -/
theorem parseItems_unbounded (max : Int) (hmax : ¬ 0 < max) :
    ∀ (entries : List gofeed.Item) (items : List Item),
      parseItems max entries items = items ++ entries.map itemOf := by
  intro entries
  induction entries with
  | nil => intro items; simp [parseItems]
  | cons it rest ih =>
    intro items
    rw [parseItems_cons, if_neg (fun h => hmax h.1), ih]
    simp

/-- With a cap not yet reached, the item loop appends the items of the entries up to the cap. -/
theorem parseItems_capped (max : Int) (hmax : 0 < max) :
    ∀ (entries : List gofeed.Item) (items : List Item), items.length < max.toNat →
      parseItems max entries items =
        items ++ (entries.take (max.toNat - items.length)).map itemOf := by
  have hcast : ((max.toNat : Nat) : Int) = max := Int.toNat_of_nonneg (le_of_lt hmax)
  intro entries
  induction entries with
  | nil => intro items _; simp [parseItems]
  | cons it rest ih =>
    intro items hlen
    rw [parseItems_cons]
    have h3 : max.toNat - items.length = (max.toNat - (items.length + 1)) + 1 := by omega
    by_cases hfull : ((items ++ [itemOf it]).length : Int) ≥ max
    · rw [if_pos ⟨hmax, hfull⟩]
      have hle : max.toNat ≤ items.length + 1 := by
        have : ((max.toNat : Nat) : Int) ≤ ((items.length + 1 : Nat) : Int) := by
          rw [hcast]; simpa using hfull
        exact_mod_cast this
      have : max.toNat - (items.length + 1) = 0 := by omega
      rw [h3, this]
      simp
    · rw [if_neg (fun h => hfull h.2)]
      have hlt : items.length + 1 < max.toNat := by
        have : ((items.length + 1 : Nat) : Int) < ((max.toNat : Nat) : Int) := by
          rw [hcast]; simpa using hfull
        exact_mod_cast this
      rw [ih (items ++ [itemOf it]) (by simpa using hlt), h3]
      simp [List.take_succ_cons]

/-- Claim C19: when the feed is fetched and parsed into `entries`, `ParseFeed` with a maximum
`max ≥ 0` returns, in feed order, the items of the first `min n max` entries when `max > 0`
and of all `n` entries when `max = 0`; the i-th returned item has the title and the link of the
i-th entry with surrounding white space trimmed. -/
theorem ParseFeed_caps_items (cl : fetch.Client) (feedURL : String) (max : Int)
    (resp : fetch.Response) (entries : List gofeed.Item)
    (hmax : 0 ≤ max) (hget : cl.Get feedURL = .ok resp) (hfeed : resp.feed = .ok entries) :
    ∃ items : List Item,
      ParseFeed cl feedURL max = .ok items ∧
      items = ((if max = 0 then entries else entries.take max.toNat).map itemOf) ∧
      items.length = (if max = 0 then entries.length else min entries.length max.toNat) ∧
      ∀ (i : Nat) (h : i < items.length) (h2 : i < entries.length),
        (items.get ⟨i, h⟩).Title = TrimSpace (entries.get ⟨i, h2⟩).Title ∧
        (items.get ⟨i, h⟩).Link = TrimSpace (entries.get ⟨i, h2⟩).Link := by
  have hitems : parseItems max entries [] =
      (if max = 0 then entries else entries.take max.toNat).map itemOf := by
    by_cases h0 : max = 0
    · rw [if_pos h0, parseItems_unbounded max (by omega)]; simp
    · rw [if_neg h0, parseItems_capped max (by omega) entries [] (by simp; omega)]; simp
  refine ⟨_, ?_, rfl, ?_, ?_⟩
  · simp only [ParseFeed, hget, hfeed, hitems]
  · by_cases h0 : max = 0
    · simp [h0]
    · simp [h0, List.length_take, min_comm]
  · intro i h h2
    by_cases h0 : max = 0
    · simp [h0, itemOf, safe]
    · simp [h0, itemOf, safe, List.getElem_take]


/-- Witness for C19: a feed of three entries read with the maximum 2 gives the first two
items, trimmed; with the maximum 0 it gives all three. -/
theorem ParseFeed_caps_items_witness :
    ParseFeed demo.feedSite3 "http://a/feed.xml" 2 =
      .ok [{ Title := "p1", Link := "http://a/1", Author := "ann", Created := 1000,
             Updated := 1000 },
           { Title := "p2", Link := "http://a/2", Author := "b@a", Created := 2000,
             Updated := 2500 }] ∧
    (∃ items, ParseFeed demo.feedSite3 "http://a/feed.xml" 0 = .ok items ∧ items.length = 3) := by
  obtain ⟨items, h1, h2, -, -⟩ := ParseFeed_caps_items demo.feedSite3 "http://a/feed.xml" 2
    demo.feedResp3 demo.entries3 (by decide) rfl rfl
  obtain ⟨items0, h3, -, h4, -⟩ := ParseFeed_caps_items demo.feedSite3 "http://a/feed.xml" 0
    demo.feedResp3 demo.entries3 (by decide) rfl rfl
  refine ⟨?_, items0, h3, h4⟩
  rw [h1, h2]
  rfl

end feeds

/-! ## Rule presets -/

namespace gomap

/-- A successful lookup returns a stored entry. -/
theorem lookup_mem {V : Type} : ∀ (m : Map V) (k : String) (v : V),
    lookup m k = some v → (k, v) ∈ m := by
  intro m
  induction m with
  | nil => intro k v h; simp [lookup] at h
  | cons kv rest ih =>
    intro k v h
    obtain ⟨k', v'⟩ := kv
    by_cases hk : k' = k
    · simp only [lookup, hk, if_true, Option.some.injEq] at h
      simp [hk, h]
    · simp only [lookup, hk, if_false] at h
      simp [ih k v h]

end gomap

namespace rules

/-- The case-insensitive loop finds a preset exactly when some key equals the wanted name
ignoring case, and what it finds is stored under such a key. -/
theorem findFold_spec (toLower : String → String) (lower : String) :
    ∀ m : gomap.Map Preset,
      (findFold toLower lower m = none ↔ ∀ kv ∈ m, toLower kv.1 ≠ lower) ∧
      (∀ v, findFold toLower lower m = some v → ∃ k, (k, v) ∈ m ∧ toLower k = lower) := by
  intro m
  induction m with
  | nil => simp [findFold]
  | cons kv rest ih =>
    obtain ⟨k, v⟩ := kv
    by_cases h : toLower k = lower
    · simp only [findFold, h, if_true]
      refine ⟨by simp [h], ?_⟩
      intro v' hv
      cases hv
      exact ⟨k, by simp, h⟩
    · simp only [findFold, h, if_false]
      refine ⟨by simp [h, ih.1], ?_⟩
      intro v' hv
      obtain ⟨k', hk', hl⟩ := ih.2 v' hv
      exact ⟨k', by simp [hk'], hl⟩

/-- The lookup order of `GetPreset`.  On a nil rule set or one without presets it reports
not-found, and on any other rule set it reports found.  With `want` the requested name
(`default` for the empty name): a preset stored under `want` itself is returned; else, when
some key equals `want` ignoring case, a preset stored under such a key is returned; when no
key does, the preset stored under the key `default`, written so, is returned if there is
one, and otherwise a preset of the rule set. -/
theorem GetPreset_lookup_order (toLower : String → String) (r : Rules) (name : String) :
    GetPreset toLower none name = ({ FriendsPage := none }, false) ∧
    ((GetPreset toLower (some r) name).2 = false ↔ r.Presets = []) ∧
    ((GetPreset toLower (some r) name).2 = false →
      (GetPreset toLower (some r) name).1 = { FriendsPage := none }) ∧
    (∀ p, gomap.lookup r.Presets (if name = "" then "default" else name) = some p →
      GetPreset toLower (some r) name = (p, true)) ∧
    ((∃ kv ∈ r.Presets, toLower kv.1 = toLower (if name = "" then "default" else name)) →
      ∃ k p, (k, p) ∈ r.Presets ∧
        toLower k = toLower (if name = "" then "default" else name) ∧
        GetPreset toLower (some r) name = (p, true)) ∧
    ((∀ kv ∈ r.Presets, toLower kv.1 ≠ toLower (if name = "" then "default" else name)) →
      (∀ p, gomap.lookup r.Presets "default" = some p →
        GetPreset toLower (some r) name = (p, true)) ∧
      (gomap.lookup r.Presets "default" = none → r.Presets ≠ [] →
        ∃ k p, (k, p) ∈ r.Presets ∧ GetPreset toLower (some r) name = (p, true))) := by
  generalize hw : (if name = "" then "default" else name) = want
  have hG : GetPreset toLower (some r) name =
      if r.Presets.length = 0 then ({ FriendsPage := none }, false)
      else
        match gomap.lookup r.Presets want with
        | some p => (p, true)
        | none =>
          match findFold toLower (toLower want) r.Presets with
          | some v => (v, true)
          | none =>
            match gomap.lookup r.Presets "default" with
            | some p => (p, true)
            | none =>
              match r.Presets with
              | (_, v) :: _ => (v, true)
              | [] => ({ FriendsPage := none }, false) := by
    rw [← hw]; rfl
  obtain ⟨hnone, hsome⟩ := findFold_spec toLower (toLower want) r.Presets
  refine ⟨rfl, ?_, ?_, ?_, ?_, ?_⟩
  · rw [hG]
    cases hP : r.Presets with
    | nil => simp
    | cons kv rest =>
      obtain ⟨k, v⟩ := kv
      simp only [List.length_cons, Nat.succ_ne_zero, if_false]
      cases gomap.lookup ((k, v) :: rest) want <;>
        cases findFold toLower (toLower want) ((k, v) :: rest) <;>
        cases gomap.lookup ((k, v) :: rest) "default" <;> simp
  · rw [hG]
    cases hP : r.Presets with
    | nil => simp
    | cons kv rest =>
      obtain ⟨k, v⟩ := kv
      simp only [List.length_cons, Nat.succ_ne_zero, if_false]
      cases gomap.lookup ((k, v) :: rest) want <;>
        cases findFold toLower (toLower want) ((k, v) :: rest) <;>
        cases gomap.lookup ((k, v) :: rest) "default" <;> simp
  · intro p hp
    have hne : r.Presets.length ≠ 0 := by
      intro h0
      rw [List.length_eq_zero.mp h0] at hp
      simp [gomap.lookup] at hp
    rw [hG, if_neg hne, hp]
  · rintro ⟨kv, hkv, hl⟩
    have hne : r.Presets.length ≠ 0 := by
      intro h0
      rw [List.length_eq_zero.mp h0] at hkv
      simp at hkv
    rw [hG, if_neg hne]
    cases hlk : gomap.lookup r.Presets want with
    | some p => exact ⟨want, p, gomap.lookup_mem _ _ _ hlk, rfl, rfl⟩
    | none =>
      cases hf : findFold toLower (toLower want) r.Presets with
      | some v =>
        obtain ⟨k, hk, hkl⟩ := hsome v hf
        exact ⟨k, v, hk, hkl, rfl⟩
      | none => exact absurd hl (hnone.mp hf kv hkv)
  · intro hno
    have hlk : gomap.lookup r.Presets want = none := by
      cases hlk : gomap.lookup r.Presets want with
      | none => rfl
      | some p => exact absurd rfl (hno _ (gomap.lookup_mem _ _ _ hlk))
    have hf : findFold toLower (toLower want) r.Presets = none := hnone.mpr hno
    refine ⟨?_, ?_⟩
    · intro p hp
      have hne : r.Presets.length ≠ 0 := by
        intro h0
        rw [List.length_eq_zero.mp h0] at hp
        simp [gomap.lookup] at hp
      rw [hG, if_neg hne, hlk, hf, hp]
    · intro hd hne
      rw [hG, if_neg (by simpa using hne), hlk, hf, hd]
      cases hP : r.Presets with
      | nil => exact absurd hP hne
      | cons kv rest =>
        obtain ⟨k, v⟩ := kv
        exact ⟨k, v, by simp, rfl⟩

/-- The lookup order on the rule set of the repository's test: with the presets `Default`
and `clarity`, in either order of the map, the names `""` and `DEFAULT` both give the preset
`Default`, and a name that matches no preset gives some preset of the rule set. -/
theorem GetPreset_lookup_order_witness :
    GetPreset strings.ToLower (some demo.rulesDC) "" = (demo.presetDefault, true) ∧
    GetPreset strings.ToLower (some demo.rulesDC) "DEFAULT" = (demo.presetDefault, true) ∧
    GetPreset strings.ToLower (some demo.rulesCD) "" = (demo.presetDefault, true) ∧
    GetPreset strings.ToLower (some demo.rulesCD) "DEFAULT" = (demo.presetDefault, true) ∧
    GetPreset strings.ToLower (some demo.rulesDC) "Clarity" = (demo.presetClarity, true) ∧
    (GetPreset strings.ToLower (some demo.rulesDC) "none").2 ≠ false := by
  have h := GetPreset_lookup_order strings.ToLower demo.rulesDC "none"
  exact ⟨by rfl, by rfl, by rfl, by rfl, by rfl, fun e => by
    have := h.2.1.mp e
    exact absurd this (by decide)⟩

/-- C20 (behaviour of the code at the failing input).  The rule set holds the presets
`Default` and `clarity`, and the name `none` matches neither.  The fallback looks up the key
`default` as it is written, finds nothing under it, and returns the first preset the range
over the map meets: `clarity` when the range meets that one first, `Default` when it meets
that one first.  The empty name and the name `default`, which go through the loop that
compares ignoring case, give `Default` in either order. -/
theorem GetPreset_fallback_skips_Default :
    gomap.lookup demo.rulesCD.Presets "default" = none ∧
    GetPreset strings.ToLower (some demo.rulesCD) "none" = (demo.presetClarity, true) ∧
    GetPreset strings.ToLower (some demo.rulesDC) "none" = (demo.presetDefault, true) ∧
    GetPreset strings.ToLower (some demo.rulesCD) "" = (demo.presetDefault, true) ∧
    GetPreset strings.ToLower (some demo.rulesCD) "default" = (demo.presetDefault, true) ∧
    GetPreset strings.ToLower (some demo.rulesDC) "default" = (demo.presetDefault, true) :=
  ⟨by rfl, by rfl, by rfl, by rfl, by rfl, by rfl⟩

end rules

/-! ## Export statistics and retention -/

namespace export_

/-- The counting loop of `ToJSONData` adds the number of friends without error. -/
theorem alive_foldl (friends : List model.Friend) : ∀ n : Int,
    friends.foldl (fun n f => if f.Error = "" then n + 1 else n) n =
      n + ((friends.filter fun f => decide (f.Error = "")).length : Int) := by
  induction friends with
  | nil => intro n; simp
  | cons f rest ih =>
    intro n
    by_cases h : f.Error = ""
    · simp only [List.foldl_cons, h, if_true, ih, List.filter_cons, decide_True,
        List.length_cons]
      push_cast
      ring
    · simp only [List.foldl_cons, h, if_false, ih, List.filter_cons, decide_False]
      simp

/-- Claim C17: the stats `ToJSONData` writes have `friends_total` the number of friends,
`friends_alive` the number of friends with an empty error, `friends_error` their
difference, and `posts_total` the smaller of the number of posts and 150, which is the
number of exported posts. -/
theorem ToJSONData_stats (now : Time) (friends : List model.Friend) (posts : List model.Post) :
    (ToJSONData now friends posts).Stats.FriendsTotal = friends.length ∧
    (ToJSONData now friends posts).Stats.FriendsAlive =
      (friends.filter fun f => decide (f.Error = "")).length ∧
    (ToJSONData now friends posts).Stats.FriendsError =
      (ToJSONData now friends posts).Stats.FriendsTotal -
        (ToJSONData now friends posts).Stats.FriendsAlive ∧
    (ToJSONData now friends posts).Stats.PostsTotal = ((min posts.length 150 : Nat) : Int) ∧
    (ToJSONData now friends posts).Stats.PostsTotal = (ToJSONData now friends posts).Posts.length ∧
    (ToJSONData now friends posts).Stats.UpdatedAt = now ∧
    (ToJSONData now friends posts).Friends = friends := by
  refine ⟨rfl, ?_, rfl, ?_, rfl, rfl, rfl⟩
  · simp only [ToJSONData, alive_foldl, zero_add]
  · simp only [ToJSONData, maxExportPosts]
    by_cases h : posts.length > 150
    · simp only [h, if_true, List.length_take, min_comm]
    · simp only [h, if_false]
      congr 1
      omega

/-- Example of C17, the repository's test: two friends, one with an error, and 160 posts
give the stats 2, 1, 1 and `posts_total` 150. -/
theorem ToJSONData_stats_witness :
    (ToJSONData 7 demo.twoFriends (demo.postsUpTo 160)).Stats =
      { FriendsTotal := 2, FriendsAlive := 1, FriendsError := 1, PostsTotal := 150,
        UpdatedAt := 7 } := by
  obtain ⟨h1, h2, h3, h4, -, h6, -⟩ := ToJSONData_stats 7 demo.twoFriends (demo.postsUpTo 160)
  have hlen : (demo.postsUpTo 160).length = 160 := by simp [demo.postsUpTo]
  rw [hlen] at h4
  have h2' : (ToJSONData 7 demo.twoFriends (demo.postsUpTo 160)).Stats.FriendsAlive = 1 := by
    rw [h2]; rfl
  have h1' : (ToJSONData 7 demo.twoFriends (demo.postsUpTo 160)).Stats.FriendsTotal = 2 := by
    rw [h1]; rfl
  have h3' : (ToJSONData 7 demo.twoFriends (demo.postsUpTo 160)).Stats.FriendsError = 1 := by
    rw [h3, h1', h2']; rfl
  cases hS : (ToJSONData 7 demo.twoFriends (demo.postsUpTo 160)).Stats with
  | mk a b c d e =>
    rw [hS] at h1' h2' h3' h4 h6
    simp only at h1' h2' h3' h4 h6
    subst h1' h2' h3' h4 h6
    rfl

end export_

namespace store

/-- What `CleanOldPosts` does with a retention of `days > 0` days: it returns no error,
leaves the friends alone, and keeps exactly the posts whose stored text of `created` is not
below the text of the UTC wall clock `days` days before `now`. -/
theorem CleanOldPosts_keeps (s : SQLite) (zone : model.Post → gotime.Zone) (now : Time)
    (days : Int) (hdays : 0 < days) :
    (s.CleanOldPosts zone now days).2 = none ∧
    (s.CleanOldPosts zone now days).1.friends = s.friends ∧
    (∀ p, p ∈ (s.CleanOldPosts zone now days).1.posts ↔
      p ∈ s.posts ∧
        strings.Less (createdText zone p) (sqlite.datetime (now - days * 86400)) = false) ∧
    (s.CleanOldPosts zone now days).1.posts.Sublist s.posts := by
  have hnot : ¬ days ≤ 0 := not_le.mpr hdays
  have hposts : (s.CleanOldPosts zone now days).1.posts =
      s.posts.filter fun p =>
        !strings.Less (createdText zone p) (sqlite.datetime (now - days * 86400)) := by
    simp only [SQLite.CleanOldPosts, hnot, if_false, secondsPerDay]
  refine ⟨?_, ?_, ?_, ?_⟩
  · simp only [SQLite.CleanOldPosts, hnot, if_false]
  · simp only [SQLite.CleanOldPosts, hnot, if_false]
  · intro p
    rw [hposts]
    simp [List.mem_filter]
  · rw [hposts]
    exact List.filter_sublist _

/-- C18 (behaviour of the code at the failing input).  The clock reads 15 June 2025,
12:00:00 UTC and the retention is 30 days, so the limit is 16 May 2025, 12:00:00 UTC, and
the statement compares the stored text of `created` with `2025-05-16 12:00:00`.  A post
created one second before the limit, or one hour before it, and carried in a zone eight
hours east of UTC is stored with the wall clock `19:59:59`, or `19:00:00`, of that day and
is kept; one created nine hours before the limit in that zone is deleted.  A post created
one second after the limit and carried eight hours west of UTC is stored with the wall
clock `04:00:01` and is deleted.  Of the posts carried in UTC the one created one second
before the limit is deleted, and the ones created on the limit and one second after it are
kept.  A retention of 0 days deletes nothing. -/
theorem CleanOldPosts_compares_stored_text :
    sqlite.datetime demo.limit30 = "2025-05-16 12:00:00" ∧
    (demo.zonedStore.posts.map fun p => (p.Link, createdText demo.zoneOf p)) =
      [("http://east/before", "2025-05-16 19:59:59 +0800 CST"),
       ("http://east/hour-before", "2025-05-16 19:00:00 +0800 CST"),
       ("http://east/nine-hours-before", "2025-05-16 11:00:00 +0800 CST"),
       ("http://west/after", "2025-05-16 04:00:01 -0800 PST"),
       ("http://utc/before", "2025-05-16 11:59:59 +0000 UTC"),
       ("http://utc/on", "2025-05-16 12:00:00 +0000 UTC"),
       ("http://utc/after", "2025-05-16 12:00:01 +0000 UTC")] ∧
    ((demo.zonedStore.CleanOldPosts demo.zoneOf demo.noon 30).1.posts.map fun p => p.Link) =
      ["http://east/before", "http://east/hour-before", "http://utc/on", "http://utc/after"] ∧
    (demo.zonedStore.CleanOldPosts demo.zoneOf demo.noon 30).2 = none ∧
    (demo.zonedStore.CleanOldPosts demo.zoneOf demo.noon 0).1.posts = demo.zonedStore.posts := by
  decide

end store

/-! ## More on maps -/

namespace gomap

/-- An assignment to one key leaves the lookup of every other key as it was. -/
theorem lookup_insert_other {V : Type} (m : Map V) (k k' : String) (v : V) (h : k ≠ k') :
    lookup (insert m k v) k' = lookup m k' := by
  induction m with
  | nil => simp [insert, lookup, h]
  | cons kv rest ih =>
    obtain ⟨k0, v0⟩ := kv
    by_cases h0 : k0 = k
    · subst h0
      simp [insert, lookup, h]
    · by_cases h1 : k0 = k'
      · subst h1
        simp [insert, lookup, h0]
      · simp [insert, lookup, h0, h1, ih]

/-- The keys after an assignment: the key is appended when it is new. -/
theorem keys_insert {V : Type} (m : Map V) (k : String) (v : V) :
    (insert m k v).map (fun kv => kv.1) =
      if k ∈ m.map (fun kv => kv.1) then m.map (fun kv => kv.1)
      else m.map (fun kv => kv.1) ++ [k] := by
  induction m with
  | nil => simp [insert]
  | cons kv rest ih =>
    obtain ⟨k0, v0⟩ := kv
    by_cases h0 : k0 = k
    · subst h0
      simp [insert]
    · have h0' : ¬ k = k0 := fun e => h0 e.symm
      by_cases hm : k ∈ rest.map (fun kv => kv.1)
      · have hm' : ∃ a, (∃ x, (a, x) ∈ rest) ∧ a = k := by simpa using hm
        simp only [insert, h0, if_false, List.map_cons, ih, hm, if_true, List.mem_cons, or_true]
      · simp only [insert, h0, if_false, List.map_cons, ih, hm, List.mem_cons, h0', or_self,
          List.cons_append]

/-- An assignment keeps the keys pairwise distinct. -/
theorem nodup_insert {V : Type} (m : Map V) (k : String) (v : V)
    (h : (m.map fun kv => kv.1).Nodup) : ((insert m k v).map fun kv => kv.1).Nodup := by
  rw [keys_insert]
  by_cases hm : k ∈ m.map (fun kv => kv.1)
  · rw [if_pos hm]; exact h
  · rw [if_neg hm]
    exact List.Nodup.append h (List.nodup_singleton k) (by simpa using hm)

/-- An entry after an assignment is the assigned one or was there before. -/
theorem mem_insert {V : Type} (m : Map V) (k : String) (v : V) (kv : String × V)
    (h : kv ∈ insert m k v) : kv = (k, v) ∨ kv ∈ m := by
  induction m with
  | nil => simpa [insert] using h
  | cons kv0 rest ih =>
    obtain ⟨k0, v0⟩ := kv0
    by_cases h0 : k0 = k
    · simp only [insert, h0, if_true, List.mem_cons] at h
      rcases h with h | h
      · exact Or.inl h
      · exact Or.inr (by simp [h])
    · simp only [insert, h0, if_false, List.mem_cons] at h
      rcases h with h | h
      · exact Or.inr (by simp [h])
      · rcases ih h with h | h
        · exact Or.inl h
        · exact Or.inr (by simp [h])

/-- With pairwise distinct keys, a stored entry is the one its key looks up. -/
theorem lookup_of_mem {V : Type} (m : Map V) (k : String) (v : V)
    (hnd : (m.map fun kv => kv.1).Nodup) (h : (k, v) ∈ m) : lookup m k = some v := by
  induction m with
  | nil => simp at h
  | cons kv0 rest ih =>
    obtain ⟨k0, v0⟩ := kv0
    simp only [List.map_cons, List.nodup_cons] at hnd
    simp only [List.mem_cons, Prod.mk.injEq] at h
    rcases h with ⟨hk, hv⟩ | h
    · simp [lookup, hk, hv]
    · have hne : k0 ≠ k := by
        intro e
        apply hnd.1
        rw [e]
        exact List.mem_map.mpr ⟨(k, v), h, rfl⟩
      simp [lookup, hne, ih hnd.2 h]

/-- Assigning twice to one key is assigning the last value. -/
theorem insert_insert {V : Type} (m : Map V) (k : String) (v v' : V) :
    insert (insert m k v) k v' = insert m k v' := by
  induction m with
  | nil => simp [insert]
  | cons kv0 rest ih =>
    obtain ⟨k0, v0⟩ := kv0
    by_cases h0 : k0 = k
    · simp [insert, h0]
    · simp [insert, h0, ih]

/-- The number of entries under a key is one after an assignment to it, when the keys were
pairwise distinct. -/
theorem count_key_insert {V : Type} (m : Map V) (k : String) (v : V)
    (hnd : (m.map fun kv => kv.1).Nodup) :
    ((insert m k v).map fun kv => kv.1).count k = 1 := by
  apply List.count_eq_one_of_mem (nodup_insert m k v hnd)
  rw [keys_insert]
  by_cases hm : k ∈ m.map (fun kv => kv.1)
  · rw [if_pos hm]; exact hm
  · rw [if_neg hm]; simp

end gomap

/-! ## Sorting, the snapshot and the export cap -/

namespace strings

/-- The byte-wise order of Go strings is the lexicographic order of the characters. -/
theorem lessL_iff_lex : ∀ a b : List Char, lessL a b = true ↔ List.Lex (· < ·) a b := by
  intro a
  induction a with
  | nil =>
    intro b
    cases b with
    | nil => simp [lessL]
    | cons d ds => simp [lessL, List.Lex.nil]
  | cons c cs ih =>
    intro b
    cases b with
    | nil => simp [lessL]
    | cons d ds =>
      simp only [lessL, Bool.or_eq_true, Bool.and_eq_true, decide_eq_true_eq, ih]
      constructor
      · rintro (h | ⟨h, h2⟩)
        · exact List.Lex.rel h
        · subst h
          exact List.Lex.cons h2
      · intro h
        cases h with
        | rel h => exact Or.inl h
        | cons h => exact Or.inr ⟨rfl, h⟩

/-- The model of Go's `<` on strings agrees with the order of `String`. -/
theorem Less_iff_lt (s t : String) : Less s t = true ↔ s < t := by
  rw [String.lt_iff_toList_lt]
  exact lessL_iff_lex s.data t.data

/-- As a relation: `Less t s` fails exactly when `s ≤ t`. -/
theorem Less_eq_false_iff (s t : String) : Less t s = false ↔ s ≤ t := by
  rw [← not_lt, ← Less_iff_lt]
  simp

end strings

namespace sort

/-- The result of `Slice` is a rearrangement of its argument. -/
theorem Slice_perm {α : Type} (less : α → α → Bool) (x : List α) : (Slice less x).Perm x :=
  List.perm_insertionSort _ x

/-- When `less b a = false` is the order `le`, the result of `Slice` is sorted by `le`. -/
theorem Slice_sorted {α : Type} (less : α → α → Bool) (le : α → α → Prop)
    (hle : ∀ a b, less b a = false ↔ le a b) (htotal : ∀ a b, le a b ∨ le b a)
    (htrans : ∀ a b c, le a b → le b c → le a c) (x : List α) :
    (Slice less x).Sorted le := by
  haveI : IsTotal α (fun a b => less b a = false) :=
    ⟨fun a b => by simp only [hle]; exact htotal a b⟩
  haveI : IsTrans α (fun a b => less b a = false) :=
    ⟨fun a b c => by simp only [hle]; exact htrans a b c⟩
  have h := List.sorted_insertionSort (fun a b => less b a = false) x
  exact List.Pairwise.imp (fun {a b} hab => (hle a b).mp hab) h

/-- Sorting friends by name. -/
theorem Slice_byName (x : List model.Friend) :
    (Slice (fun a b => strings.Less a.Name b.Name) x).Sorted (fun a b => a.Name ≤ b.Name) :=
  Slice_sorted _ _ (fun a b => strings.Less_eq_false_iff a.Name b.Name)
    (fun a b => le_total a.Name b.Name) (fun _ _ _ h1 h2 => le_trans h1 h2) x

/-- Sorting posts by creation time, latest first. -/
theorem Slice_byCreated (x : List model.Post) :
    (Slice (fun a b => decide (a.Created > b.Created)) x).Sorted
      (fun a b => a.Created ≥ b.Created) :=
  Slice_sorted _ _ (fun a b => by simp) (fun a b => le_total b.Created a.Created)
    (fun _ _ _ h1 h2 => le_trans h2 h1) x

/-- With pairwise distinct creation times the order of the sorted posts is strict. -/
theorem Slice_byCreated_strict (x : List model.Post) (hd : (x.map fun p => p.Created).Nodup) :
    (Slice (fun a b => decide (a.Created > b.Created)) x).Sorted
      (fun a b => a.Created > b.Created) := by
  have hs := Slice_byCreated x
  have hp := Slice_perm (fun a b : model.Post => decide (a.Created > b.Created)) x
  have hd2 : ((Slice (fun a b : model.Post => decide (a.Created > b.Created)) x).map
      fun p => p.Created).Nodup := (hp.map _).nodup_iff.mpr hd
  have hne := List.pairwise_map.mp hd2
  exact (List.Pairwise.and hs hne).imp fun {a b} h => lt_of_le_of_ne h.1 (Ne.symm h.2)

end sort

namespace aggregate

/-- The empty buffer satisfies the representation invariant. -/
theorem WF_New : NewSimpleBuffer.WF := by
  simp [SimpleBuffer.WF, NewSimpleBuffer]

/-- The write `AddFriend` keeps the representation invariant. -/
theorem WF_AddFriend (b : SimpleBuffer) (f : model.Friend) (h : b.WF) : (b.AddFriend f).WF := by
  unfold SimpleBuffer.AddFriend
  by_cases hl : f.Link = ""
  · rw [if_pos hl]; exact h
  · rw [if_neg hl]
    refine ⟨gomap.nodup_insert _ _ _ h.1, ?_, h.2.2.1, h.2.2.2⟩
    intro kv hkv
    rcases gomap.mem_insert _ _ _ _ hkv with e | e
    · rw [e]
    · exact h.2.1 kv e

/-- The write `AddPost` keeps the representation invariant. -/
theorem WF_AddPost (b : SimpleBuffer) (p : model.Post) (h : b.WF) : (b.AddPost p).WF := by
  unfold SimpleBuffer.AddPost
  by_cases hl : p.Link = ""
  · rw [if_pos hl]; exact h
  · rw [if_neg hl]
    refine ⟨h.1, h.2.1, gomap.nodup_insert _ _ _ h.2.2.1, ?_⟩
    intro kv hkv
    rcases gomap.mem_insert _ _ _ _ hkv with e | e
    · rw [e]
    · exact h.2.2.2 kv e

/-- In a map that stores every value under its own link, with distinct keys, the lookups
are the values with their links, and the links of the values are pairwise distinct. -/
theorem values_of_keyed {V : Type} (link : V → String) (m : gomap.Map V)
    (hnd : (m.map fun kv => kv.1).Nodup) (hk : ∀ kv ∈ m, link kv.2 = kv.1) :
    ((gomap.values m).map link).Nodup ∧
    ∀ k v, gomap.lookup m k = some v ↔ (v ∈ gomap.values m ∧ link v = k) := by
  have hkeys : (gomap.values m).map link = m.map fun kv => kv.1 := by
    simp only [gomap.values, List.map_map]
    exact List.map_congr_left fun kv hkv => hk kv hkv
  refine ⟨by rw [hkeys]; exact hnd, ?_⟩
  intro k v
  constructor
  · intro h
    have hm := gomap.lookup_mem m k v h
    exact ⟨List.mem_map.mpr ⟨(k, v), hm, rfl⟩, hk _ hm⟩
  · rintro ⟨hv, hl⟩
    obtain ⟨kv, hkv, e⟩ := List.mem_map.mp hv
    have h1 := hk kv hkv
    have : kv = (k, v) := by
      obtain ⟨k0, v0⟩ := kv
      simp only at e h1
      rw [← hl, ← e, h1]
    rw [this] at hkv
    exact gomap.lookup_of_mem m k v hnd hkv

/-- Claim C15: the friends list of `Snapshot` is a rearrangement of the stored friends in
ascending order of name, its posts list a rearrangement of the stored articles in
non-increasing order of creation time; in a buffer that satisfies the representation
invariant (every buffer built by the writes does) no two friends of the list and no two
posts of the list share a link, and the entries of each list are exactly what the buffer
looks up under their links. -/
theorem Snapshot_sorted_perm (b : SimpleBuffer) :
    b.Snapshot.1.Perm (gomap.values b.friends) ∧
    b.Snapshot.1.Sorted (fun x y => x.Name ≤ y.Name) ∧
    b.Snapshot.2.Perm (gomap.values b.posts) ∧
    b.Snapshot.2.Sorted (fun x y => x.Created ≥ y.Created) ∧
    (b.WF →
      (b.Snapshot.1.map fun f => f.Link).Nodup ∧
      (b.Snapshot.2.map fun p => p.Link).Nodup ∧
      (∀ k f, gomap.lookup b.friends k = some f ↔ (f ∈ b.Snapshot.1 ∧ f.Link = k)) ∧
      (∀ k p, gomap.lookup b.posts k = some p ↔ (p ∈ b.Snapshot.2 ∧ p.Link = k))) := by
  have hf : b.Snapshot.1.Perm (gomap.values b.friends) := sort.Slice_perm _ _
  have hp : b.Snapshot.2.Perm (gomap.values b.posts) := sort.Slice_perm _ _
  refine ⟨hf, sort.Slice_byName _, hp, sort.Slice_byCreated _, ?_⟩
  intro hwf
  obtain ⟨hf1, hf2⟩ := values_of_keyed (fun f : model.Friend => f.Link) b.friends hwf.1 hwf.2.1
  obtain ⟨hp1, hp2⟩ := values_of_keyed (fun p : model.Post => p.Link) b.posts hwf.2.2.1
    hwf.2.2.2
  refine ⟨(hf.map _).nodup_iff.mpr hf1, (hp.map _).nodup_iff.mpr hp1, ?_, ?_⟩
  · intro k f
    rw [hf2 k f, hf.mem_iff]
  · intro k p
    rw [hp2 k p, hp.mem_iff]

/-- Witness for C15: a buffer written out of order; the snapshot lists the friends by name
(upper case before lower case, as bytes compare) and the posts latest first. -/
theorem Snapshot_sorted_perm_witness :
    demo.buf3.WF ∧
    (demo.buf3.Snapshot.1.map fun f => f.Name) = ["Alice", "Bob", "Carol"] ∧
    (demo.buf3.Snapshot.2.map fun p => (p.Link, p.Created)) =
      [("http://a/1", 30), ("http://c/1", 20), ("http://b/1", 10)] ∧
    (demo.buf3.Snapshot.1.map fun f => f.Link).Nodup ∧
    (demo.buf3.Snapshot.2.map fun p => p.Link).Nodup := by
  have hwf : demo.buf3.WF := by decide
  have h := (Snapshot_sorted_perm demo.buf3).2.2.2.2 hwf
  exact ⟨hwf, by decide, by decide, h.1, h.2.1⟩

end aggregate

namespace export_

/-- The cap on a list sorted latest first, with distinct creation times: what is kept are
the `min n 150` latest of the stored posts, latest first. -/
theorem cap_latest (stored sorted : List model.Post) (hperm : sorted.Perm stored)
    (hsorted : sorted.Sorted fun x y => x.Created > y.Created) :
    (if sorted.length > maxExportPosts then sorted.take maxExportPosts else sorted).length =
      min stored.length 150 ∧
    (if sorted.length > maxExportPosts then sorted.take maxExportPosts else sorted).Sorted
      (fun x y => x.Created > y.Created) ∧
    (∀ p ∈ (if sorted.length > maxExportPosts then sorted.take maxExportPosts else sorted),
      p ∈ stored) ∧
    (∀ p ∈ (if sorted.length > maxExportPosts then sorted.take maxExportPosts else sorted),
      ∀ q ∈ stored,
        q ∉ (if sorted.length > maxExportPosts then sorted.take maxExportPosts else sorted) →
        q.Created < p.Created) := by
  have hout : (if sorted.length > maxExportPosts then sorted.take maxExportPosts else sorted) =
      sorted.take 150 := by
    by_cases h : sorted.length > maxExportPosts
    · rw [if_pos h]; rfl
    · rw [if_neg h]
      exact (List.take_of_length_le (by simpa [maxExportPosts] using h)).symm
  rw [hout]
  refine ⟨?_, ?_, ?_, ?_⟩
  · rw [List.length_take, hperm.length_eq, min_comm]
  · exact List.Pairwise.sublist (List.take_sublist _ _) hsorted
  · intro p hp
    exact hperm.mem_iff.mp (List.mem_of_mem_take hp)
  · intro p hp q hq hnot
    have hq2 : q ∈ sorted.take 150 ++ sorted.drop 150 := by
      rw [List.take_append_drop]
      exact hperm.mem_iff.mpr hq
    have hq3 : q ∈ sorted.drop 150 := by
      rcases List.mem_append.mp hq2 with h | h
      · exact absurd h hnot
      · exact h
    have hs2 : (sorted.take 150 ++ sorted.drop 150).Pairwise fun x y => x.Created > y.Created := by
      rw [List.take_append_drop]
      exact hsorted
    exact (List.pairwise_append.mp hs2).2.2 p hp q hq3

/-- The export of a buffer whose articles have pairwise distinct creation times: the posts
`ToJSONData` writes for the snapshot are `min n 150` of the `n` articles, in descending
order of creation time, and each of them was created later than every article that is not
exported. -/
theorem Snapshot_export_keeps_latest (now : Time) (b : aggregate.SimpleBuffer)
    (hb : ((gomap.values b.posts).map fun p => p.Created).Nodup) :
    (ToJSONData now b.Snapshot.1 b.Snapshot.2).Posts.length =
        min (gomap.values b.posts).length 150 ∧
      (ToJSONData now b.Snapshot.1 b.Snapshot.2).Posts.Sorted
        (fun x y => x.Created > y.Created) ∧
      (∀ p ∈ (ToJSONData now b.Snapshot.1 b.Snapshot.2).Posts, p ∈ gomap.values b.posts) ∧
      (∀ p ∈ (ToJSONData now b.Snapshot.1 b.Snapshot.2).Posts, ∀ q ∈ gomap.values b.posts,
        q ∉ (ToJSONData now b.Snapshot.1 b.Snapshot.2).Posts → q.Created < p.Created) :=
  cap_latest (gomap.values b.posts) b.Snapshot.2 (sort.Slice_perm _ _)
    (sort.Slice_byCreated_strict _ hb)

/-- The posts of the export tests have pairwise distinct creation times. -/
theorem postsUpTo_created_nodup (n : Nat) :
    ((demo.postsUpTo n).map fun p => p.Created).Nodup := by
  simp only [demo.postsUpTo, List.map_map]
  apply List.Nodup.map _ (List.nodup_range n)
  intro i j h
  have h2 : (1000 : Int) + 60 * (i : Int) = 1000 + 60 * (j : Int) := h
  omega

set_option maxRecDepth 100000 in
/-- The creation times in the export of a buffer with the 200 posts of the test are those
of the posts 199 down to 50. -/
theorem export_200_created :
    ((ToJSONData 0 [] demo.buf200.Snapshot.2).Posts.map fun p => p.Created) =
      (List.range 150).map fun i => 1000 + 60 * ((199 - i : Nat) : Int) := by
  decide

set_option maxRecDepth 100000 in
/-- C16 (behaviour of the code at the failing input).  The store holds a post created on
1 January 2025 at 05:00 UTC and carried in UTC, and a post created three hours earlier and
carried in a zone eight hours east of UTC, whose stored text shows the wall clock `10:00`.
The store's listing orders by the stored text, so the export of the store lists the
earlier post first, in ascending order of creation time, where the export of a buffer with
the same two posts lists the later post first.  And of 151 stored posts, 150 carried in the
eastern zone and created before the post carried in UTC, the export of the store keeps the
150 and leaves out the one created last. -/
theorem ToJSON_lists_by_stored_text :
    (demo.twoZoneStore.posts.map fun p => (p.Link, store.createdText demo.zoneOf p)) =
      [("http://utc/later", "2025-01-01 05:00:00 +0000 UTC"),
       ("http://east/earlier", "2025-01-01 10:00:00 +0800 CST")] ∧
    demo.earlierPost.Created < demo.laterPost.Created ∧
    (ToJSON 0 demo.zoneOf demo.twoZoneStore).Posts = [demo.earlierPost, demo.laterPost] ∧
    (ToJSONData 0 [] demo.twoZoneBuf.Snapshot.2).Posts = [demo.laterPost, demo.earlierPost] ∧
    demo.capStore.posts.length = 151 ∧
    demo.laterPost ∈ demo.capStore.posts ∧
    (ToJSON 0 demo.zoneOf demo.capStore).Posts = (List.range 150).map demo.eastPost ∧
    (∀ p ∈ (ToJSON 0 demo.zoneOf demo.capStore).Posts, p.Created < demo.laterPost.Created) := by
  decide

end export_

/-! ## Sink writes -/

namespace gomap

/-- The lookup after an assignment. -/
theorem lookup_insert {V : Type} (m : Map V) (k k' : String) (v : V) :
    lookup (insert m k v) k' = if k = k' then some v else lookup m k' := by
  by_cases h : k = k'
  · rw [if_pos h, ← h]; exact lookup_insert_self m k v
  · rw [if_neg h]; exact lookup_insert_other m k k' v h

end gomap

namespace aggregate

/-- The loop of `AddPosts` over two lists in a row. -/
theorem AddPosts_append : ∀ (ps qs : List model.Post) (b : SimpleBuffer),
    b.AddPosts (ps ++ qs) = (b.AddPosts ps).AddPosts qs := by
  intro ps
  induction ps with
  | nil => intro qs b; rfl
  | cons p rest ih =>
    intro qs b
    by_cases h : p.Link = ""
    · simp only [List.cons_append, SimpleBuffer.AddPosts, h, if_true, List.append_eq, ih]
    · simp only [List.cons_append, SimpleBuffer.AddPosts, h, if_false, List.append_eq, ih]

/-- Counterexample to C14: the buffer drops an article without link and reports nothing,
by `AddPost` as by `AddPosts`, where the store returns an error. -/
theorem AddPost_drops_empty_link :
    (writePost 100 demo.simpleRunner demo.linklessPost).2 = none ∧
    (writePost 100 demo.simpleRunner demo.linklessPost).1.articles = [demo.oldPost] ∧
    (NewSimpleBuffer.AddPost demo.linklessPost).posts = [] ∧
    (NewSimpleBuffer.AddPosts [demo.linklessPost]).posts = [] ∧
    (writePost 100 demo.storeRunner demo.linklessPost).2 = some "post.link required" := by
  decide

/-- Claim C14, amended: for an article whose link is empty, the store's `UpsertPost` returns
the error `post.link required` and writes nothing; the buffer's `AddPost` leaves the buffer
as it is, `AddPosts` skips the article, and neither reports anything, so that the write of
`processFriend` yields an error in normal mode and none in simple mode. -/
theorem empty_link_post_contract (now : Time) (s : store.SQLite) (b : SimpleBuffer)
    (r : Runner) (p : model.Post) (ps qs : List model.Post) (h : p.Link = "") :
    s.UpsertPost now p = (s, some "post.link required") ∧
    b.AddPost p = b ∧
    b.AddPosts (ps ++ p :: qs) = b.AddPosts (ps ++ qs) ∧
    (r.buf = none → writePost now r p = (r, some "post.link required")) ∧
    (r.buf = some b → writePost now r p = (r, none)) := by
  have h1 : s.UpsertPost now p = (s, some "post.link required") := by
    simp only [store.SQLite.UpsertPost, h, if_true]
  have h2 : b.AddPost p = b := by
    simp only [SimpleBuffer.AddPost, h, if_true]
  refine ⟨h1, h2, ?_, ?_, ?_⟩
  · rw [AddPosts_append, AddPosts_append]
    simp only [SimpleBuffer.AddPosts, h, if_true]
  · intro hb
    have : r.store.UpsertPost now p = (r.store, some "post.link required") := by
      simp only [store.SQLite.UpsertPost, h, if_true]
    obtain ⟨c, cl, st, bf⟩ := r
    simp only at hb this
    subst hb
    simp only [writePost, this]
  · intro hb
    obtain ⟨c, cl, st, bf⟩ := r
    simp only at hb
    subst hb
    simp only [writePost, h2]

/-- Witness for C14: the article without link at a store and at a buffer that hold one
article. -/
theorem empty_link_post_contract_witness :
    demo.storeRunner.store.UpsertPost 100 demo.linklessPost =
      (demo.storeRunner.store, some "post.link required") ∧
    writePost 100 demo.simpleRunner demo.linklessPost = (demo.simpleRunner, none) := by
  have h := empty_link_post_contract 100 demo.storeRunner.store
    { friends := [], posts := [("http://x/1", demo.oldPost)] } demo.simpleRunner
    demo.linklessPost [] [] rfl
  exact ⟨h.1, h.2.2.2.2 rfl⟩

/-- Counterexample to C13: two tasks write the article `http://s/1` with different avatars;
the buffer ends with the payload of whichever write came last. -/
theorem same_link_writes_do_not_commute :
    gomap.lookup
      ((Write.post demo.sharedPostB).apply
        ((Write.post demo.sharedPostA).apply NewSimpleBuffer)).posts "http://s/1" =
      some demo.sharedPostB ∧
    gomap.lookup
      ((Write.post demo.sharedPostA).apply
        ((Write.post demo.sharedPostB).apply NewSimpleBuffer)).posts "http://s/1" =
      some demo.sharedPostA ∧
    demo.sharedPostA ≠ demo.sharedPostB ∧
    ¬ ((Write.post demo.sharedPostB).apply
        ((Write.post demo.sharedPostA).apply NewSimpleBuffer)).Same
      ((Write.post demo.sharedPostA).apply ((Write.post demo.sharedPostB).apply NewSimpleBuffer)) := by
  refine ⟨by decide, by decide, by decide, ?_⟩
  intro h
  have h2 := h.2 "http://s/1"
  revert h2
  decide

/-- Two assignments to a map commute, as far as lookups tell, unless they assign different
values to one key. -/
theorem insert_comm_lookup {V : Type} (m : gomap.Map V) (k1 k2 : String) (v1 v2 : V)
    (h : k1 = k2 → v1 = v2) (k : String) :
    gomap.lookup (gomap.insert (gomap.insert m k1 v1) k2 v2) k =
      gomap.lookup (gomap.insert (gomap.insert m k2 v2) k1 v1) k := by
  simp only [gomap.lookup_insert]
  by_cases h1 : k1 = k <;> by_cases h2 : k2 = k
  · have hv := h (h1.trans h2.symm)
    subst hv
    simp [h1, h2]
  · simp [h1, h2]
  · simp [h1, h2]
  · simp [h1, h2]

/-- Claim C13, amended: two writes to a buffer (each an `AddFriend` or an `AddPost`) leave
the same friends and posts under every link in both orders exactly when they are not two
writes of the same kind to one non-empty link with different payloads; in that case the
write applied last wins. -/
theorem writes_commute_iff (b : SimpleBuffer) (w1 w2 : Write) :
    (w2.apply (w1.apply b)).Same (w1.apply (w2.apply b)) ↔
      ¬ ((∃ f g, w1 = .friend f ∧ w2 = .friend g ∧ f.Link = g.Link ∧ f.Link ≠ "" ∧ f ≠ g) ∨
         (∃ p q, w1 = .post p ∧ w2 = .post q ∧ p.Link = q.Link ∧ p.Link ≠ "" ∧ p ≠ q)) := by
  cases w1 with
  | friend f =>
    cases w2 with
    | friend g =>
      simp only [Write.apply, SimpleBuffer.AddFriend, Write.friend.injEq, reduceCtorEq,
        false_and, exists_false, exists_const, or_false]
      by_cases hf : f.Link = "" <;> by_cases hg : g.Link = ""
      · simp [hf, hg, SimpleBuffer.Same]
      · simp [hf, hg, SimpleBuffer.Same]
      · simp [hf, hg, SimpleBuffer.Same]
      · simp only [hf, hg, if_false, SimpleBuffer.Same]
        constructor
        · rintro h ⟨f', g', hf', hg', hl, -, hne⟩
          subst hf' hg'
          have h2 := h.1 f.Link
          rw [gomap.lookup_insert, if_pos hl.symm, gomap.lookup_insert_self] at h2
          exact hne (Option.some.inj h2).symm
        · intro h
          refine ⟨fun k => ?_, fun _ => trivial⟩
          apply insert_comm_lookup
          intro hl
          by_contra hne
          exact h ⟨f, g, rfl, rfl, hl, hf, hne⟩
    | post p =>
      simp only [Write.apply, reduceCtorEq, false_and, and_false, exists_false, or_self,
        not_false_eq_true, iff_true]
      unfold SimpleBuffer.AddFriend SimpleBuffer.AddPost
      by_cases hf : f.Link = "" <;> by_cases hp : p.Link = "" <;>
        simp [hf, hp, SimpleBuffer.Same]
  | post p =>
    cases w2 with
    | friend g =>
      simp only [Write.apply, reduceCtorEq, false_and, and_false, exists_false, or_self,
        not_false_eq_true, iff_true]
      unfold SimpleBuffer.AddFriend SimpleBuffer.AddPost
      by_cases hg : g.Link = "" <;> by_cases hp : p.Link = "" <;>
        simp [hg, hp, SimpleBuffer.Same]
    | post q =>
      simp only [Write.apply, SimpleBuffer.AddPost, Write.post.injEq, reduceCtorEq,
        false_and, exists_false, exists_const, false_or]
      by_cases hp : p.Link = "" <;> by_cases hq : q.Link = ""
      · simp [hp, hq, SimpleBuffer.Same]
      · simp [hp, hq, SimpleBuffer.Same]
      · simp [hp, hq, SimpleBuffer.Same]
      · simp only [hp, hq, if_false, SimpleBuffer.Same]
        constructor
        · rintro h ⟨p', q', hp', hq', hl, -, hne⟩
          subst hp' hq'
          have h2 := h.2 p.Link
          rw [gomap.lookup_insert, if_pos hl.symm, gomap.lookup_insert_self] at h2
          exact hne (Option.some.inj h2).symm
        · intro h
          refine ⟨fun _ => trivial, fun k => ?_⟩
          apply insert_comm_lookup
          intro hl
          by_contra hne
          exact h ⟨p, q, rfl, rfl, hl, hp, hne⟩

end aggregate

namespace store

/-- The statement of `UpsertFriend`, run on rows it has already been run on with the same
friend, changes nothing. -/
theorem upsertFriendRows_twice (f : model.Friend) (c c' : Time) : ∀ rows : List model.Friend,
    upsertFriendRows f c' (upsertFriendRows f c rows) = upsertFriendRows f c rows := by
  intro rows
  induction rows with
  | nil => simp [upsertFriendRows]
  | cons r rs ih =>
    by_cases h : r.Link = f.Link
    · simp [upsertFriendRows, h]
    · simp [upsertFriendRows, h, ih]

/-- The links of the rows after the statement of `UpsertFriend`: the link is appended when
no row has it. -/
theorem links_upsertFriendRows (f : model.Friend) (c : Time) : ∀ rows : List model.Friend,
    (upsertFriendRows f c rows).map (fun r => r.Link) =
      if f.Link ∈ rows.map (fun r => r.Link) then rows.map (fun r => r.Link)
      else rows.map (fun r => r.Link) ++ [f.Link] := by
  intro rows
  induction rows with
  | nil => simp [upsertFriendRows]
  | cons r rs ih =>
    by_cases h : r.Link = f.Link
    · simp [upsertFriendRows, h]
    · have h' : ¬ f.Link = r.Link := fun e => h e.symm
      by_cases hm : f.Link ∈ rs.map (fun r => r.Link)
      · simp only [upsertFriendRows, h, if_false, List.map_cons, ih, hm, if_true, List.mem_cons,
          or_true]
      · simp only [upsertFriendRows, h, if_false, List.map_cons, ih, hm, List.mem_cons, h',
          or_self, List.cons_append]

/-- The row found under the link of the friend after the statement of `UpsertFriend`: the
friend's name, avatar and error, with the creation time of the row that was there, or the
given one when there was none. -/
theorem find_upsertFriendRows_self (f : model.Friend) (c : Time) : ∀ rows : List model.Friend,
    (upsertFriendRows f c rows).find? (fun g => decide (g.Link = f.Link)) =
      some { f with
        CreatedAt :=
          match rows.find? (fun g => decide (g.Link = f.Link)) with
          | some old => old.CreatedAt
          | none => c } := by
  intro rows
  induction rows with
  | nil => simp [upsertFriendRows]
  | cons r rs ih =>
    by_cases h : r.Link = f.Link
    · simp [upsertFriendRows, h]
    · simp [upsertFriendRows, h, ih]

/-- The rows under other links are not touched by the statement of `UpsertFriend`. -/
theorem find_upsertFriendRows_other (f : model.Friend) (c : Time) (k : String)
    (hk : k ≠ f.Link) : ∀ rows : List model.Friend,
    (upsertFriendRows f c rows).find? (fun g => decide (g.Link = k)) =
      rows.find? (fun g => decide (g.Link = k)) := by
  intro rows
  induction rows with
  | nil => simp [upsertFriendRows, Ne.symm hk]
  | cons r rs ih =>
    by_cases h : r.Link = f.Link
    · have hr : ¬ r.Link = k := fun e => hk (e.symm.trans h)
      have hf : ¬ f.Link = k := fun e => hk e.symm
      simp [upsertFriendRows, h, hf]
    · by_cases hr : r.Link = k
      · simp [upsertFriendRows, hr, hk]
      · simp [upsertFriendRows, h, hr, ih]

/-- The statement of `UpsertPost`, run on rows it has already been run on with the same
post, changes nothing. -/
theorem upsertPostRows_twice (p : model.Post) (c c' : Time) : ∀ rows : List model.Post,
    upsertPostRows p c' (upsertPostRows p c rows) = upsertPostRows p c rows := by
  intro rows
  induction rows with
  | nil => simp [upsertPostRows]
  | cons r rs ih =>
    by_cases h : r.Link = p.Link
    · simp [upsertPostRows, h]
    · simp [upsertPostRows, h, ih]

/-- The links of the rows after the statement of `UpsertPost`. -/
theorem links_upsertPostRows (p : model.Post) (c : Time) : ∀ rows : List model.Post,
    (upsertPostRows p c rows).map (fun r => r.Link) =
      if p.Link ∈ rows.map (fun r => r.Link) then rows.map (fun r => r.Link)
      else rows.map (fun r => r.Link) ++ [p.Link] := by
  intro rows
  induction rows with
  | nil => simp [upsertPostRows]
  | cons r rs ih =>
    by_cases h : r.Link = p.Link
    · simp [upsertPostRows, h]
    · have h' : ¬ p.Link = r.Link := fun e => h e.symm
      by_cases hm : p.Link ∈ rs.map (fun r => r.Link)
      · simp only [upsertPostRows, h, if_false, List.map_cons, ih, hm, if_true, List.mem_cons,
          or_true]
      · simp only [upsertPostRows, h, if_false, List.map_cons, ih, hm, List.mem_cons, h',
          or_self, List.cons_append]

/-- The row found under the link of the post after the statement of `UpsertPost`: the
post's columns, with the `created_at` of the row that was there, or the given one. -/
theorem find_upsertPostRows_self (p : model.Post) (c : Time) : ∀ rows : List model.Post,
    (upsertPostRows p c rows).find? (fun g => decide (g.Link = p.Link)) =
      some { p with
        CreatedAt :=
          match rows.find? (fun g => decide (g.Link = p.Link)) with
          | some old => old.CreatedAt
          | none => c } := by
  intro rows
  induction rows with
  | nil => simp [upsertPostRows]
  | cons r rs ih =>
    by_cases h : r.Link = p.Link
    · simp [upsertPostRows, h]
    · simp [upsertPostRows, h, ih]

/-- The rows under other links are not touched by the statement of `UpsertPost`. -/
theorem find_upsertPostRows_other (p : model.Post) (c : Time) (k : String)
    (hk : k ≠ p.Link) : ∀ rows : List model.Post,
    (upsertPostRows p c rows).find? (fun g => decide (g.Link = k)) =
      rows.find? (fun g => decide (g.Link = k)) := by
  intro rows
  induction rows with
  | nil => simp [upsertPostRows, Ne.symm hk]
  | cons r rs ih =>
    by_cases h : r.Link = p.Link
    · have hr : ¬ r.Link = k := fun e => hk (e.symm.trans h)
      have hf : ¬ p.Link = k := fun e => hk e.symm
      simp [upsertPostRows, h, hf]
    · by_cases hr : r.Link = k
      · simp [upsertPostRows, hr, hk]
      · simp [upsertPostRows, h, hr, ih]

/-- A list of links without repetition, extended by a link when it is new, has that link
exactly once. -/
theorem count_links (links : List String) (k : String) (h : links.Nodup) :
    (if k ∈ links then links else links ++ [k]).count k = 1 ∧
    (if k ∈ links then links else links ++ [k]).Nodup := by
  by_cases hm : k ∈ links
  · rw [if_pos hm]
    exact ⟨List.count_eq_one_of_mem h hm, h⟩
  · rw [if_neg hm]
    have hn : (links ++ [k]).Nodup :=
      List.Nodup.append h (List.nodup_singleton k) (by simpa using hm)
    exact ⟨List.count_eq_one_of_mem hn (by simp), hn⟩

end store

namespace aggregate

/-- Counterexample to C12: in the store the row of a link that was there before keeps its
`created_at`, so after the upsert (once or twice) of a payload with another `created_at`
the stored entity differs from the last write in that field. -/
theorem Upsert_keeps_created_at :
    ((demo.storeRunner.store.UpsertFriend 100 demo.bobAt100).1.UpsertFriend 100
        demo.bobAt100).1.friends =
      [{ demo.bobAt100 with CreatedAt := 3 }] ∧
    ((demo.storeRunner.store.UpsertPost 100 demo.newPost).1.UpsertPost 100 demo.newPost).1.posts =
      [{ demo.newPost with CreatedAt := 7 }] ∧
    ({ demo.bobAt100 with CreatedAt := 3 } : model.Friend) ≠ demo.bobAt100 ∧
    ({ demo.newPost with CreatedAt := 7 } : model.Post) ≠ demo.newPost := by
  decide

/-- Claim C12, amended: for a friend and an article with non-empty links, merging twice with
the same payload gives the same sink as merging once, in the buffer (`AddFriend`,
`AddPost`) and in the store (`UpsertFriend`, `UpsertPost`, also at different clock
readings).  After the merge, a sink that held no link twice holds the link exactly once;
the buffer holds under the link the payload itself, the store a row with the payload's
columns except `created_at`, which is that of the row that was there before or, for a new
row, the payload's (the clock reading when the payload's is the zero time); what is stored
under any other link, and the other table or map, are unchanged. -/
theorem merge_idempotent (now now' : Time) (b : SimpleBuffer) (s : store.SQLite)
    (f : model.Friend) (p : model.Post) (hf : f.Link ≠ "") (hp : p.Link ≠ "") :
    ((b.AddFriend f).AddFriend f = b.AddFriend f ∧
      gomap.lookup (b.AddFriend f).friends f.Link = some f ∧
      ((b.friends.map fun kv => kv.1).Nodup →
        ((b.AddFriend f).friends.map fun kv => kv.1).count f.Link = 1) ∧
      (∀ k, k ≠ f.Link → gomap.lookup (b.AddFriend f).friends k = gomap.lookup b.friends k) ∧
      (b.AddFriend f).posts = b.posts) ∧
    ((b.AddPost p).AddPost p = b.AddPost p ∧
      gomap.lookup (b.AddPost p).posts p.Link = some p ∧
      ((b.posts.map fun kv => kv.1).Nodup →
        ((b.AddPost p).posts.map fun kv => kv.1).count p.Link = 1) ∧
      (∀ k, k ≠ p.Link → gomap.lookup (b.AddPost p).posts k = gomap.lookup b.posts k) ∧
      (b.AddPost p).friends = b.friends) ∧
    ((s.UpsertFriend now f).1.UpsertFriend now' f = ((s.UpsertFriend now f).1, none) ∧
      (s.UpsertFriend now f).2 = none ∧
      (s.UpsertFriend now f).1.friends.find? (fun g => decide (g.Link = f.Link)) =
        some { f with
          CreatedAt :=
            match s.friends.find? (fun g => decide (g.Link = f.Link)) with
            | some old => old.CreatedAt
            | none => store.nowOr now f.CreatedAt } ∧
      ((s.friends.map fun g => g.Link).Nodup →
        ((s.UpsertFriend now f).1.friends.map fun g => g.Link).count f.Link = 1) ∧
      (∀ k, k ≠ f.Link →
        (s.UpsertFriend now f).1.friends.find? (fun g => decide (g.Link = k)) =
          s.friends.find? (fun g => decide (g.Link = k))) ∧
      (s.UpsertFriend now f).1.posts = s.posts) ∧
    ((s.UpsertPost now p).1.UpsertPost now' p = ((s.UpsertPost now p).1, none) ∧
      (s.UpsertPost now p).2 = none ∧
      (s.UpsertPost now p).1.posts.find? (fun g => decide (g.Link = p.Link)) =
        some { p with
          CreatedAt :=
            match s.posts.find? (fun g => decide (g.Link = p.Link)) with
            | some old => old.CreatedAt
            | none => store.nowOr now p.CreatedAt } ∧
      ((s.posts.map fun g => g.Link).Nodup →
        ((s.UpsertPost now p).1.posts.map fun g => g.Link).count p.Link = 1) ∧
      (∀ k, k ≠ p.Link →
        (s.UpsertPost now p).1.posts.find? (fun g => decide (g.Link = k)) =
          s.posts.find? (fun g => decide (g.Link = k))) ∧
      (s.UpsertPost now p).1.friends = s.friends) := by
  refine ⟨?_, ?_, ?_, ?_⟩
  · simp only [SimpleBuffer.AddFriend, hf, if_false, gomap.insert_insert]
    exact ⟨trivial, gomap.lookup_insert_self _ _ _, gomap.count_key_insert _ _ _,
      fun k hk => gomap.lookup_insert_other _ _ _ _ (Ne.symm hk), trivial⟩
  · simp only [SimpleBuffer.AddPost, hp, if_false, gomap.insert_insert]
    exact ⟨trivial, gomap.lookup_insert_self _ _ _, gomap.count_key_insert _ _ _,
      fun k hk => gomap.lookup_insert_other _ _ _ _ (Ne.symm hk), trivial⟩
  · simp only [store.SQLite.UpsertFriend, store.upsertFriendRows_twice]
    refine ⟨trivial, trivial, store.find_upsertFriendRows_self _ _ _, ?_,
      fun k hk => store.find_upsertFriendRows_other _ _ k hk _, trivial⟩
    intro hnd
    rw [store.links_upsertFriendRows]
    exact (store.count_links _ _ hnd).1
  · simp only [store.SQLite.UpsertPost, hp, if_false, store.upsertPostRows_twice]
    refine ⟨trivial, trivial, store.find_upsertPostRows_self _ _ _, ?_,
      fun k hk => store.find_upsertPostRows_other _ _ k hk _, trivial⟩
    intro hnd
    rw [store.links_upsertPostRows]
    exact (store.count_links _ _ hnd).1

/-- Witness for C12: the friend `http://h` and the article `http://x/1` merged into a
buffer and a store that hold them already with other field values. -/
theorem merge_idempotent_witness :
    gomap.lookup
      (({ friends := [], posts := [("http://x/1", demo.oldPost)] } : SimpleBuffer).AddPost
        demo.newPost).posts "http://x/1" = some demo.newPost ∧
    (demo.storeRunner.store.UpsertFriend 100 demo.bobAt100).1.friends.find?
        (fun g => decide (g.Link = "http://h")) = some { demo.bobAt100 with CreatedAt := 3 } ∧
    ((demo.storeRunner.store.UpsertPost 100 demo.newPost).1.posts.map fun g => g.Link).count
        "http://x/1" = 1 := by
  have h := merge_idempotent 100 200
    { friends := [], posts := [("http://x/1", demo.oldPost)] } demo.storeRunner.store
    demo.bobAt100 demo.newPost (by decide) (by decide)
  exact ⟨h.2.1.2.1, h.2.2.1.2.2.1, h.2.2.2.2.2.2.1 (by decide)⟩

end aggregate

/-! ## The per-friend task: the success path -/

namespace aggregate

/-- The item loop of `processFriend` writes the post of the first item, then goes on. -/
theorem writePosts_cons (now : Time) (sf : config.StaticFriend) (it : feeds.Item)
    (rest : List feeds.Item) (r : Runner) :
    writePosts now sf (it :: rest) r = writePosts now sf rest (writePost now r (postOf now sf it)).1 := by
  cases hb : r.buf with
  | some b => simp only [writePosts, writePost, postOf, hb]
  | none => simp only [writePosts, writePost, postOf, hb]

/-- The item loop over two lists in a row. -/
theorem writePosts_append (now : Time) (sf : config.StaticFriend) :
    ∀ (xs ys : List feeds.Item) (r : Runner),
      writePosts now sf (xs ++ ys) r = writePosts now sf ys (writePosts now sf xs r) := by
  intro xs
  induction xs with
  | nil => intro ys r; rfl
  | cons x rest ih =>
    intro ys r
    rw [List.cons_append, writePosts_cons, writePosts_cons, ih]

/-- The write of a post leaves the friends of the sink alone. -/
theorem friendAt_writePost (now : Time) (r : Runner) (p : model.Post) (k : String) :
    (writePost now r p).1.friendAt k = r.friendAt k := by
  cases hb : r.buf with
  | some b =>
    simp only [writePost, Runner.friendAt, hb, SimpleBuffer.AddPost]
    split <;> rfl
  | none =>
    simp only [writePost, Runner.friendAt, hb, store.SQLite.UpsertPost]
    split <;> rfl

/-- The item loop leaves the friends of the sink alone. -/
theorem friendAt_writePosts (now : Time) (sf : config.StaticFriend) (k : String) :
    ∀ (items : List feeds.Item) (r : Runner),
      (writePosts now sf items r).friendAt k = r.friendAt k := by
  intro items
  induction items with
  | nil => intro r; rfl
  | cons it rest ih =>
    intro r
    rw [writePosts_cons, ih, friendAt_writePost]

/-- After the write of a post with a link, the sink holds under that link an article with
the post's title, times, author, avatar and origin tag. -/
theorem articleAt_writePost_self (now : Time) (r : Runner) (p : model.Post)
    (hp : p.Link ≠ "") :
    ∃ a, (writePost now r p).1.articleAt p.Link = some a ∧ a.Link = p.Link ∧
      a.Title = p.Title ∧ a.Created = p.Created ∧ a.Updated = p.Updated ∧
      a.Author = p.Author ∧ a.Avatar = p.Avatar ∧ a.Rule = p.Rule := by
  cases hb : r.buf with
  | some b =>
    refine ⟨p, ?_, rfl, rfl, rfl, rfl, rfl, rfl, rfl⟩
    simp only [writePost, Runner.articleAt, hb, SimpleBuffer.AddPost, hp, if_false]
    exact gomap.lookup_insert_self _ _ _
  | none =>
    refine ⟨{ p with
        CreatedAt :=
          match r.store.posts.find? (fun g => decide (g.Link = p.Link)) with
          | some old => old.CreatedAt
          | none => store.nowOr now p.CreatedAt }, ?_, rfl, rfl, rfl, rfl, rfl, rfl, rfl⟩
    simp only [writePost, Runner.articleAt, hb, store.SQLite.UpsertPost, hp, if_false]
    exact store.find_upsertPostRows_self _ _ _

/-- The write of a post leaves what the sink holds under every other link alone. -/
theorem articleAt_writePost_other (now : Time) (r : Runner) (p : model.Post) (k : String)
    (hk : k ≠ p.Link) : (writePost now r p).1.articleAt k = r.articleAt k := by
  cases hb : r.buf with
  | some b =>
    simp only [writePost, Runner.articleAt, hb, SimpleBuffer.AddPost]
    split
    · rfl
    · exact gomap.lookup_insert_other _ _ _ _ (Ne.symm hk)
  | none =>
    simp only [writePost, Runner.articleAt, hb, store.SQLite.UpsertPost]
    split
    · rfl
    · exact store.find_upsertPostRows_other _ _ k hk _

/-- The item loop leaves alone what the sink holds under a link that no item has. -/
theorem articleAt_writePosts_other (now : Time) (sf : config.StaticFriend) (k : String) :
    ∀ (items : List feeds.Item) (r : Runner), (∀ x ∈ items, x.Link ≠ k) →
      (writePosts now sf items r).articleAt k = r.articleAt k := by
  intro items
  induction items with
  | nil => intro r _; rfl
  | cons it rest ih =>
    intro r h
    rw [writePosts_cons, ih _ (fun x hx => h x (List.mem_cons_of_mem _ hx)),
      articleAt_writePost_other]
    exact Ne.symm (h it (List.mem_cons_self _ _))

/-- After the write of a friend with a link, the sink holds it under that link, with its
name, avatar and error. -/
theorem friendAt_writeFriend (now : Time) (r : Runner) (f : model.Friend) (hf : f.Link ≠ "") :
    ∃ g, (writeFriend r now f).friendAt f.Link = some g ∧ g.Link = f.Link ∧
      g.Name = f.Name ∧ g.Avatar = f.Avatar ∧ g.Error = f.Error := by
  cases hb : r.buf with
  | some b =>
    refine ⟨f, ?_, rfl, rfl, rfl, rfl⟩
    simp only [writeFriend, Runner.friendAt, hb, SimpleBuffer.AddFriend, hf, if_false]
    exact gomap.lookup_insert_self _ _ _
  | none =>
    refine ⟨{ f with
        CreatedAt :=
          match r.store.friends.find? (fun g => decide (g.Link = f.Link)) with
          | some old => old.CreatedAt
          | none => store.nowOr now f.CreatedAt }, ?_, rfl, rfl, rfl, rfl⟩
    simp only [writeFriend, Runner.friendAt, hb, store.SQLite.UpsertFriend]
    exact store.find_upsertFriendRows_self _ _ _

/-- The write of a friend does not touch the client and the configuration. -/
theorem writeFriend_env (now : Time) (r : Runner) (f : model.Friend) :
    (writeFriend r now f).fetch = r.fetch ∧ (writeFriend r now f).cfg = r.cfg := by
  cases hb : r.buf with
  | some b => simp only [writeFriend, hb, and_self]
  | none => simp only [writeFriend, hb, and_self]

/-- Counterexample to C11: a feed whose two items share the link `http://a/1`; after
`processFriend` the one article under that link carries the title and the times of the
second item, not those of the first. -/
theorem processFriend_shared_link_last_wins :
    feeds.ParseFeed demo.feedSiteDup "http://a/feed.xml" 0 =
      .ok [{ Title := "p1", Link := "http://a/1", Author := "ann", Created := 1000,
             Updated := 1000 },
           { Title := "p2", Link := "http://a/1", Author := "ann", Created := 2000,
             Updated := 2000 }] ∧
    (processFriend url.std goquery.simpleFind 100 (demo.freshRunner true demo.feedSiteDup)
        demo.friendA).articles =
      [{ Title := "p2", Created := 2000, Updated := 2000, Link := "http://a/1", Author := "ann",
         Avatar := "http://a/a.png", Rule := "feed", CreatedAt := 100 }] ∧
    (processFriend url.std goquery.simpleFind 100 (demo.freshRunner false demo.feedSiteDup)
        demo.friendA).articles =
      [{ Title := "p2", Created := 2000, Updated := 2000, Link := "http://a/1", Author := "ann",
         Avatar := "http://a/a.png", Rule := "feed", CreatedAt := 100 }] ∧
    ¬ ∃ a, (processFriend url.std goquery.simpleFind 100
        (demo.freshRunner true demo.feedSiteDup) demo.friendA).articleAt "http://a/1" = some a ∧
      a.Title = "p1" := by
  refine ⟨by rfl, by rfl, by rfl, ?_⟩
  rintro ⟨a, ha, ht⟩
  have h : (processFriend url.std goquery.simpleFind 100
      (demo.freshRunner true demo.feedSiteDup) demo.friendA).articleAt "http://a/1" =
      some { Title := "p2", Created := 2000, Updated := 2000, Link := "http://a/1",
             Author := "ann", Avatar := "http://a/a.png", Rule := "feed", CreatedAt := 100 } := by
    rfl
  rw [h] at ha
  cases ha
  revert ht
  decide

/-- Claim C11, amended: when feed discovery and feed parse succeed for a roster entry (whose
link is not empty), after `processFriend` the sink holds under the entry's link the friend
with an empty error, and for every normalized item with a non-empty link that no later
item of the feed shares an article under that link with the item's title, created,
updated and author, the entry's avatar and the origin tag `feed`, in the buffer as in the
store; so for every item with a non-empty link when the links of the items are pairwise
distinct. -/
theorem processFriend_success (L : url.Lib) (find : goquery.Engine) (now : Time)
    (r : Runner) (sf : config.StaticFriend) (feedURL : String) (items : List feeds.Item)
    (hlink : sf.Link ≠ "")
    (hdisc : (feeds.DiscoverFeed L find r.fetch sf.Link sf.FeedSuffix).1 = .ok feedURL)
    (hparse : feeds.ParseFeed r.fetch feedURL r.cfg.MaxPostsNum = .ok items) :
    (∃ f, (processFriend L find now r sf).friendAt sf.Link = some f ∧
      f.Link = sf.Link ∧ f.Error = "" ∧ f.Name = sf.Name ∧ f.Avatar = sf.Avatar) ∧
    (∀ pre it post, items = pre ++ it :: post → it.Link ≠ "" →
      (∀ x ∈ post, x.Link ≠ it.Link) →
      ∃ a, (processFriend L find now r sf).articleAt it.Link = some a ∧
        a.Link = it.Link ∧ a.Title = it.Title ∧ a.Created = it.Created ∧
        a.Updated = it.Updated ∧ a.Author = it.Author ∧ a.Avatar = sf.Avatar ∧
        a.Rule = "feed") ∧
    ((items.map fun x => x.Link).Nodup → ∀ it ∈ items, it.Link ≠ "" →
      ∃ a, (processFriend L find now r sf).articleAt it.Link = some a ∧
        a.Link = it.Link ∧ a.Title = it.Title ∧ a.Created = it.Created ∧
        a.Updated = it.Updated ∧ a.Author = it.Author ∧ a.Avatar = sf.Avatar ∧
        a.Rule = "feed") := by
  have hrun : processFriend L find now r sf =
      writePosts now sf items
        (writeFriend r now
          { Name := sf.Name, Link := sf.Link, Avatar := sf.Avatar, Error := "",
            CreatedAt := now }) := by
    simp only [processFriend, hdisc, (writeFriend_env now r _).1, (writeFriend_env now r _).2,
      hparse]
  have hlast : ∀ pre it post, items = pre ++ it :: post → it.Link ≠ "" →
      (∀ x ∈ post, x.Link ≠ it.Link) →
      ∃ a, (processFriend L find now r sf).articleAt it.Link = some a ∧
        a.Link = it.Link ∧ a.Title = it.Title ∧ a.Created = it.Created ∧
        a.Updated = it.Updated ∧ a.Author = it.Author ∧ a.Avatar = sf.Avatar ∧
        a.Rule = "feed" := by
    intro pre it post hitems hne hlater
    rw [hrun, hitems, writePosts_append, writePosts_cons,
      articleAt_writePosts_other now sf it.Link post _ hlater]
    exact articleAt_writePost_self now _ (postOf now sf it) hne
  refine ⟨?_, hlast, ?_⟩
  · rw [hrun, friendAt_writePosts]
    obtain ⟨g, hg, h1, h2, h3, h4⟩ := friendAt_writeFriend now r
      { Name := sf.Name, Link := sf.Link, Avatar := sf.Avatar, Error := "", CreatedAt := now }
      hlink
    exact ⟨g, hg, h1, h4, h2, h3⟩
  · intro hnd it hit hne
    obtain ⟨pre, post, hsplit⟩ := List.append_of_mem hit
    refine hlast pre it post hsplit hne ?_
    intro x hx
    rw [hsplit, List.map_append, List.map_cons] at hnd
    have h2 := (List.nodup_append.mp hnd).2.1
    rw [List.nodup_cons] at h2
    intro e
    exact h2.1 (List.mem_map.mpr ⟨x, hx, e⟩)

/-- Witness for C11, the scenario of the claim: the roster entry `http://a` with the suffix
`/feed.xml`, whose feed has the one item `p1` with the link `http://a/1`; the sink ends
with the friend `http://a` without error and the article `http://a/1` titled `p1`, in
simple mode and in normal mode. -/
theorem processFriend_success_witness :
    (processFriend url.std goquery.simpleFind 100 (demo.freshRunner true demo.feedSiteA)
        demo.friendA).friendAt "http://a" =
      some { Name := "A", Link := "http://a", Avatar := "http://a/a.png", Error := "",
             CreatedAt := 100 } ∧
    (processFriend url.std goquery.simpleFind 100 (demo.freshRunner true demo.feedSiteA)
        demo.friendA).articles =
      [{ Title := "p1", Created := 1000, Updated := 1000, Link := "http://a/1", Author := "ann",
         Avatar := "http://a/a.png", Rule := "feed", CreatedAt := 100 }] ∧
    (∃ f, (processFriend url.std goquery.simpleFind 100 (demo.freshRunner false demo.feedSiteA)
        demo.friendA).friendAt "http://a" = some f ∧ f.Link = "http://a" ∧ f.Error = "") ∧
    (∃ a, (processFriend url.std goquery.simpleFind 100 (demo.freshRunner false demo.feedSiteA)
        demo.friendA).articleAt "http://a/1" = some a ∧ a.Title = "p1" ∧ a.Rule = "feed") := by
  have h := processFriend_success url.std goquery.simpleFind 100
    (demo.freshRunner false demo.feedSiteA) demo.friendA "http://a/feed.xml"
    [{ Title := "p1", Link := "http://a/1", Author := "ann", Created := 1000, Updated := 1000 }]
    (by decide) (by rfl) (by rfl)
  obtain ⟨⟨f, hf, hf1, hf2, -, -⟩, -, h3⟩ := h
  obtain ⟨a, ha, -, ha2, -, -, -, -, ha3⟩ := h3 (by decide)
    { Title := "p1", Link := "http://a/1", Author := "ann", Created := 1000, Updated := 1000 }
    (by simp) (by decide)
  exact ⟨by rfl, by rfl, ⟨f, hf, hf1, hf2⟩, ⟨a, ha, ha2, ha3⟩⟩

end aggregate

/-! ## Configuration defaults -/

namespace config

/-- The configuration `Validate` leaves on success: the defaults filled in, everything else
as it was. -/
theorem Validate_ok (c : Config) (h1 : ¬ c.MaxPostsNum < 0) (h2 : ¬ c.OutdateCleanDays < 0)
    (h3 : c.Database.Type_ = "" ∨ c.Database.Type_ = "sqlite") :
    Validate c =
      ({ c with
          Database :=
            { Type_ := "sqlite"
              DSN := if c.Database.DSN = "" then "./data.db" else c.Database.DSN }
          Concurrency :=
            { Fetch := if c.Concurrency.Fetch ≤ 0 then 8 else c.Concurrency.Fetch
              Retry := if c.Concurrency.Retry < 0 then 2 else c.Concurrency.Retry }
          LogFormat := if c.LogFormat = "" then "pretty" else c.LogFormat
          LogLocale := if c.LogLocale = "" then "zh-CN" else c.LogLocale
          LogColor := if c.LogColor = "" then "auto" else c.LogColor }, none) := by
  obtain ⟨ls, sfs, mp, oc, sm, rs, ⟨ty, dsn⟩, ⟨fe, re⟩, px, ll, lf, lo, lc⟩ := c
  simp only at h1 h2 h3
  simp only [Validate, h1, h2, if_false]
  rcases h3 with h3 | h3 <;> subst h3 <;>
    by_cases hd : dsn = "" <;> by_cases hf : fe ≤ 0 <;> by_cases hr : re < 0 <;>
    by_cases h4 : lf = "" <;> by_cases h5 : lo = "" <;> by_cases h6 : lc = "" <;>
    simp [hd, hf, hr, h4, h5, h6]

/-- The error cases of `Validate`: the configuration is returned as it was. -/
theorem Validate_error (c : Config)
    (h : c.MaxPostsNum < 0 ∨ c.OutdateCleanDays < 0 ∨
      (c.Database.Type_ ≠ "" ∧ c.Database.Type_ ≠ "sqlite")) :
    (Validate c).1 = c ∧ (Validate c).2 ≠ none := by
  by_cases h1 : c.MaxPostsNum < 0
  · simp [Validate, h1]
  · by_cases h2 : c.OutdateCleanDays < 0
    · simp [Validate, h1, h2]
    · rcases h with h | h | ⟨h3, h4⟩
      · exact absurd h h1
      · exact absurd h h2
      · simp [Validate, h1, h2, h3, h4]

/-- Claim C22: `Validate` returns an error exactly when `MAX_POSTS_NUM < 0`, `OUTDATE_CLEAN < 0`
or the database type is neither empty nor `sqlite`, and then the configuration is as it was.
On success the fetch concurrency is at least 1 (8 for a non-positive value), the retry
count at least 0, the database type `sqlite`, and DSN, log format, log locale and log colour
are non-empty; a field that was valid and every other field is unchanged, and validating
the result again returns it unchanged, without error. -/
theorem Validate_contract (c : Config) :
    ((Validate c).2 ≠ none ↔
      (c.MaxPostsNum < 0 ∨ c.OutdateCleanDays < 0 ∨
        (c.Database.Type_ ≠ "" ∧ c.Database.Type_ ≠ "sqlite"))) ∧
    ((Validate c).2 ≠ none → (Validate c).1 = c) ∧
    ((Validate c).2 = none →
      ((Validate c).1.Concurrency.Fetch ≥ 1 ∧
        (c.Concurrency.Fetch ≤ 0 → (Validate c).1.Concurrency.Fetch = 8) ∧
        (Validate c).1.Concurrency.Retry ≥ 0 ∧
        (Validate c).1.Database.Type_ = "sqlite" ∧
        (Validate c).1.Database.DSN ≠ "" ∧
        (Validate c).1.LogFormat ≠ "" ∧
        (Validate c).1.LogLocale ≠ "" ∧
        (Validate c).1.LogColor ≠ "") ∧
      ((c.Concurrency.Fetch ≥ 1 → (Validate c).1.Concurrency.Fetch = c.Concurrency.Fetch) ∧
        (c.Concurrency.Retry ≥ 0 → (Validate c).1.Concurrency.Retry = c.Concurrency.Retry) ∧
        (c.Database.DSN ≠ "" → (Validate c).1.Database.DSN = c.Database.DSN) ∧
        (c.LogFormat ≠ "" → (Validate c).1.LogFormat = c.LogFormat) ∧
        (c.LogLocale ≠ "" → (Validate c).1.LogLocale = c.LogLocale) ∧
        (c.LogColor ≠ "" → (Validate c).1.LogColor = c.LogColor)) ∧
      ((Validate c).1.LinkSources = c.LinkSources ∧
        (Validate c).1.StaticFriends = c.StaticFriends ∧
        (Validate c).1.MaxPostsNum = c.MaxPostsNum ∧
        (Validate c).1.OutdateCleanDays = c.OutdateCleanDays ∧
        (Validate c).1.SimpleMode = c.SimpleMode ∧
        (Validate c).1.ResetOnStart = c.ResetOnStart ∧
        (Validate c).1.Proxy = c.Proxy ∧
        (Validate c).1.LogLevel = c.LogLevel) ∧
      Validate (Validate c).1 = ((Validate c).1, none)) := by
  by_cases herr : c.MaxPostsNum < 0 ∨ c.OutdateCleanDays < 0 ∨
      (c.Database.Type_ ≠ "" ∧ c.Database.Type_ ≠ "sqlite")
  · obtain ⟨he1, he2⟩ := Validate_error c herr
    exact ⟨⟨fun _ => herr, fun _ => he2⟩, fun _ => he1, fun h => absurd h he2⟩
  · have h1 : ¬ c.MaxPostsNum < 0 := fun h => herr (Or.inl h)
    have h2 : ¬ c.OutdateCleanDays < 0 := fun h => herr (Or.inr (Or.inl h))
    have h3 : c.Database.Type_ = "" ∨ c.Database.Type_ = "sqlite" := by
      by_cases h : c.Database.Type_ = ""
      · exact Or.inl h
      · by_cases h' : c.Database.Type_ = "sqlite"
        · exact Or.inr h'
        · exact absurd (Or.inr (Or.inr ⟨h, h'⟩)) herr
    have hok := Validate_ok c h1 h2 h3
    have hsnd : (Validate c).2 = none := by rw [hok]
    refine ⟨⟨fun h => absurd hsnd h, fun h => absurd h herr⟩, fun h => absurd hsnd h, fun _ => ?_⟩
    refine ⟨?_, ?_, ?_, ?_⟩
    · rw [hok]
      refine ⟨?_, ?_, ?_, rfl, ?_, ?_, ?_, ?_⟩
      · show (if c.Concurrency.Fetch ≤ 0 then (8 : Int) else c.Concurrency.Fetch) ≥ 1
        split <;> omega
      · intro h
        show (if c.Concurrency.Fetch ≤ 0 then (8 : Int) else c.Concurrency.Fetch) = 8
        rw [if_pos h]
      · show (if c.Concurrency.Retry < 0 then (2 : Int) else c.Concurrency.Retry) ≥ 0
        split <;> omega
      · show (if c.Database.DSN = "" then "./data.db" else c.Database.DSN) ≠ ""
        split
        · decide
        · assumption
      · show (if c.LogFormat = "" then "pretty" else c.LogFormat) ≠ ""
        split
        · decide
        · assumption
      · show (if c.LogLocale = "" then "zh-CN" else c.LogLocale) ≠ ""
        split
        · decide
        · assumption
      · show (if c.LogColor = "" then "auto" else c.LogColor) ≠ ""
        split
        · decide
        · assumption
    · rw [hok]
      refine ⟨?_, ?_, ?_, ?_, ?_, ?_⟩
      · intro h
        show (if c.Concurrency.Fetch ≤ 0 then (8 : Int) else c.Concurrency.Fetch) = _
        rw [if_neg (by omega)]
      · intro h
        show (if c.Concurrency.Retry < 0 then (2 : Int) else c.Concurrency.Retry) = _
        rw [if_neg (by omega)]
      · intro h
        show (if c.Database.DSN = "" then "./data.db" else c.Database.DSN) = _
        rw [if_neg h]
      · intro h
        show (if c.LogFormat = "" then "pretty" else c.LogFormat) = _
        rw [if_neg h]
      · intro h
        show (if c.LogLocale = "" then "zh-CN" else c.LogLocale) = _
        rw [if_neg h]
      · intro h
        show (if c.LogColor = "" then "auto" else c.LogColor) = _
        rw [if_neg h]
    · rw [hok]
      exact ⟨rfl, rfl, rfl, rfl, rfl, rfl, rfl, rfl⟩
    · rw [hok]
      dsimp only
      rw [Validate_ok]
      rotate_left
      · exact h1
      · exact h2
      · exact Or.inr rfl
      obtain ⟨ls, sfs, mp, oc, sm, rs, ⟨ty, dsn⟩, ⟨fe, re⟩, px, ll, lf, lo, lc⟩ := c
      by_cases hd : dsn = "" <;> by_cases hf : fe ≤ 0 <;> by_cases hr : re < 0 <;>
        by_cases h4 : lf = "" <;> by_cases h5 : lo = "" <;> by_cases h6 : lc = "" <;>
        simp [hd, hf, hr, h4, h5, h6]

/-- Example of C22, the repository's test: the minimal configuration gets the defaults
(fetch concurrency 8, `sqlite`, `./data.db`, `pretty`, `zh-CN`, `auto`), and a negative
`MAX_POSTS_NUM` or another database type is refused with the configuration unchanged. -/
theorem Validate_contract_witness :
    Validate demo.minimalCfg = (demo.cfg true, none) ∧
    Validate (demo.cfg true) = (demo.cfg true, none) ∧
    Validate { demo.minimalCfg with MaxPostsNum := -1 } =
      ({ demo.minimalCfg with MaxPostsNum := -1 }, some "MAX_POSTS_NUM must be >= 0") ∧
    (Validate { demo.minimalCfg with Database := { Type_ := "mysql", DSN := "" } }).1 =
      { demo.minimalCfg with Database := { Type_ := "mysql", DSN := "" } } ∧
    Validate { demo.minimalCfg with Concurrency := { Fetch := 3, Retry := -1 } } =
      ({ demo.cfg true with Concurrency := { Fetch := 3, Retry := 2 } }, none) := by
  have h := (Validate_contract
    { demo.minimalCfg with Database := { Type_ := "mysql", DSN := "" } }).2.1
  exact ⟨by decide, by decide, by decide, h (by decide), by decide⟩

end config

/-! ## Dedup of the static list -/

namespace aggregate

open config

/-- The loop of `dedup` over entries with non-empty, fresh, pairwise distinct links appends
them to the map. -/
theorem dedupLoop_of_nodup : ∀ (xs : List StaticFriend) (m : gomap.Map StaticFriend),
    (∀ f ∈ xs, f.Link ≠ "") →
    (m.map (fun kv => kv.1) ++ xs.map (fun f => f.Link)).Nodup →
    dedupLoop xs m = m ++ xs.map (fun f => (f.Link, f)) := by
  intro xs
  induction xs with
  | nil => intro m _ _; simp [dedupLoop]
  | cons f rest ih =>
    intro m hne hnd
    have hl : f.Link ≠ "" := hne f (List.mem_cons_self _ _)
    have hnot : f.Link ∉ m.map (fun kv => kv.1) := by
      intro hmem
      exact (List.nodup_append.1 hnd).2.2 hmem (by simp)
    have hlook : gomap.lookup m f.Link = none := (gomap.lookup_eq_none_iff m f.Link).2 hnot
    have hnd' : ((m ++ [(f.Link, f)]).map (fun kv => kv.1) ++ rest.map (fun f => f.Link)).Nodup := by
      simpa [List.map_append, List.append_assoc] using hnd
    simp only [dedupLoop, hl, if_false, hlook, gomap.insert_of_not_mem m f.Link f hnot]
    rw [ih _ (fun g hg => hne g (List.mem_cons_of_mem _ hg)) hnd']
    simp

/-- On a list without empty and without repeated links `dedup` changes nothing. -/
theorem dedup_of_roster (r : List StaticFriend) (hne : ∀ f ∈ r, f.Link ≠ "")
    (hnd : (r.map fun f => f.Link).Nodup) : dedup r = r := by
  unfold dedup
  rw [dedupLoop_of_nodup r [] hne (by simpa using hnd)]
  simp only [List.nil_append, gomap.values, List.map_map]
  exact (List.map_congr_left fun _ _ => rfl).trans (List.map_id _)

/-- Claim C30: `dedup` of a static list has no entry with an empty link and no two entries
with the same link, its links are exactly the non-empty links of the list, and each
entry is the first element of the list that carries its link; the same holds for the
result in any order.  Applied to its own result, in any order, `dedup` returns the same
entries. -/
theorem dedup_one_per_link (S : List StaticFriend) :
    (∀ f ∈ dedup S, f.Link ≠ "") ∧
    ((dedup S).map fun f => f.Link).Nodup ∧
    (∀ l, l ≠ "" → (l ∈ (dedup S).map (fun f => f.Link) ↔ l ∈ S.map (fun f => f.Link))) ∧
    (∀ f ∈ dedup S, S.find? (fun g => decide (g.Link = f.Link)) = some f) ∧
    (∀ f ∈ dedup S, f ∈ S) ∧
    dedup (dedup S) = dedup S ∧
    (∀ r, r.Perm (dedup S) → IsRosterOf r S ∧ dedup r = r ∧ (dedup r).Perm (dedup S)) := by
  have h := IsRosterOf_dedup S
  refine ⟨h.1, h.2.1, IsRosterOf_links _ _ h, h.2.2.1, ?_, dedup_of_roster _ h.1 h.2.1, ?_⟩
  · intro f hf
    exact List.mem_of_find?_eq_some (h.2.2.1 f hf)
  · intro r hp
    have hr := IsRosterOf_of_perm _ _ _ hp h
    have he := dedup_of_roster r hr.1 hr.2.1
    exact ⟨hr, he, by rw [he]; exact hp⟩

/-- Example of C30: of two entries with the link `http://a` the first is kept, the entry
without link is dropped, and a second `dedup` changes nothing. -/
theorem dedup_one_per_link_witness :
    dedup demo.staticList =
      [{ Name := "A (static)", Link := "http://a", Avatar := "a.png",
         FeedSuffix := "/atom.xml" }] ∧
    dedup (dedup demo.staticList) = dedup demo.staticList ∧
    dedup (demo.staticList ++ demo.pageList) =
      [{ Name := "A (static)", Link := "http://a", Avatar := "a.png", FeedSuffix := "/atom.xml" },
       { Name := "B first", Link := "http://b", Avatar := "b1.png", FeedSuffix := "" }] :=
  ⟨by decide, (dedup_one_per_link demo.staticList).2.2.2.2.2.1, by decide⟩

end aggregate

/-! ## Feed discovery: the candidate list -/

namespace feeds

/-- The requests of the candidate loop are an initial part of the candidates. -/
theorem probeCandidates_trace (cl : fetch.Client) : ∀ cs : List String,
    ∃ k, k ≤ cs.length ∧ (probeCandidates cl cs).2 = cs.take k := by
  intro cs
  induction cs with
  | nil => exact ⟨0, le_refl _, rfl⟩
  | cons c cs ih =>
    by_cases hc : probeFeed cl c = true
    · exact ⟨1, by simp, by simp [probeCandidates, hc]⟩
    · obtain ⟨k, hk, ht⟩ := ih
      refine ⟨k + 1, by simpa using hk, ?_⟩
      simp only [Bool.not_eq_true] at hc
      simp [probeCandidates, hc, ht]

/-- Claim C24: the candidate list of `DiscoverFeed` is, in this order, the hint resolved
root-relative and then directory-relative when the hint is not empty, the five names
`index.xml`, `atom.xml`, `rss.xml`, `feed`, `feed.xml` resolved directory-relative, and the 22
fixed endpoints resolved root-relative: 29 candidates with a hint, 27 without.  The
requests `DiscoverFeed` issues are the probes of an initial part of that list, at most 29,
followed by nothing, by the fetch of the site page, or by that fetch and one probe of the
link found in the page. -/
theorem candidates_order (L : url.Lib) (find : goquery.Engine) (cl : fetch.Client)
    (site hint : String) :
    candidates L site hint =
      (if hint ≠ "" then [joinURL L site hint, joinURLDir L site hint] else []) ++
      ["index.xml", "atom.xml", "rss.xml", "feed", "feed.xml"].map (joinURLDir L site) ++
      ["/feed", "/feed/", "/feed.xml", "/index.xml", "/atom.xml", "/rss.xml", "/rss2.xml",
        "/rss.php", "/feed.php", "/rss", "/atom", "/index.rss", "/index.atom", "/?feed=rss2",
        "/?feed=atom", "/?feed=rss", "/feed/atom", "/posts/index.xml", "/blog/index.xml",
        "/index.json", "/feed.json", "/api/rss"].map (joinURL L site) ∧
    (candidates L site hint).length = (if hint ≠ "" then 29 else 27) ∧
    (candidates L site hint).length ≤ 29 ∧
    (hint ≠ "" → (candidates L site hint).take 2 = [joinURL L site hint, joinURLDir L site hint]) ∧
    (∃ k extra, k ≤ 29 ∧
      (DiscoverFeed L find cl site hint).2 = (candidates L site hint).take k ++ extra ∧
      (extra = [] ∨ extra = [site] ∨ ∃ found, extra = [site, found]) ∧
      (extra ≠ [] → k = (candidates L site hint).length)) := by
  have hlen : (candidates L site hint).length = (if hint ≠ "" then 29 else 27) := by
    by_cases h : hint = "" <;> simp [candidates, h]
  have hle : (candidates L site hint).length ≤ 29 := by
    rw [hlen]; split <;> omega
  refine ⟨?_, hlen, hle, ?_, ?_⟩
  · by_cases h : hint = "" <;> simp [candidates, h]
  · intro h
    simp [candidates, h]
  · obtain ⟨k, hk, ht⟩ := probeCandidates_trace cl (candidates L site hint)
    cases hp : probeCandidates cl (candidates L site hint) with
    | mk res reqs =>
      rw [hp] at ht
      simp only at ht
      cases res with
      | some u =>
        refine ⟨k, [], le_trans hk hle, ?_, Or.inl rfl, fun h => absurd rfl h⟩
        simp [DiscoverFeed, hp, ht]
      | none =>
        have hall : reqs = candidates L site hint := by
          have h2 := probeCandidates_eq cl (candidates L site hint)
          rw [hp] at h2
          have h3 := (Prod.mk.inj h2)
          have hnone : (candidates L site hint).find? (probeFeed cl) = none := h3.1.symm
          rw [h3.2, hnone]
          simp only [Option.toList, List.append_nil]
          rw [List.takeWhile_eq_self_iff]
          intro c hc
          have := List.find?_eq_none.mp hnone c hc
          simpa using this
        refine ⟨(candidates L site hint).length, ?_⟩
        rw [List.take_length]
        cases hg : cl.Get site with
        | error e =>
          exact ⟨[site], hle, by simp [DiscoverFeed, hp, hg, hall], Or.inr (Or.inl rfl),
            fun _ => rfl⟩
        | ok resp =>
          by_cases hf : pickLink L site (find "link" resp.html) = ""
          · exact ⟨[site], hle, by simp [DiscoverFeed, hp, hg, hall, hf], Or.inr (Or.inl rfl),
              fun _ => rfl⟩
          · refine ⟨[site, pickLink L site (find "link" resp.html)], hle, ?_,
              Or.inr (Or.inr ⟨_, rfl⟩), fun _ => rfl⟩
            by_cases hpr : probeFeed cl (pickLink L site (find "link" resp.html)) = true
            · simp [DiscoverFeed, hp, hg, hall, hf, hpr]
            · simp only [Bool.not_eq_true] at hpr
              simp [DiscoverFeed, hp, hg, hall, hf, hpr]

/-- Example of C24: for the site `http://127.0.0.1:8080/b1` with the hint `/index.xml` the
first candidate is the hint at the root and the second the hint under `/b1`; a site that
answers nothing gets 29 probes and the fetch of its page. -/
theorem candidates_order_witness :
    (candidates url.std "http://127.0.0.1:8080/b1" "/index.xml").take 8 =
      ["http://127.0.0.1:8080/index.xml", "http://127.0.0.1:8080/b1/index.xml",
       "http://127.0.0.1:8080/b1/index.xml", "http://127.0.0.1:8080/b1/atom.xml",
       "http://127.0.0.1:8080/b1/rss.xml", "http://127.0.0.1:8080/b1/feed",
       "http://127.0.0.1:8080/b1/feed.xml", "http://127.0.0.1:8080/feed"] ∧
    (candidates url.std "http://127.0.0.1:8080/b1" "/index.xml").length = 29 ∧
    (DiscoverFeed url.std goquery.simpleFind demo.deadSite "http://h" "/index.xml").2.length =
      30 := by
  have h := (candidates_order url.std goquery.simpleFind demo.deadSite
    "http://127.0.0.1:8080/b1" "/index.xml").2.1
  exact ⟨by decide, h, by decide⟩

end feeds

/-! ## Single expressions of the extraction language -/

namespace friends

open strings

/-- The position of the first `@` in a text whose part before it has none. -/
theorem indexL_at (attr : List Char) : ∀ sel : List Char, '@' ∉ sel →
    indexL '@' (sel ++ '@' :: attr) = some sel.length := by
  intro sel
  induction sel with
  | nil => intro _; simp [indexL]
  | cons c t ih =>
    intro h
    have hc : c ≠ '@' := fun e => h (by simp [e])
    have ht : '@' ∉ t := fun e => h (by simp [e])
    simp [indexL, hc, ih ht]

/-- A text without `@` has no position of `@`. -/
theorem indexL_none : ∀ s : List Char, '@' ∉ s → indexL '@' s = none := by
  intro s
  induction s with
  | nil => intro _; rfl
  | cons c t ih =>
    intro h
    have hc : c ≠ '@' := fun e => h (by simp [e])
    have ht : '@' ∉ t := fun e => h (by simp [e])
    simp [indexL, hc, ih ht]

/-- The source and the reference semantics agree on every expression. -/
theorem getValSingle_eq (find : goquery.Engine) (scope : goquery.Node) (expr : String) :
    getValSingle find scope expr = refValSingle find scope expr := by
  unfold getValSingle refValSingle Form.read
  by_cases h0 : expr = ""
  · simp [h0]
  · by_cases h1 : expr = "."
    · simp [h1, Form.eval]
    · simp only [h0, h1, if_false]
      cases hi : indexL '@' expr.data with
      | none =>
        simp only [Form.eval]
        cases hf : find expr scope with
        | nil => rfl
        | cons n rest => rfl
      | some i =>
        simp only
        by_cases hs : TrimSpace ⟨expr.data.take i⟩ = ""
        · simp only [hs, if_true, Form.eval, goquery.Attr]
        · simp only [hs, if_false, Form.eval]
          cases hf : find (TrimSpace ⟨expr.data.take i⟩) scope with
          | nil => rfl
          | cons n rest => rfl

/-- Claim C28: `getValSingle` equals the reference semantics of the four forms.  The empty
expression yields the empty text; `.` the trimmed text of the scope; a selector without
`@` the trimmed text of its first match, empty if nothing matches; `selector@attr` the
attribute of the first match of the selector, empty if nothing matches or the attribute is
missing; `@attr` (nothing but white space before the `@`) the attribute of the scope
itself.  Every result is free of leading and trailing white space. -/
theorem getValSingle_four_forms (find : goquery.Engine) (scope : goquery.Node) :
    (∀ expr, getValSingle find scope expr = refValSingle find scope expr) ∧
    (∀ expr, TrimSpace (getValSingle find scope expr) = getValSingle find scope expr) ∧
    getValSingle find scope "" = "" ∧
    getValSingle find scope "." = TrimSpace (goquery.Text [scope]) ∧
    (∀ sel : String, sel ≠ "" → sel ≠ "." → '@' ∉ sel.data →
      getValSingle find scope sel =
        match find sel scope with
        | [] => ""
        | n :: _ => TrimSpace (goquery.Text [n])) ∧
    (∀ sel attr : String, '@' ∉ sel.data → TrimSpace sel ≠ "" →
      getValSingle find scope (sel ++ "@" ++ attr) =
        match find (TrimSpace sel) scope with
        | [] => ""
        | n :: _ => TrimSpace ((goquery.nodeAttr (TrimSpace attr) n).getD "")) ∧
    (∀ sel attr : String, '@' ∉ sel.data → TrimSpace sel = "" →
      getValSingle find scope (sel ++ "@" ++ attr) =
        TrimSpace ((goquery.nodeAttr (TrimSpace attr) scope).getD "")) := by
  have hat : ∀ sel attr : String, '@' ∉ sel.data →
      Form.read (sel ++ "@" ++ attr) =
        if TrimSpace sel = "" then some (.attrOfScope (TrimSpace attr))
        else some (.attrOfSelector (TrimSpace sel) (TrimSpace attr)) := by
    intro sel attr hsel
    have hd : (sel ++ "@" ++ attr).data = sel.data ++ '@' :: attr.data := by
      simp [String.data_append]
    have hne : sel ++ "@" ++ attr ≠ "" := by
      intro e
      have := congrArg String.data e
      rw [hd] at this
      simp at this
    have hdot : sel ++ "@" ++ attr ≠ "." := by
      intro e
      have := congrArg String.data e
      rw [hd] at this
      cases hs : sel.data with
      | nil => rw [hs] at this; simp at this
      | cons c t =>
        rw [hs] at this
        simp only [List.cons_append] at this
        have h2 := (List.cons.inj this).2
        simp at h2
    unfold Form.read
    rw [if_neg hne, if_neg hdot, hd, indexL_at attr.data sel.data hsel]
    have hdrop : List.drop (sel.data.length + 1) (sel.data ++ '@' :: attr.data) = attr.data := by
      rw [show sel.data.length + 1 = (sel.data ++ ['@']).length by simp,
        show sel.data ++ '@' :: attr.data = (sel.data ++ ['@']) ++ attr.data by simp]
      exact List.drop_left _ _
    simp only [List.take_left', hdrop]
  refine ⟨getValSingle_eq find scope, ?_, rfl, rfl, ?_, ?_, ?_⟩
  · intro expr
    rw [getValSingle_eq]
    unfold refValSingle
    cases Form.read expr with
    | none => rfl
    | some f =>
      cases f with
      | textOfScope => exact TrimSpace_idem _
      | textOfSelector sel =>
        simp only [Form.eval]
        cases find sel scope with
        | nil => rfl
        | cons n rest => exact TrimSpace_idem _
      | attrOfScope attr => exact TrimSpace_idem _
      | attrOfSelector sel attr =>
        simp only [Form.eval]
        cases find sel scope with
        | nil => rfl
        | cons n rest => exact TrimSpace_idem _
  · intro sel h0 h1 hat'
    rw [getValSingle_eq]
    unfold refValSingle Form.read
    rw [if_neg h0, if_neg h1, indexL_none sel.data hat']
    rfl
  · intro sel attr hsel hs
    rw [getValSingle_eq]
    unfold refValSingle
    rw [hat sel attr hsel, if_neg hs]
    rfl
  · intro sel attr hsel hs
    rw [getValSingle_eq]
    unfold refValSingle
    rw [hat sel attr hsel, if_pos hs]
    rfl

/-- Example of C28, the item of the repository's test
`<li class="it" data-href="/x"><a class="nm2" href="/ok">NM</a><span class="nm1">X</span></li>`:
the four forms, a selector without match and an attribute that is missing. -/
theorem getValSingle_four_forms_witness :
    getValSingle goquery.simpleFind demo.friendItem "." = "NMX" ∧
    getValSingle goquery.simpleFind demo.friendItem ".nm2" = "NM" ∧
    getValSingle goquery.simpleFind demo.friendItem ".nm2@href" = "/ok" ∧
    getValSingle goquery.simpleFind demo.friendItem "@data-href" = "/x" ∧
    getValSingle goquery.simpleFind demo.friendItem ".none" = "" ∧
    getValSingle goquery.simpleFind demo.friendItem ".nm1@href" = "" ∧
    getValSingle goquery.simpleFind demo.friendItem "" = "" ∧
    refValSingle goquery.simpleFind demo.friendItem " a @ href " = "/ok" := by
  have h := (getValSingle_four_forms goquery.simpleFind demo.friendItem).1 " a @ href "
  exact ⟨by decide, by decide, by decide, by decide, by decide, by decide, by decide,
    h ▸ (by decide)⟩

end friends

/-! ## The retry loop of `Get` for any retry setting -/

namespace fetch

/-- In the range of a non-negative `int` below the largest one, adding one does not wrap. -/
theorem intWrap_succ (retry : Int) (h0 : 0 ≤ retry) (h1 : retry < 2 ^ 63 - 1) :
    intWrap (retry + 1) = retry + 1 := by
  unfold intWrap
  have h2 : (0 : Int) ≤ retry + 1 + 2 ^ 63 := by omega
  have h3 : retry + 1 + 2 ^ 63 < 2 ^ 64 := by omega
  rw [Int.emod_eq_of_lt h2 h3]
  omega

/-- The loop of `Get`, whatever the outcomes: the number of requests, what a response
returned is, and that a nil response comes with an error unless the loop had no iteration
to make. -/
theorem rawLoop_spec (t : Transport) (url : String) : ∀ (n i : Nat) (lastErr : Option String),
    i ≤ (rawLoop t url n i lastErr).calls ∧ (rawLoop t url n i lastErr).calls ≤ i + n ∧
    (∀ x, (rawLoop t url n i lastErr).resp = some x →
      (rawLoop t url n i lastErr).err = none ∧
      ∃ k code status, i ≤ k ∧ k < i + n ∧ (rawLoop t url n i lastErr).calls = k + 1 ∧
        t.Do url k = .response code status x ∧ 200 ≤ code ∧ code < 300 ∧
        ∀ j, i ≤ j → j < k → (t.Do url j).failed = true) ∧
    ((rawLoop t url n i lastErr).resp = none →
      (rawLoop t url n i lastErr).err ≠ none ∨ (n = 0 ∧ lastErr = none)) ∧
    (t.newRequestErr url = none → (∀ j, t.ctxErr url j = none) →
      (rawLoop t url n i lastErr).resp = none →
      (rawLoop t url n i lastErr).calls = i + n ∧
      ∀ j, i ≤ j → j < i + n → (t.Do url j).failed = true) := by
  intro n
  induction n with
  | zero =>
    intro i lastErr
    refine ⟨le_refl _, le_refl _, ?_, ?_, ?_⟩
    · intro x hx; simp [rawLoop] at hx
    · intro _
      cases lastErr with
      | none => exact Or.inr ⟨rfl, rfl⟩
      | some e => exact Or.inl (by simp [rawLoop])
    · intro _ _ _
      exact ⟨rfl, fun j h1 h2 => absurd h2 (by omega)⟩
  | succ n ih =>
    intro i lastErr
    unfold rawLoop
    cases hreq : t.newRequestErr url with
    | some e =>
      refine ⟨le_refl _, by simp, ?_, ?_, ?_⟩
      · intro x hx; simp at hx
      · intro _; exact Or.inl (by simp)
      · intro h; simp at h
    | none =>
      simp only
      cases hdo : t.Do url i with
      | response code status resp =>
        simp only
        by_cases hok : 200 ≤ code ∧ code < 300
        · rw [if_pos hok]
          refine ⟨by simp, by simp, ?_, ?_, ?_⟩
          · intro x hx
            simp only [Option.some.injEq] at hx
            subst hx
            exact ⟨rfl, i, code, status, le_refl _, by omega, rfl, hdo, hok.1, hok.2,
              fun j h1 h2 => absurd h2 (by omega)⟩
          · intro h; simp at h
          · intro _ _ h; simp at h
        · rw [if_neg hok]
          have hfail : (t.Do url i).failed = true := by
            rw [hdo]
            simp only [Attempt.failed, Bool.not_eq_true', Bool.and_eq_false_iff,
              decide_eq_false_iff_not]
            by_cases h1 : 200 ≤ code
            · exact Or.inr (fun h2 => hok ⟨h1, h2⟩)
            · exact Or.inl h1
          cases hctx : t.ctxErr url i with
          | some e =>
            refine ⟨by simp, by simp, ?_, ?_, ?_⟩
            · intro x hx; simp at hx
            · intro _; exact Or.inl (by simp)
            · intro _ hall; rw [hall i] at hctx; cases hctx
          | none =>
            simp only
            obtain ⟨h1, h2, h3, h4, h5⟩ := ih (i + 1) (some ("http status: " ++ status))
            refine ⟨by omega, by omega, ?_, ?_, ?_⟩
            · intro x hx
              obtain ⟨he, k, c, s, hk1, hk2, hk3, hk4, hk5, hk6, hk7⟩ := h3 x hx
              refine ⟨he, k, c, s, by omega, by omega, hk3, hk4, hk5, hk6, ?_⟩
              intro j hj1 hj2
              by_cases hji : j = i
              · rw [hji]; exact hfail
              · exact hk7 j (by omega) hj2
            · intro hx
              rcases h4 hx with h | ⟨_, h⟩
              · exact Or.inl h
              · cases h
            · intro _ hall hx
              obtain ⟨hc, hf⟩ := h5 hreq hall hx
              refine ⟨by omega, ?_⟩
              intro j hj1 hj2
              by_cases hji : j = i
              · rw [hji]; exact hfail
              · exact hf j (by omega) (by omega)
      | transportError msg =>
        simp only
        have hfail : (t.Do url i).failed = true := by rw [hdo]; rfl
        cases hctx : t.ctxErr url i with
        | some e =>
          refine ⟨by simp, by simp, ?_, ?_, ?_⟩
          · intro x hx; simp at hx
          · intro _; exact Or.inl (by simp)
          · intro _ hall; rw [hall i] at hctx; cases hctx
        | none =>
          simp only
          obtain ⟨h1, h2, h3, h4, h5⟩ := ih (i + 1) (some msg)
          refine ⟨by omega, by omega, ?_, ?_, ?_⟩
          · intro x hx
            obtain ⟨he, k, c, s, hk1, hk2, hk3, hk4, hk5, hk6, hk7⟩ := h3 x hx
            refine ⟨he, k, c, s, by omega, by omega, hk3, hk4, hk5, hk6, ?_⟩
            intro j hj1 hj2
            by_cases hji : j = i
            · rw [hji]; exact hfail
            · exact hk7 j (by omega) hj2
          · intro hx
            rcases h4 hx with h | ⟨_, h⟩
            · exact Or.inl h
            · cases h
          · intro _ hall hx
            obtain ⟨hc, hf⟩ := h5 hreq hall hx
            refine ⟨by omega, ?_⟩
            intro j hj1 hj2
            by_cases hji : j = i
            · rw [hji]; exact hfail
            · exact hf j (by omega) (by omega)

/-- With a retry setting from 0 up to the largest `int` but one, `Get` sends at most
`retry + 1` requests; a response it returns is that of the first attempt with a 2xx status,
every earlier attempt having failed, and comes with a nil error; a nil response comes
with an error.  When the request can be built and the context is not cancelled, a nil
response means that all `retry + 1` attempts were made and failed. -/
theorem GetRaw_in_range (retry : Int) (t : Transport) (url : String)
    (h0 : 0 ≤ retry) (h1 : retry < 2 ^ 63 - 1) :
    ((GetRaw retry t url).calls : Int) ≤ retry + 1 ∧
    (∀ x, (GetRaw retry t url).resp = some x →
      (GetRaw retry t url).err = none ∧
      ∃ (k : Nat) (code : Nat) (status : String), (k : Int) ≤ retry ∧
        (GetRaw retry t url).calls = k + 1 ∧
        t.Do url k = .response code status x ∧ 200 ≤ code ∧ code < 300 ∧
        ∀ j : Nat, j < k → (t.Do url j).failed = true) ∧
    ((GetRaw retry t url).resp = none → (GetRaw retry t url).err ≠ none) ∧
    ((GetRaw retry t url).err = none → ∃ x, (GetRaw retry t url).resp = some x) ∧
    (t.newRequestErr url = none → (∀ j, t.ctxErr url j = none) →
      (GetRaw retry t url).resp = none →
      ((GetRaw retry t url).calls : Int) = retry + 1 ∧
      ∀ j : Nat, (j : Int) ≤ retry → (t.Do url j).failed = true) := by
  have hn : (intWrap (retry + 1)).toNat = retry.toNat + 1 := by
    rw [intWrap_succ retry h0 h1]
    omega
  have hr : ((retry.toNat : Nat) : Int) = retry := Int.toNat_of_nonneg h0
  unfold GetRaw
  rw [hn]
  obtain ⟨_, h2, h3, h4, h5⟩ := rawLoop_spec t url (retry.toNat + 1) 0 none
  have hnil : (rawLoop t url (retry.toNat + 1) 0 none).resp = none →
      (rawLoop t url (retry.toNat + 1) 0 none).err ≠ none := by
    intro hx
    rcases h4 hx with h | ⟨h, _⟩
    · exact h
    · exact absurd h (by omega)
  refine ⟨by omega, ?_, hnil, ?_, ?_⟩
  · intro x hx
    obtain ⟨he, k, c, s, _, hk2, hk3, hk4, hk5, hk6, hk7⟩ := h3 x hx
    exact ⟨he, k, c, s, by omega, hk3, hk4, hk5, hk6, fun j hj => hk7 j (Nat.zero_le _) hj⟩
  · intro he
    cases hx : (rawLoop t url (retry.toNat + 1) 0 none).resp with
    | some x => exact ⟨x, rfl⟩
    | none => exact absurd he (hnil hx)
  · intro hreq hctx hx
    obtain ⟨hc, hf⟩ := h5 hreq hctx hx
    refine ⟨by omega, ?_⟩
    intro j hj
    exact hf j (Nat.zero_le _) (by omega)

/-- With a retry setting whose `retry + 1` is not positive as an `int`, `Get` sends nothing
and returns a nil response with a nil error. -/
theorem GetRaw_no_iteration (retry : Int) (t : Transport) (url : String)
    (h : intWrap (retry + 1) ≤ 0) :
    GetRaw retry t url = { resp := none, err := none, calls := 0 } := by
  unfold GetRaw
  rw [Int.toNat_eq_zero.mpr h]
  rfl

/-- For a client of the embedding, whose retry setting is a natural number in the range of
`int`, the two models of `Get` agree. -/
theorem rawLoop_getLoop (t : Transport) (url : String) : ∀ (n i : Nat) (e : String),
    match getLoop t url n i e with
    | .ok r => (rawLoop t url n i (some e)).resp = some r ∧ (rawLoop t url n i (some e)).err = none
    | .error e' =>
      (rawLoop t url n i (some e)).resp = none ∧ (rawLoop t url n i (some e)).err = some e' := by
  intro n
  induction n with
  | zero => intro i e; exact ⟨rfl, rfl⟩
  | succ n ih =>
    intro i e
    unfold getLoop rawLoop
    cases hreq : t.newRequestErr url with
    | some e1 => exact ⟨rfl, rfl⟩
    | none =>
      simp only
      cases hdo : t.Do url i with
      | response code status resp =>
        simp only
        by_cases hok : 200 ≤ code ∧ code < 300
        · simp only [hok, and_self, if_true]
        · simp only [hok, if_false]
          cases hctx : t.ctxErr url i with
          | some e2 => exact ⟨rfl, rfl⟩
          | none => exact ih (i + 1) _
      | transportError msg =>
        simp only
        cases hctx : t.ctxErr url i with
        | some e2 => exact ⟨rfl, rfl⟩
        | none => exact ih (i + 1) _

/-- The result of `Client.Get` is that of `GetRaw` at the client's retry setting. -/
theorem Get_eq_GetRaw (c : Client) (url : String) (h : (c.retry : Int) < 2 ^ 63 - 1) :
    match c.Get url with
    | .ok r => (GetRaw c.retry c.net url).resp = some r ∧ (GetRaw c.retry c.net url).err = none
    | .error e =>
      (GetRaw c.retry c.net url).resp = none ∧ (GetRaw c.retry c.net url).err = some e := by
  have hn : (intWrap ((c.retry : Int) + 1)).toNat = c.retry + 1 := by
    rw [intWrap_succ _ (Int.natCast_nonneg _) h]
    omega
  have h2 : ∀ o, rawLoop c.net url (c.retry + 1) 0 o = rawLoop c.net url (c.retry + 1) 0 (some "") :=
    fun o => by unfold rawLoop; rfl
  unfold GetRaw Client.Get
  rw [hn, h2]
  exact rawLoop_getLoop c.net url (c.retry + 1) 0 ""

/-- C21 (behaviour of the code at the failing inputs).  A server that answers every request
of `http://h/rss.xml` with status 200: with the retry setting 0 `Get` returns that response
after one request, and with the retry setting 1 and the server of the repository's test
(500, then 200) after two; with the retry setting `-1`, and with the largest `int`, for
which `retry + 1` wraps to a negative number, it sends no request and returns a nil
response with a nil error. -/
theorem GetRaw_without_attempt :
    GetRaw (-1) demo.rssOnly.net "http://h/rss.xml" = { resp := none, err := none, calls := 0 } ∧
    GetRaw (2 ^ 63 - 1) demo.rssOnly.net "http://h/rss.xml" =
      { resp := none, err := none, calls := 0 } ∧
    GetRaw 0 demo.rssOnly.net "http://h/rss.xml" =
      { resp := some (demo.plain "application/rss+xml" "<rss version=\"2.0\"></rss>"),
        err := none, calls := 1 } ∧
    GetRaw 1 demo.flaky "http://s" =
      { resp := some (demo.plain "text/plain" "ok"), err := none, calls := 2 } ∧
    GetRaw 0 demo.flaky "http://s" =
      { resp := none, err := some "http status: 500 Internal Server Error", calls := 1 } :=
  ⟨rfl, rfl, rfl, rfl, rfl⟩

end fetch

/-! ## URL resolution: verbatim references and the fallbacks -/

namespace strings

/-- A text that starts with `pre ++ more` starts with `pre`. -/
theorem HasPrefix_of_longer (s pre more : String) (h : HasPrefix s (pre ++ more) = true) :
    HasPrefix s pre = true := by
  unfold HasPrefix at *
  rw [List.isPrefixOf_iff_prefix] at *
  rw [String.data_append] at h
  exact (List.prefix_append _ _).trans h

/-- A text of white space only is trimmed to the empty text. -/
theorem TrimSpace_of_all_space (s : String) (h : ∀ c ∈ s.data, isSpace c = true) :
    TrimSpace s = "" := by
  unfold TrimSpace
  have : s.data.dropWhile isSpace = [] := by
    rw [List.dropWhile_eq_nil_iff]
    exact h
  rw [this]
  rfl

end strings

namespace feeds

open strings

/-- Counterexample to C27: the base `%zz` does not parse.  Directory-relative resolution of
`feed` against it puts a `/` in between, and of `/feed` against `%zz/` drops a `/`, so
neither is the raw concatenation; and an absolute reference, one that starts with `http://`
or `https://`, is returned alone by both modes, not appended to the base. -/
theorem joinURLDir_fallback_not_concat :
    url.std.Parse "%zz" = none ∧ url.std.Parse "%zz/" = none ∧
    joinURLDir url.std "%zz" "feed" = "%zz/feed" ∧
    joinURLDir url.std "%zz/" "/feed" = "%zz/feed" ∧
    joinURL url.std "%zz" "http://x/feed" = "http://x/feed" ∧
    joinURLDir url.std "%zz" "http://x/feed" = "http://x/feed" ∧
    joinURL url.std "%zz" "https://x/feed" = "https://x/feed" ∧
    joinURLDir url.std "%zz" "https://x/feed" = "https://x/feed" ∧
    joinURL url.std "%zz" "feed" = "%zzfeed" := by
  decide

/-- Claim C27, amended: when the base does not parse as a URL, a reference that starts
with `http://` or `https://` is returned as it is by both modes; for a reference that does
not start with the letters `http`, `joinURL` returns the raw concatenation of base and
reference, and `joinURLDir` returns the base, followed by `/` unless the base ends in `/`,
followed by the reference without one leading `/`.  (Both functions are total: they return
a string for every base and reference.) -/
theorem join_base_unparsed (L : url.Lib) (base ref : String) (hbase : L.Parse base = none) :
    (HasPrefix ref "http://" = true ∨ HasPrefix ref "https://" = true →
      joinURL L base ref = ref ∧ joinURLDir L base ref = ref) ∧
    (HasPrefix ref "http" = false →
      joinURL L base ref = base ++ ref ∧
      joinURLDir L base ref =
        (if HasSuffix base "/" then base else base ++ "/") ++ TrimPrefix ref "/") := by
  constructor
  · intro h
    have hp : HasPrefix ref "http" = true := by
      rcases h with h | h
      · exact HasPrefix_of_longer ref "http" "://" h
      · exact HasPrefix_of_longer ref "http" "s://" h
    simp [joinURL, joinURLDir, hp]
  · intro h
    refine ⟨by simp [joinURL, h, hbase], ?_⟩
    by_cases hs : HasSuffix base "/" = true
    · simp [joinURLDir, h, hbase, hs]
    · simp only [Bool.not_eq_true] at hs
      simp [joinURLDir, h, hbase, hs]

/-- Witness for C27: the base `%zz`, which does not parse. -/
theorem join_base_unparsed_witness :
    joinURL url.std "%zz" "/feed" = "%zz/feed" ∧
    joinURLDir url.std "%zz" "/feed" = "%zz/feed" ∧
    joinURLDir url.std "%zz" "feed" = "%zz/feed" ∧
    joinURL url.std "%zz" "https://x/feed" = "https://x/feed" ∧
    joinURLDir url.std "%zz" "http://x/feed" = "http://x/feed" := by
  have h := join_base_unparsed url.std "%zz" "/feed" (by decide)
  have h2 := join_base_unparsed url.std "%zz" "https://x/feed" (by decide)
  have h3 := join_base_unparsed url.std "%zz" "http://x/feed" (by decide)
  exact ⟨(h.2 (by decide)).1, by decide, by decide, (h2.1 (Or.inr (by decide))).1,
    (h3.1 (Or.inl (by decide))).2⟩

/-- Counterexample to C26: `httpfeed.xml` starts with no scheme, yet both modes return it
as it is instead of resolving it (to `https://host/httpfeed.xml`); `HTTPS://other/Feed` and
`ftp://other/a/../feed` start with a scheme and are not returned verbatim but come out of
the resolution in normalised form. -/
theorem joinURL_guard_is_http_text :
    (url.std.Parse "httpfeed.xml").map (fun u => u.Scheme) = some "" ∧
    joinURL url.std "https://host/blog" "httpfeed.xml" = "httpfeed.xml" ∧
    joinURLDir url.std "https://host/blog" "httpfeed.xml" = "httpfeed.xml" ∧
    ((url.std.Parse "https://host/blog").bind fun u =>
      (url.std.Parse "httpfeed.xml").map fun ru =>
        url.std.String (url.std.ResolveReference u ru)) = some "https://host/httpfeed.xml" ∧
    (url.std.Parse "HTTPS://other/Feed").map (fun u => u.Scheme) = some "https" ∧
    joinURL url.std "https://host/blog" "HTTPS://other/Feed" = "https://other/Feed" ∧
    joinURL url.std "https://host/blog" "ftp://other/a/../feed" = "ftp://other/feed" := by
  decide

/-- Claim C26, amended: a reference that starts with `http://` or `https://` is returned
verbatim by `joinURL` and by `joinURLDir`, whatever the base; a reference that does not
start with the letters `http` is resolved against the base by the library's reference
resolution when base and reference parse: `joinURL` resolves the reference against the
base, `joinURLDir` resolves the reference without one leading `/` against the base with a
`/` appended to its path unless the path ends in one. -/
theorem joinURL_verbatim_or_resolved (L : url.Lib) (base ref : String) :
    (HasPrefix ref "http://" = true ∨ HasPrefix ref "https://" = true →
      joinURL L base ref = ref ∧ joinURLDir L base ref = ref) ∧
    (HasPrefix ref "http" = false →
      (∀ u ru, L.Parse base = some u → L.Parse ref = some ru →
        joinURL L base ref = L.String (L.ResolveReference u ru)) ∧
      (∀ u ru, L.Parse base = some u → L.Parse (TrimPrefix ref "/") = some ru →
        joinURLDir L base ref =
          L.String (L.ResolveReference
            (if HasSuffix u.Path "/" then u else { u with Path := u.Path ++ "/" }) ru))) := by
  constructor
  · intro h
    have hp : HasPrefix ref "http" = true := by
      rcases h with h | h
      · exact HasPrefix_of_longer ref "http" "://" h
      · exact HasPrefix_of_longer ref "http" "s://" h
    simp [joinURL, joinURLDir, hp]
  · intro h
    constructor
    · intro u ru hu hru
      simp [joinURL, h, hu, hru]
    · intro u ru hu hru
      by_cases hs : HasSuffix u.Path "/" = true
      · simp [joinURLDir, h, hu, hru, hs]
      · simp only [Bool.not_eq_true] at hs
        simp [joinURLDir, h, hu, hru, hs]

/-- Example of C26: absolute `http` and `https` references come back verbatim, other
references are resolved, root-relative and directory-relative. -/
theorem joinURL_verbatim_or_resolved_witness :
    joinURL url.std "https://host/blog" "https://other/Feed.XML?x=1#top" =
      "https://other/Feed.XML?x=1#top" ∧
    joinURLDir url.std "https://host/blog" "http://other/a/../b" = "http://other/a/../b" ∧
    joinURL url.std "https://host/blog" "/feed" = "https://host/feed" ∧
    joinURLDir url.std "https://host/blog" "/feed" = "https://host/blog/feed" := by
  have h := (joinURL_verbatim_or_resolved url.std "https://host/blog"
    "https://other/Feed.XML?x=1#top").1 (Or.inr (by decide))
  have h2 := (joinURL_verbatim_or_resolved url.std "https://host/blog"
    "http://other/a/../b").1 (Or.inl (by decide))
  exact ⟨h.1, h2.2, by decide, by decide⟩

/-- C25 (behaviour of the code at the failing input).  For the base `https://host/blog` the
file name `index.xml` resolves to `https://host/blog/index.xml` directory-relative and to
`https://host/index.xml` root-relative, and for the base `https://host/blog/` to
`https://host/blog/index.xml` both ways; the file name `http.xml` is returned as it is by
both modes, because it starts with the letters `http`. -/
theorem joinURLDir_file_named_http :
    joinURLDir url.std "https://host/blog" "index.xml" = "https://host/blog/index.xml" ∧
    joinURL url.std "https://host/blog" "index.xml" = "https://host/index.xml" ∧
    joinURLDir url.std "https://host/blog/" "index.xml" = "https://host/blog/index.xml" ∧
    joinURL url.std "https://host/blog/" "index.xml" = "https://host/blog/index.xml" ∧
    joinURLDir url.std "https://host/a/blog" "feed" = "https://host/a/blog/feed" ∧
    joinURL url.std "https://host/a/blog" "feed" = "https://host/a/feed" ∧
    joinURLDir url.std "https://host/blog" "http.xml" = "http.xml" ∧
    joinURL url.std "https://host/blog" "http.xml" = "http.xml" := by
  decide

end feeds

namespace friends

open strings

/-- Counterexample to C29: the value `%zz` is no URL reference (it does not parse), and
`abs` emits it as it is, not as an absolute URL; so does it with every value when the page
URL does not parse. -/
theorem abs_unparsed_value_unchanged :
    url.std.Parse "%zz" = none ∧
    abs url.std "http://h/links" "%zz" = "%zz" ∧
    abs url.std "http://h/links" " %zz\n" = "%zz" ∧
    abs url.std "%zz" "/s1" = "/s1" := by
  decide

/-- Claim C29, amended: a value that is empty or all white space is emitted empty; a value
that, trimmed, starts with `http://` or `https://` is emitted trimmed and otherwise
verbatim; every other value is emitted, trimmed, as the result of resolving it against
the page URL when the page URL and the value both parse as URLs, and unchanged when one
of them does not. -/
theorem abs_contract (L : url.Lib) (base ref : String) :
    ((∀ c ∈ ref.data, isSpace c = true) → abs L base ref = "") ∧
    (TrimSpace ref = "" → abs L base ref = "") ∧
    (HasPrefix (TrimSpace ref) "http://" = true ∨ HasPrefix (TrimSpace ref) "https://" = true →
      abs L base ref = TrimSpace ref) ∧
    (TrimSpace ref ≠ "" → HasPrefix (TrimSpace ref) "http://" = false →
      HasPrefix (TrimSpace ref) "https://" = false →
      (∀ bu ru, L.Parse base = some bu → L.Parse (TrimSpace ref) = some ru →
        abs L base ref = L.String (L.ResolveReference bu ru)) ∧
      (L.Parse base = none ∨ L.Parse (TrimSpace ref) = none → abs L base ref = TrimSpace ref)) := by
  have hempty : TrimSpace ref = "" → abs L base ref = "" := by
    intro h
    simp [abs, h]
  refine ⟨fun h => hempty (TrimSpace_of_all_space ref h), hempty, ?_, ?_⟩
  · intro h
    by_cases h0 : TrimSpace ref = ""
    · rw [hempty h0, h0]
    · rcases h with h | h <;> simp [abs, h0, h]
  · intro h0 h1 h2
    constructor
    · intro bu ru hb hr
      simp [abs, h0, h1, h2, hb, hr]
    · intro h
      cases hb : L.Parse base with
      | none => simp [abs, h0, h1, h2, hb]
      | some bu =>
        rcases h with h | h
        · rw [hb] at h; cases h
        · simp [abs, h0, h1, h2, hb, h]

/-- Example of C29, the repository's test: with the page `http://h/links` the values `/s1`
and `/a.png` become `http://h/s1` and `http://h/a.png`; an absolute value is kept, a value
of white space stays empty. -/
theorem abs_contract_witness :
    abs url.std "http://h/links" "/s1" = "http://h/s1" ∧
    abs url.std "http://h/links" "/a.png" = "http://h/a.png" ∧
    abs url.std "http://h/links" "s1" = "http://h/s1" ∧
    abs url.std "http://h/links" " https://x/y " = "https://x/y" ∧
    abs url.std "http://h/links" " \t " = "" ∧
    abs url.std "http://h/links" "" = "" := by
  have h := (abs_contract url.std "http://h/links" " \t ").1 (by decide)
  exact ⟨by decide, by decide, by decide, by decide, h, by decide⟩

end friends

/-! ## The worker pool of `Run` -/

namespace aggregate

/-- Replacing one element of a list changes the number of elements with a property by what
the old and the new element contribute. -/
theorem filter_length_set {α : Type} (p : α → Bool) (y : α) : ∀ (l : List α) (i : Nat) (x : α),
    l.get? i = some x →
    ((l.set i y).filter p).length + (if p x then 1 else 0) =
      (l.filter p).length + (if p y then 1 else 0) := by
  intro l
  induction l with
  | nil => intro i x h; simp at h
  | cons a t ih =>
    intro i x h
    cases i with
    | zero =>
      simp only [List.get?_cons_zero, Option.some.injEq] at h
      subst h
      simp only [List.set_cons_zero, List.filter_cons]
      by_cases ha : p a = true <;> by_cases hy : p y = true <;> simp [ha, hy]
    | succ i =>
      simp only [List.get?_cons_succ] at h
      have := ih i x h
      simp only [List.set_cons_succ, List.filter_cons]
      by_cases ha : p a = true <;> simp [ha] <;> omega

/-- Replacing an element by one that agrees with it on the property keeps the count. -/
theorem filter_length_set_same {α : Type} (p : α → Bool) (l : List α) (i : Nat) (x y : α)
    (h : l.get? i = some x) (hxy : p x = p y) :
    ((l.set i y).filter p).length = (l.filter p).length := by
  have := filter_length_set p y l i x h
  rw [hxy] at this
  omega

/-- Replacing an element that has the property by one that has it not lowers the count by
one. -/
theorem filter_length_set_drop {α : Type} (p : α → Bool) (l : List α) (i : Nat) (x y : α)
    (h : l.get? i = some x) (hx : p x = true) (hy : p y = false) :
    ((l.set i y).filter p).length + 1 = (l.filter p).length := by
  have := filter_length_set p y l i x h
  rw [hx, hy] at this
  simpa using this

/-- Replacing the state of one goroutine keeps the entries of the goroutines. -/
theorem map_fst_set {α β : Type} (b' : β) : ∀ (l : List (α × β)) (i : Nat) (a : α) (b : β),
    l.get? i = some (a, b) → (l.set i (a, b')).map (fun t => t.1) = l.map (fun t => t.1) := by
  intro l
  induction l with
  | nil => intro i a b h; simp at h
  | cons x t ih =>
    intro i a b h
    cases i with
    | zero =>
      simp only [List.get?_cons_zero, Option.some.injEq] at h
      subst h
      rfl
    | succ i =>
      simp only [List.get?_cons_succ] at h
      simp only [List.set_cons_succ, List.map_cons, ih i a b h]

/-- The invariant holds before the loop. -/
theorem Pool_Inv_init (fetch : Int) (roster : List config.StaticFriend) :
    (Pool.init fetch roster).Inv roster := by
  simp [Pool.Inv, Pool.init, Pool.executing, MainPC.sent, MainPC.inHand, MainPC.pastLoop,
    MainPC.pastWait]

/-- Every step keeps the invariant, the capacity of the channel, and the goroutines that
have ended. -/
theorem Pool_Inv_step (roster : List config.StaticFriend) (s s' : Pool) (e : Event)
    (hinv : s.Inv roster) (hstep : s.step e = some s') : s'.Inv roster ∧ s'.cap = s.cap := by
  obtain ⟨h1, h2, h3, h4, h5, h6⟩ := hinv
  cases e with
  | main =>
    simp only [Pool.step] at hstep
    cases hpc : s.pc with
    | loop =>
      rw [hpc] at hstep h1 h3 h4
      simp only [MainPC.sent, MainPC.inHand, List.length_nil, List.append_nil, add_zero] at h1 h3 h4
      cases htodo : s.todo with
      | nil =>
        rw [htodo] at hstep
        simp only [Option.some.injEq] at hstep
        subst hstep
        refine ⟨⟨?_, h2, ?_, ?_, ?_, ?_⟩, rfl⟩
        · simpa [Pool.executing, MainPC.sent] using h1
        · simpa [MainPC.inHand] using h3
        · simpa [MainPC.inHand, htodo] using h4
        · intro _; rfl
        · intro h; simp [MainPC.pastWait] at h
      | cons sf rest =>
        rw [htodo] at hstep h4
        simp only [Option.some.injEq] at hstep
        subst hstep
        refine ⟨⟨?_, h2, ?_, ?_, ?_, ?_⟩, rfl⟩
        · simpa [Pool.executing, MainPC.sent] using h1
        · simp [MainPC.inHand, h3]
        · simpa [MainPC.inHand] using h4
        · intro h; simp [MainPC.pastLoop] at h
        · intro h; simp [MainPC.pastWait] at h
    | send sf =>
      rw [hpc] at hstep h1 h3 h4
      simp only [MainPC.sent, MainPC.inHand, add_zero] at h1 h3 h4
      dsimp only at hstep
      by_cases hlt : s.sem < s.cap
      · rw [if_pos hlt] at hstep
        simp only [Option.some.injEq] at hstep
        subst hstep
        refine ⟨⟨?_, ?_, ?_, ?_, ?_, ?_⟩, rfl⟩
        · simp only [Pool.executing, MainPC.sent] at h1 ⊢
          omega
        · show s.sem + 1 ≤ s.cap
          omega
        · simpa [MainPC.inHand] using h3
        · simpa [MainPC.inHand] using h4
        · intro h; simp [MainPC.pastLoop] at h
        · intro h; simp [MainPC.pastWait] at h
      · rw [if_neg hlt] at hstep
        cases hstep
    | spawn sf =>
      rw [hpc] at hstep h1 h3 h4
      simp only [MainPC.sent, MainPC.inHand] at h1 h3 h4
      simp only [Option.some.injEq] at hstep
      subst hstep
      refine ⟨⟨?_, h2, ?_, ?_, ?_, ?_⟩, rfl⟩
      · simp only [Pool.executing, MainPC.sent, List.filter_append, List.length_append] at h1 ⊢
        simp [TaskPC.holdsSlot, h1]
      · simp only [MainPC.inHand, List.filter_append, List.length_append]
        simp [TaskPC.pending, h3]
      · simpa [MainPC.inHand] using h4
      · intro h; simp [MainPC.pastLoop] at h
      · intro h; simp [MainPC.pastWait] at h
    | wait =>
      rw [hpc] at hstep h1 h3 h4 h5
      simp only [MainPC.sent, MainPC.inHand, List.length_nil, List.append_nil, add_zero] at h1 h3 h4
      dsimp only at hstep
      by_cases hz : s.wg = 0
      · rw [if_pos hz] at hstep
        simp only [Option.some.injEq] at hstep
        subst hstep
        refine ⟨⟨?_, h2, ?_, ?_, ?_, ?_⟩, rfl⟩
        · simpa [Pool.executing, MainPC.sent] using h1
        · simpa [MainPC.inHand] using h3
        · simpa [MainPC.inHand] using h4
        · intro _; exact h5 rfl
        · intro _ t ht
          have hnil : s.tasks.filter (fun t => t.2.pending) = [] := by
            apply List.eq_nil_of_length_eq_zero
            omega
          by_contra hp
          have : t ∈ s.tasks.filter (fun t => t.2.pending) :=
            List.mem_filter.mpr ⟨ht, by simpa using hp⟩
          rw [hnil] at this
          cases this
      · rw [if_neg hz] at hstep
        cases hstep
    | cleanup =>
      rw [hpc] at hstep h1 h3 h4 h5 h6
      simp only [MainPC.sent, MainPC.inHand, List.length_nil, List.append_nil, add_zero] at h1 h3 h4
      simp only [Option.some.injEq] at hstep
      subst hstep
      refine ⟨⟨?_, h2, ?_, ?_, ?_, ?_⟩, rfl⟩
      · simpa [Pool.executing, MainPC.sent] using h1
      · simpa [MainPC.inHand] using h3
      · simpa [MainPC.inHand] using h4
      · intro _; exact h5 rfl
      · intro _; exact h6 rfl
    | returned =>
      rw [hpc] at hstep
      cases hstep
  | ret i ok =>
    simp only [Pool.step] at hstep
    cases hget : s.tasks.get? i with
    | none => rw [hget] at hstep; cases hstep
    | some t =>
      obtain ⟨sf, tpc⟩ := t
      rw [hget] at hstep
      cases tpc with
      | run =>
        simp only [Option.some.injEq] at hstep
        subst hstep
        have hc := filter_length_set_same (fun t : config.StaticFriend × TaskPC => t.2.holdsSlot)
          s.tasks i (sf, .run) (sf, .release ok) hget rfl
        have hp := filter_length_set_same (fun t : config.StaticFriend × TaskPC => t.2.pending)
          s.tasks i (sf, .run) (sf, .release ok) hget rfl
        refine ⟨⟨?_, h2, ?_, ?_, h5, ?_⟩, rfl⟩
        · simp only [Pool.executing] at h1 ⊢
          omega
        · dsimp only
          omega
        · show roster = _
          rw [map_fst_set _ _ _ _ _ hget]
          exact h4
        · intro hw t ht
          have := h6 hw (sf, .run) (List.get?_mem hget)
          simp [TaskPC.pending] at this
      | release _ => cases hstep
      | finish _ => cases hstep
      | exited _ => cases hstep
  | deferred i =>
    simp only [Pool.step] at hstep
    cases hget : s.tasks.get? i with
    | none => rw [hget] at hstep; cases hstep
    | some t =>
      obtain ⟨sf, tpc⟩ := t
      rw [hget] at hstep
      cases tpc with
      | run => cases hstep
      | release ok =>
        simp only at hstep
        by_cases hpos : 0 < s.sem
        · rw [if_pos hpos] at hstep
          simp only [Option.some.injEq] at hstep
          subst hstep
          have hc := filter_length_set_drop (fun t : config.StaticFriend × TaskPC => t.2.holdsSlot)
            s.tasks i (sf, .release ok) (sf, .finish ok) hget rfl rfl
          have hp := filter_length_set_same (fun t : config.StaticFriend × TaskPC => t.2.pending)
            s.tasks i (sf, .release ok) (sf, .finish ok) hget rfl
          refine ⟨⟨?_, ?_, ?_, ?_, h5, ?_⟩, rfl⟩
          · simp only [Pool.executing] at h1 ⊢
            omega
          · show s.sem - 1 ≤ s.cap
            omega
          · dsimp only
            omega
          · show roster = _
            rw [map_fst_set _ _ _ _ _ hget]
            exact h4
          · intro hw t ht
            have := h6 hw (sf, .release ok) (List.get?_mem hget)
            simp [TaskPC.pending] at this
        · rw [if_neg hpos] at hstep
          cases hstep
      | finish ok =>
        simp only at hstep
        by_cases hpos : 0 < s.wg
        · rw [if_pos hpos] at hstep
          simp only [Option.some.injEq] at hstep
          subst hstep
          have hc := filter_length_set_same (fun t : config.StaticFriend × TaskPC => t.2.holdsSlot)
            s.tasks i (sf, .finish ok) (sf, .exited ok) hget rfl
          have hp := filter_length_set_drop (fun t : config.StaticFriend × TaskPC => t.2.pending)
            s.tasks i (sf, .finish ok) (sf, .exited ok) hget rfl rfl
          refine ⟨⟨?_, h2, ?_, ?_, h5, ?_⟩, rfl⟩
          · simp only [Pool.executing] at h1 ⊢
            omega
          · dsimp only
            omega
          · show roster = _
            rw [map_fst_set _ _ _ _ _ hget]
            exact h4
          · intro hw t ht
            have := h6 hw (sf, .finish ok) (List.get?_mem hget)
            simp [TaskPC.pending] at this
        · rw [if_neg hpos] at hstep
          cases hstep
      | exited _ => cases hstep

/-- The invariant holds in every state of every run. -/
theorem Pool_Inv_exec (roster : List config.StaticFriend) : ∀ (es : List Event) (s s' : Pool),
    s.Inv roster → s.exec es = some s' → s'.Inv roster ∧ s'.cap = s.cap := by
  intro es
  induction es with
  | nil =>
    intro s s' hinv h
    simp only [Pool.exec, Option.some.injEq] at h
    subst h
    exact ⟨hinv, rfl⟩
  | cons e es ih =>
    intro s s' hinv h
    simp only [Pool.exec] at h
    cases hs : s.step e with
    | none => rw [hs] at h; cases h
    | some s1 =>
      rw [hs] at h
      obtain ⟨hi1, hc1⟩ := Pool_Inv_step roster s s1 e hinv hs
      obtain ⟨hi2, hc2⟩ := ih s1 s' hi1 h
      exact ⟨hi2, hc2.trans hc1⟩

/-- An element with a property makes the count of the property positive. -/
theorem filter_length_pos {α : Type} (p : α → Bool) (l : List α) (i : Nat) (x : α)
    (h : l.get? i = some x) (hx : p x = true) : 0 < (l.filter p).length :=
  List.length_pos_of_mem (List.mem_filter.mpr ⟨List.get?_mem h, hx⟩)

/-- Claim C23: in every state of every run of the fan-out of `Run`, the capacity of the
semaphore is `max(1, fetch)` and at most that many per-friend tasks are executing.  The
admission of the next roster entry is blocked exactly while as many tasks are executing as
there are slots.  A task that runs may end with either outcome; once its call has ended,
with success or not, its deferred receive is enabled and gives back one slot, and then its
`wg.Done()` is enabled: the channel holds exactly one element per executing task (and one
for an entry admitted but not started).  When `Run` is past `wg.Wait()`, at the clean-up or
after it, the loop has started one task per roster entry, in roster order, and every one of
them has ended. -/
theorem Pool_bounded_fanout (fetch : Int) (roster : List config.StaticFriend)
    (es : List Event) (s : Pool) (h : (Pool.init fetch roster).exec es = some s) :
    (s.cap : Int) = max 1 fetch ∧
    s.executing ≤ s.cap ∧
    s.sem = s.executing + s.pc.sent ∧
    (∀ sf, s.pc = .send sf → (s.step .main = none ↔ s.executing = s.cap)) ∧
    (∀ i sf, s.tasks.get? i = some (sf, .run) → ∀ ok,
      ∃ s', s.step (.ret i ok) = some s' ∧ s'.tasks.get? i = some (sf, .release ok)) ∧
    (∀ i sf ok, s.tasks.get? i = some (sf, .release ok) →
      ∃ s', s.step (.deferred i) = some s' ∧ s'.sem + 1 = s.sem ∧
        s'.executing + 1 = s.executing ∧ s'.tasks.get? i = some (sf, .finish ok)) ∧
    (∀ i sf ok, s.tasks.get? i = some (sf, .finish ok) →
      ∃ s', s.step (.deferred i) = some s' ∧ s'.wg + 1 = s.wg ∧
        s'.tasks.get? i = some (sf, .exited ok)) ∧
    (s.pc = .cleanup ∨ s.pc = .returned →
      s.todo = [] ∧ s.tasks.map (fun t => t.1) = roster ∧
      (∀ t ∈ s.tasks, ∃ ok, t.2 = .exited ok) ∧ s.executing = 0 ∧ s.wg = 0) := by
  obtain ⟨⟨h1, h2, h3, h4, h5, h6⟩, hcap⟩ :=
    Pool_Inv_exec roster es _ s (Pool_Inv_init fetch roster) h
  have hget : ∀ (i : Nat) (t : config.StaticFriend × TaskPC), s.tasks.get? i = some t →
      ∀ t', (s.tasks.set i t').get? i = some t' := by
    intro i t ht t'
    have hlt : i < s.tasks.length := by
      by_contra hge
      rw [List.get?_eq_none.mpr (by omega)] at ht
      cases ht
    simp [List.getElem?_set, hlt]
  refine ⟨?_, ?_, h1, ?_, ?_, ?_, ?_, ?_⟩
  · rw [hcap]
    simp only [Pool.init]
    by_cases hf : 1 > fetch
    · rw [if_pos hf, max_eq_left (le_of_lt hf)]
      rfl
    · rw [if_neg hf, max_eq_right (by omega)]
      exact Int.toNat_of_nonneg (by omega)
  · omega
  · intro sf hpc
    simp only [Pool.step, hpc]
    rw [hpc] at h1
    simp only [MainPC.sent, add_zero] at h1
    by_cases hlt : s.sem < s.cap
    · simp only [hlt, if_true, reduceCtorEq, false_iff]
      omega
    · simp only [hlt, if_false, true_iff]
      omega
  · intro i sf ht ok
    refine ⟨{ s with tasks := s.tasks.set i (sf, .release ok) },
      by simp only [Pool.step, ht], ?_⟩
    exact hget i _ ht _
  · intro i sf ok ht
    have hpos := filter_length_pos (fun t : config.StaticFriend × TaskPC => t.2.holdsSlot)
      s.tasks i _ ht rfl
    have hsem : 0 < s.sem := by
      simp only [Pool.executing] at h1
      omega
    refine ⟨{ s with sem := s.sem - 1, tasks := s.tasks.set i (sf, .finish ok) },
      by simp only [Pool.step, ht, hsem, if_true], ?_, ?_, hget i _ ht _⟩
    · show s.sem - 1 + 1 = s.sem
      omega
    · have := filter_length_set_drop (fun t : config.StaticFriend × TaskPC => t.2.holdsSlot)
        s.tasks i (sf, .release ok) (sf, .finish ok) ht rfl rfl
      simp only [Pool.executing]
      exact this
  · intro i sf ok ht
    have hpos := filter_length_pos (fun t : config.StaticFriend × TaskPC => t.2.pending)
      s.tasks i _ ht rfl
    have hwg : 0 < s.wg := by omega
    refine ⟨{ s with wg := s.wg - 1, tasks := s.tasks.set i (sf, .exited ok) },
      by simp only [Pool.step, ht, hwg, if_true], ?_, hget i _ ht _⟩
    show s.wg - 1 + 1 = s.wg
    omega
  · intro hpc
    have hw : s.pc.pastWait = true := by
      rcases hpc with hpc | hpc <;> rw [hpc] <;> rfl
    have hl : s.pc.pastLoop = true := by
      rcases hpc with hpc | hpc <;> rw [hpc] <;> rfl
    have hin : s.pc.inHand = [] := by
      rcases hpc with hpc | hpc <;> rw [hpc] <;> rfl
    have hall := h6 hw
    have hnone : ∀ (p : TaskPC → Bool), (∀ ok, p (.exited ok) = false) →
        s.tasks.filter (fun t => p t.2) = [] := by
      intro p hp
      rw [List.filter_eq_nil_iff]
      intro t ht
      have hpend := hall t ht
      cases htp : t.2 with
      | exited ok => simp [hp ok]
      | run => rw [htp] at hpend; cases hpend
      | release ok => rw [htp] at hpend; cases hpend
      | finish ok => rw [htp] at hpend; cases hpend
    refine ⟨h5 hl, ?_, ?_, ?_, ?_⟩
    · rw [h4, hin, h5 hl]
      simp
    · intro t ht
      have hpend := hall t ht
      cases htp : t.2 with
      | exited ok => exact ⟨ok, rfl⟩
      | run => rw [htp] at hpend; cases hpend
      | release ok => rw [htp] at hpend; cases hpend
      | finish ok => rw [htp] at hpend; cases hpend
    · simp only [Pool.executing]
      rw [hnone TaskPC.holdsSlot (fun _ => rfl)]
      rfl
    · rw [h3, hin, hnone TaskPC.pending (fun _ => rfl)]
      rfl

/-- Witness for C23: three roster entries and two slots.  After the first seven steps of
`Run` two tasks are executing and the admission of the third entry is blocked; after the
first task has ended without success and released its slot the third is admitted; at the
clean-up all three tasks have ended. -/
theorem Pool_bounded_fanout_witness :
    (Pool.init 2 demo.roster3).exec demo.scheduleFull = some demo.poolFull ∧
    demo.poolFull.executing = 2 ∧ demo.poolFull.cap = 2 ∧
    demo.poolFull.step .main = none ∧
    ((Pool.init 2 demo.roster3).exec (demo.scheduleFull ++ demo.scheduleDrain)).map
        (fun s => (s.pc, s.executing, s.tasks.map fun t => t.2)) =
      some (.returned, 0, [.exited false, .exited true, .exited true]) ∧
    ((Pool.init 0 demo.roster3).exec [.main, .main, .main, .main]).map
        (fun s => (s.cap, s.executing, s.step .main)) = some (1, 1, none) := by
  have h := Pool_bounded_fanout 2 demo.roster3 demo.scheduleFull demo.poolFull (by decide)
  exact ⟨by decide, by decide, by decide,
    (h.2.2.2.1 _ rfl).mpr (by decide), by decide, by decide⟩

end aggregate

/-! ## The stored text of a time and the order of instants -/

namespace strings

/-- Equal first characters are passed over. -/
theorem lessL_cons_self (c : Char) (r r' : List Char) : lessL (c :: r) (c :: r') = lessL r r' := by
  simp [lessL]

/-- No text is below itself. -/
theorem lessL_irrefl : ∀ l : List Char, lessL l l = false := by
  intro l
  induction l with
  | nil => rfl
  | cons c t ih => rw [lessL_cons_self, ih]

/-- No text is below the empty text. -/
theorem lessL_nil_right (l : List Char) : lessL l [] = false := by
  cases l <;> rfl

end strings

namespace gotime
open strings

/-- The digits are in their order. -/
theorem digit_facts : ∀ i < 10, ∀ j < 10,
    (digit i < digit j ↔ i < j) ∧ (digit i = digit j ↔ i = j) := by
  decide

/-- Comparing two texts that start with one digit each. -/
theorem lessL_digit (i j : Nat) (hi : i < 10) (hj : j < 10) (r r' : List Char) :
    lessL (digit i :: r) (digit j :: r') = if i = j then lessL r r' else decide (i < j) := by
  obtain ⟨hlt, heq⟩ := digit_facts i hi j hj
  by_cases h : i = j
  · subst h
    simp [lessL]
  · have hne : digit i ≠ digit j := fun e => h (heq.1 e)
    simp only [lessL, h, if_false, hne, decide_False, Bool.false_and, Bool.or_false]
    by_cases hl : i < j
    · simp [hl, hlt.2 hl]
    · have : ¬ digit i < digit j := fun e => hl (hlt.1 e)
      simp [hl, this]

/-- The digit of a number is the digit of its last decimal place. -/
theorem digit_mod (n : Nat) : digit n = digit (n % 10) := by
  simp [digit]

/-- Comparing two texts that start with two-digit numbers. -/
theorem lessL_pad2 (n m : Nat) (hn : n < 100) (hm : m < 100) (r r' : List Char) :
    lessL (pad2 n ++ r) (pad2 m ++ r') = if n = m then lessL r r' else decide (n < m) := by
  simp only [pad2, List.cons_append, List.nil_append]
  rw [lessL_digit (n / 10) (m / 10) (by omega) (by omega), digit_mod n, digit_mod m,
    lessL_digit (n % 10) (m % 10) (by omega) (by omega)]
  by_cases h1 : n / 10 = m / 10
  · by_cases h2 : n % 10 = m % 10
    · have : n = m := by omega
      simp [h1, h2, this]
    · have hne : n ≠ m := by omega
      have hiff : n % 10 < m % 10 ↔ n < m := by omega
      simp [h1, h2, hne, hiff]
  · have hne : n ≠ m := by omega
    have hiff : n / 10 < m / 10 ↔ n < m := by omega
    simp [h1, hne, hiff]

/-- Comparing two texts that start with years of four digits. -/
theorem lessL_pad4 (y z : Int) (hy : 0 ≤ y ∧ y < 10000) (hz : 0 ≤ z ∧ z < 10000)
    (r r' : List Char) :
    lessL (pad4 y ++ r) (pad4 z ++ r') = if y = z then lessL r r' else decide (y < z) := by
  have hyn : y.natAbs < 10000 := by omega
  have hzn : z.natAbs < 10000 := by omega
  have hy0 : ¬ y < 0 := by omega
  have hz0 : ¬ z < 0 := by omega
  simp only [pad4, hyn, hzn, hy0, hz0, if_true, if_false, List.cons_append, List.nil_append]
  generalize hn : y.natAbs = n at *
  generalize hm : z.natAbs = m at *
  have hyn' : y = n := by omega
  have hzm' : z = m := by omega
  subst hyn' hzm'
  rw [lessL_digit (n / 1000) (m / 1000) (by omega) (by omega),
    digit_mod (n / 100), digit_mod (m / 100),
    lessL_digit (n / 100 % 10) (m / 100 % 10) (by omega) (by omega),
    digit_mod (n / 10), digit_mod (m / 10),
    lessL_digit (n / 10 % 10) (m / 10 % 10) (by omega) (by omega),
    digit_mod n, digit_mod m,
    lessL_digit (n % 10) (m % 10) (by omega) (by omega)]
  by_cases h1 : n / 1000 = m / 1000
  · by_cases h2 : n / 100 % 10 = m / 100 % 10
    · by_cases h3 : n / 10 % 10 = m / 10 % 10
      · by_cases h4 : n % 10 = m % 10
        · have : n = m := by omega
          simp [h1, h2, h3, h4, this]
        · have hne : (n : Int) ≠ m := by omega
          have hiff : n % 10 < m % 10 ↔ (n : Int) < m := by omega
          simp [h1, h2, h3, h4, hne, hiff]
      · have hne : (n : Int) ≠ m := by omega
        have hiff : n / 10 % 10 < m / 10 % 10 ↔ (n : Int) < m := by omega
        simp [h1, h2, h3, hne, hiff]
    · have hne : (n : Int) ≠ m := by omega
      have hiff : n / 100 % 10 < m / 100 % 10 ↔ (n : Int) < m := by omega
      simp [h1, h2, hne, hiff]
  · have hne : (n : Int) ≠ m := by omega
    have hiff : n / 1000 < m / 1000 ↔ (n : Int) < m := by omega
    simp [h1, hne, hiff]


/-- The cutting of the cycles in `absDate`, with names for the parts. -/
theorem cycles (d : Int) :
    ∃ a b e f yd : Int, 0 ≤ b ∧ b ≤ 3 ∧ 0 ≤ e ∧ e ≤ 24 ∧ 0 ≤ f ∧ f ≤ 3 ∧ 0 ≤ yd ∧ yd ≤ 365 ∧
      (yd = 365 → f = 3 ∧ (e = 24 → b = 3)) ∧
      d = 146097 * a + 36524 * b + 1461 * e + 365 * f + yd ∧
      absDate d = (400 * a + 100 * b + 4 * e + f + 1,
        monthDayFrom (monthLengths (isLeap (400 * a + 100 * b + 4 * e + f + 1))) 1 yd.toNat) := by
  have hr0 : 0 ≤ d % 146097 := Int.emod_nonneg _ (by decide)
  have hr1 : d % 146097 < 146097 := Int.emod_lt_of_pos _ (by decide)
  have hd : d = 146097 * (d / 146097) + d % 146097 := (Int.ediv_add_emod d 146097).symm
  generalize hrd : d % 146097 = r at hr0 hr1 hd
  refine ⟨d / 146097, r / 36524 - r / 36524 / 4,
    (r - 36524 * (r / 36524 - r / 36524 / 4)) / 1461,
    (r - 36524 * (r / 36524 - r / 36524 / 4) -
        1461 * ((r - 36524 * (r / 36524 - r / 36524 / 4)) / 1461)) / 365 -
      (r - 36524 * (r / 36524 - r / 36524 / 4) -
        1461 * ((r - 36524 * (r / 36524 - r / 36524 / 4)) / 1461)) / 365 / 4,
    r - 36524 * (r / 36524 - r / 36524 / 4) -
        1461 * ((r - 36524 * (r / 36524 - r / 36524 / 4)) / 1461) -
      365 * ((r - 36524 * (r / 36524 - r / 36524 / 4) -
        1461 * ((r - 36524 * (r / 36524 - r / 36524 / 4)) / 1461)) / 365 -
      (r - 36524 * (r / 36524 - r / 36524 / 4) -
        1461 * ((r - 36524 * (r / 36524 - r / 36524 / 4)) / 1461)) / 365 / 4), ?_⟩
  have hq : 0 ≤ r / 36524 ∧ r / 36524 ≤ 4 := by omega
  generalize hqd : r / 36524 = q at *
  have hb : 0 ≤ q - q / 4 ∧ q - q / 4 ≤ 3 ∧ (q = 4 → q - q / 4 = 3) ∧ (q ≤ 3 → q - q / 4 = q) := by
    omega
  generalize hbd : q - q / 4 = b at *
  have hd2 : 0 ≤ r - 36524 * b ∧ r - 36524 * b ≤ 36524 ∧ (b ≤ 2 → r - 36524 * b ≤ 36523) := by
    omega
  generalize hd2d : r - 36524 * b = d2 at *
  have he : 0 ≤ d2 / 1461 ∧ d2 / 1461 ≤ 24 := by omega
  generalize hed : d2 / 1461 = e at *
  have hd3 : 0 ≤ d2 - 1461 * e ∧ d2 - 1461 * e ≤ 1460 ∧
      (e = 24 → b ≤ 2 → d2 - 1461 * e ≤ 1459) := by omega
  generalize hd3d : d2 - 1461 * e = d3 at *
  have hq1 : 0 ≤ d3 / 365 ∧ d3 / 365 ≤ 4 := by omega
  generalize hq1d : d3 / 365 = q1 at *
  have hf : 0 ≤ q1 - q1 / 4 ∧ q1 - q1 / 4 ≤ 3 ∧ (q1 = 4 → q1 - q1 / 4 = 3) ∧
      (q1 ≤ 3 → q1 - q1 / 4 = q1) := by omega
  generalize hfd : q1 - q1 / 4 = f at *
  have hyd : 0 ≤ d3 - 365 * f ∧ d3 - 365 * f ≤ 365 ∧ (d3 - 365 * f = 365 → d3 = 1460 ∧ f = 3) := by
    omega
  refine ⟨hb.1, hb.2.1, he.1, he.2, hf.1, hf.2.1, hyd.1, hyd.2.1, ?_, ?_, ?_⟩
  · intro h
    have := hyd.2.2 h
    refine ⟨this.2, ?_⟩
    intro he24
    omega
  · omega
  · subst hfd hq1d hd3d hed hd2d hbd hqd hrd
    rfl

set_option maxRecDepth 100000 in
/-- From one day of a year to the next, the month and the day of the month go up, taken
together as the number `100 * month + day`; and both stay below 100. -/
theorem monthDay_succ : ∀ leap : Bool, ∀ yd < 366,
    (monthDayFrom (monthLengths leap) 1 yd).1 < 100 ∧
    (monthDayFrom (monthLengths leap) 1 yd).2 < 100 ∧
    (monthDayFrom (monthLengths leap) 1 yd).1 * 100 + (monthDayFrom (monthLengths leap) 1 yd).2 <
      (monthDayFrom (monthLengths leap) 1 (yd + 1)).1 * 100 +
        (monthDayFrom (monthLengths leap) 1 (yd + 1)).2 := by
  decide

/-- A later day of a year has the later month, or the same month and the later day. -/
theorem monthDay_lt (leap : Bool) (yd yd' : Nat) (h : yd < yd') (h' : yd' ≤ 366) :
    (monthDayFrom (monthLengths leap) 1 yd).1 * 100 + (monthDayFrom (monthLengths leap) 1 yd).2 <
      (monthDayFrom (monthLengths leap) 1 yd').1 * 100 +
        (monthDayFrom (monthLengths leap) 1 yd').2 := by
  induction yd' with
  | zero => omega
  | succ k ih =>
    have hk := (monthDay_succ leap k (by omega)).2.2
    by_cases hyk : yd = k
    · subst hyk
      exact hk
    · exact lt_trans (ih (by omega) (by omega)) hk


/-- In the years 1 to 9999 the year has four digits, and month and day two. -/
theorem absDate_range (d : Int) (h0 : 0 ≤ d) (h1 : d < 3652059) :
    (0 ≤ (absDate d).1 ∧ (absDate d).1 < 10000) ∧ (absDate d).2.1 < 100 ∧ (absDate d).2.2 < 100 := by
  obtain ⟨a, b, e, f, yd, hb0, hb, he0, he, hf0, hf, hyd0, hyd, hl, hd, hc⟩ := cycles d
  rw [hc]
  have hyn : yd.toNat < 366 := by omega
  have hm := monthDay_succ (isLeap (400 * a + 100 * b + 4 * e + f + 1)) yd.toNat hyn
  refine ⟨?_, hm.1, hm.2.1⟩
  dsimp only
  omega

/-- A later day has the later date: the later year, or the same year and the later month,
or the same year and month and the later day. -/
theorem absDate_lt (d d' : Int) (h : d < d') :
    (absDate d).1 < (absDate d').1 ∨
    ((absDate d).1 = (absDate d').1 ∧
      ((absDate d).2.1 < (absDate d').2.1 ∨
       ((absDate d).2.1 = (absDate d').2.1 ∧ (absDate d).2.2 < (absDate d').2.2))) := by
  obtain ⟨a, b, e, f, yd, hb0, hb, he0, he, hf0, hf, hyd0, hyd, hl, hd, hc⟩ := cycles d
  obtain ⟨a', b', e', f', yd', hb0', hb', he0', he', hf0', hf', hyd0', hyd', hl', hd', hc'⟩ :=
    cycles d'
  rw [hc, hc']
  dsimp only
  have hy : 400 * a + 100 * b + 4 * e + f + 1 < 400 * a' + 100 * b' + 4 * e' + f' + 1 ∨
      (400 * a + 100 * b + 4 * e + f + 1 = 400 * a' + 100 * b' + 4 * e' + f' + 1 ∧ yd < yd') := by
    omega
  rcases hy with hy | ⟨hy, hlt⟩
  · exact Or.inl hy
  · refine Or.inr ⟨hy, ?_⟩
    rw [hy]
    have hm := monthDay_lt (isLeap (400 * a' + 100 * b' + 4 * e' + f' + 1)) yd.toNat yd'.toNat
      (by omega) (by omega)
    have hb1 := (monthDay_succ (isLeap (400 * a' + 100 * b' + 4 * e' + f' + 1)) yd.toNat
      (by omega)).2.1
    have hb2 := (monthDay_succ (isLeap (400 * a' + 100 * b' + 4 * e' + f' + 1)) yd'.toNat
      (by omega)).2.1
    omega


/-- The wall clock text with what follows it, group by group. -/
theorem wallClock_append (t : Int) (r : List Char) :
    wallClock t ++ r =
      pad4 (absDate (t / 86400)).1 ++ ('-' :: (pad2 (absDate (t / 86400)).2.1 ++
        ('-' :: (pad2 (absDate (t / 86400)).2.2 ++ (' ' :: (pad2 ((t % 86400).toNat / 3600) ++
          (':' :: (pad2 ((t % 86400).toNat % 3600 / 60) ++
            (':' :: (pad2 ((t % 86400).toNat % 60) ++ r)))))))))) := by
  simp only [wallClock, List.append_assoc, List.cons_append]

/-- Comparing two texts that start with wall clocks of the years 1 to 9999 compares the
dates, then the times of day, then what follows. -/
theorem lessL_wallClock_fields (a b : Int) (ha : 0 ≤ a ∧ a < 315537897600)
    (hb : 0 ≤ b ∧ b < 315537897600) (r r' : List Char) :
    lessL (wallClock a ++ r) (wallClock b ++ r') =
      if (absDate (a / 86400)).1 = (absDate (b / 86400)).1 then
        if (absDate (a / 86400)).2.1 = (absDate (b / 86400)).2.1 then
          if (absDate (a / 86400)).2.2 = (absDate (b / 86400)).2.2 then
            if (a % 86400).toNat / 3600 = (b % 86400).toNat / 3600 then
              if (a % 86400).toNat % 3600 / 60 = (b % 86400).toNat % 3600 / 60 then
                if (a % 86400).toNat % 60 = (b % 86400).toNat % 60 then lessL r r'
                else decide ((a % 86400).toNat % 60 < (b % 86400).toNat % 60)
              else decide ((a % 86400).toNat % 3600 / 60 < (b % 86400).toNat % 3600 / 60)
            else decide ((a % 86400).toNat / 3600 < (b % 86400).toNat / 3600)
          else decide ((absDate (a / 86400)).2.2 < (absDate (b / 86400)).2.2)
        else decide ((absDate (a / 86400)).2.1 < (absDate (b / 86400)).2.1)
      else decide ((absDate (a / 86400)).1 < (absDate (b / 86400)).1) := by
  obtain ⟨hya, hma, hda⟩ := absDate_range (a / 86400) (by omega) (by omega)
  obtain ⟨hyb, hmb, hdb⟩ := absDate_range (b / 86400) (by omega) (by omega)
  rw [wallClock_append, wallClock_append, lessL_pad4 _ _ hya hyb, lessL_cons_self,
    lessL_pad2 _ _ hma hmb, lessL_cons_self, lessL_pad2 _ _ hda hdb, lessL_cons_self,
    lessL_pad2 _ _ (by omega) (by omega), lessL_cons_self,
    lessL_pad2 _ _ (by omega) (by omega), lessL_cons_self,
    lessL_pad2 _ _ (by omega) (by omega)]

/-- Among texts that start with wall clocks of the years 1 to 9999, the order of the texts
is the order of the seconds shown, and that of what follows when the wall clocks are the
same. -/
theorem lessL_wallClock (a b : Int) (ha : 0 ≤ a ∧ a < 315537897600)
    (hb : 0 ≤ b ∧ b < 315537897600) (r r' : List Char) :
    lessL (wallClock a ++ r) (wallClock b ++ r') =
      if a = b then lessL r r' else decide (a < b) := by
  rw [lessL_wallClock_fields a b ha hb]
  by_cases hab : a = b
  · subst hab
    simp
  · rw [if_neg hab]
    have hsa : ((a % 86400).toNat : Int) = a % 86400 := Int.toNat_of_nonneg (by omega)
    have hsb : ((b % 86400).toNat : Int) = b % 86400 := Int.toNat_of_nonneg (by omega)
    generalize (a % 86400).toNat = sa at *
    generalize (b % 86400).toNat = sb at *
    have hsa' : sa < 86400 := by omega
    have hsb' : sb < 86400 := by omega
    by_cases hd : a / 86400 = b / 86400
    · rw [hd]
      simp only [if_true]
      have hs : sa ≠ sb := by omega
      by_cases hlt : a < b
      · have hslt : sa < sb := by omega
        rw [decide_eq_true hlt]
        by_cases h1 : sa / 3600 = sb / 3600
        · by_cases h2 : sa % 3600 / 60 = sb % 3600 / 60
          · have h3 : sa % 60 ≠ sb % 60 := by omega
            have h4 : sa % 60 < sb % 60 := by omega
            simp [h1, h2, h3, h4]
          · have h4 : sa % 3600 / 60 < sb % 3600 / 60 := by omega
            simp [h1, h2, h4]
        · have h4 : sa / 3600 < sb / 3600 := by omega
          simp [h1, h4]
      · have hslt : sb < sa := by omega
        rw [decide_eq_false hlt]
        by_cases h1 : sa / 3600 = sb / 3600
        · by_cases h2 : sa % 3600 / 60 = sb % 3600 / 60
          · have h3 : sa % 60 ≠ sb % 60 := by omega
            have h4 : ¬ sa % 60 < sb % 60 := by omega
            simp [h1, h2, h3, h4]
          · have h4 : ¬ sa % 3600 / 60 < sb % 3600 / 60 := by omega
            simp [h1, h2, h4]
        · have h4 : ¬ sa / 3600 < sb / 3600 := by omega
          simp [h1, h4]
    · by_cases hlt : a < b
      · have hdlt : a / 86400 < b / 86400 := by omega
        rw [decide_eq_true hlt]
        rcases absDate_lt _ _ hdlt with h | ⟨h1, h | ⟨h2, h⟩⟩
        · simp [ne_of_lt h, h]
        · simp [h1, ne_of_lt h, h]
        · simp [h1, h2, ne_of_lt h, h]
      · have hdlt : b / 86400 < a / 86400 := by omega
        rw [decide_eq_false hlt]
        rcases absDate_lt _ _ hdlt with h | ⟨h1, h | ⟨h2, h⟩⟩
        · simp [ne_of_gt h, not_lt_of_gt h]
        · simp [h1, ne_of_gt h, not_lt_of_gt h]
        · simp [h1, h2, ne_of_gt h, not_lt_of_gt h]

end gotime

namespace sort

/-- Inserting into a list depends on the order only through the comparisons with the
elements of the list. -/
theorem orderedInsert_congr {α : Type} (r r' : α → α → Prop) [DecidableRel r] [DecidableRel r']
    (a : α) : ∀ l : List α, (∀ b ∈ l, (r a b ↔ r' a b)) →
      l.orderedInsert r a = l.orderedInsert r' a := by
  intro l
  induction l with
  | nil => intro _; rfl
  | cons b t ih =>
    intro h
    have hb := h b (List.mem_cons_self _ _)
    have ht := ih (fun c hc => h c (List.mem_cons_of_mem _ hc))
    by_cases hr : r a b
    · simp [List.orderedInsert, hr, hb.1 hr]
    · have hr' : ¬ r' a b := fun e => hr (hb.2 e)
      simp [List.orderedInsert, hr, hr', ht]

/-- Sorting depends on the order only through the comparisons of the elements of the
list. -/
theorem insertionSort_congr {α : Type} (r r' : α → α → Prop) [DecidableRel r] [DecidableRel r'] :
    ∀ l : List α, (∀ a ∈ l, ∀ b ∈ l, (r a b ↔ r' a b)) →
      l.insertionSort r = l.insertionSort r' := by
  intro l
  induction l with
  | nil => intro _; rfl
  | cons a t ih =>
    intro h
    have ht := ih (fun x hx y hy => h x (List.mem_cons_of_mem _ hx) y (List.mem_cons_of_mem _ hy))
    simp only [List.insertionSort]
    rw [ht]
    apply orderedInsert_congr
    intro b hb
    have hb' : b ∈ t := (List.perm_insertionSort r' t).mem_iff.mp hb
    exact h a (List.mem_cons_self _ _) b (List.mem_cons_of_mem _ hb')

/-- Two comparisons that agree on the elements of a list sort it alike. -/
theorem Slice_congr {α : Type} (less less' : α → α → Bool) (x : List α)
    (h : ∀ a ∈ x, ∀ b ∈ x, less a b = less' a b) : Slice less x = Slice less' x := by
  unfold Slice
  apply insertionSort_congr
  intro a ha b hb
  rw [h b hb a ha]

end sort

namespace store
open strings

/-- The text the driver stores for a time of the years 1 to 9999 starts with the wall clock
of its location; so among times carried in one location the order of the texts is the
order of the instants. -/
theorem String_Less_same_zone (z : gotime.Zone) (a b : Time)
    (ha : 0 ≤ a + z.offset ∧ a + z.offset < 315537897600)
    (hb : 0 ≤ b + z.offset ∧ b + z.offset < 315537897600) :
    Less (gotime.Time.String a z) (gotime.Time.String b z) = decide (a < b) := by
  unfold Less gotime.Time.String
  simp only [List.append_assoc]
  rw [gotime.lessL_wallClock _ _ ha hb, lessL_irrefl]
  by_cases h : a = b
  · subst h
    simp
  · have h' : a + z.offset ≠ b + z.offset := fun e => h (add_right_cancel e)
    have hiff : a + z.offset < b + z.offset ↔ a < b := add_lt_add_iff_right _
    simp [h', hiff]

/-- Compared with the text of `datetime`, the stored text of a time is below it exactly
when the wall clock of its location shows an earlier second than the UTC wall clock of the
other instant. -/
theorem String_Less_datetime (z : gotime.Zone) (a limit : Time)
    (ha : 0 ≤ a + z.offset ∧ a + z.offset < 315537897600)
    (hl : 0 ≤ limit ∧ limit < 315537897600) :
    Less (gotime.Time.String a z) (sqlite.datetime limit) = decide (a + z.offset < limit) := by
  unfold Less gotime.Time.String sqlite.datetime
  simp only [List.append_assoc]
  have := gotime.lessL_wallClock (a + z.offset) limit ha hl
    (' ' :: (gotime.zoneOffset z.offset ++
      ' ' :: (if z.name ≠ "" then z.name.data else gotime.zoneOffset z.offset))) []
  rw [List.append_nil] at this
  rw [List.cons_append, this, lessL_nil_right]
  by_cases h : a + z.offset = limit
  · simp [h]
  · simp [h]

/-- What `CleanOldPosts` deletes, in instants, for times of the years 1 to 9999: the posts
whose wall clock, in the location the creation time is carried in, shows an earlier second
than the UTC wall clock `days` days before `now`; that is the posts created more than the
offset of their location before the limit. -/
theorem CleanOldPosts_by_wall_clock (s : SQLite) (zone : model.Post → gotime.Zone) (now : Time)
    (days : Int) (hdays : 0 < days)
    (hl : 0 ≤ now - days * 86400 ∧ now - days * 86400 < 315537897600)
    (hr : ∀ p ∈ s.posts, 0 ≤ p.Created + (zone p).offset ∧
      p.Created + (zone p).offset < 315537897600) (p : model.Post) :
    p ∈ (s.CleanOldPosts zone now days).1.posts ↔
      p ∈ s.posts ∧ ¬ p.Created + (zone p).offset < now - days * 86400 := by
  rw [(CleanOldPosts_keeps s zone now days hdays).2.2.1 p]
  constructor
  · rintro ⟨hp, hless⟩
    refine ⟨hp, ?_⟩
    rw [createdText, String_Less_datetime _ _ _ (hr p hp) hl] at hless
    simpa using hless
  · rintro ⟨hp, hnot⟩
    refine ⟨hp, ?_⟩
    rw [createdText, String_Less_datetime _ _ _ (hr p hp) hl]
    simpa using hnot

/-- When every stored creation time is carried in UTC (and times are of the years 1 to
9999), `CleanOldPosts` with a retention of `days > 0` days deletes every post created
before `now - days` days and keeps every other post: a post created one second before the
limit is deleted and one created one second after it is kept. -/
theorem CleanOldPosts_of_UTC (s : SQLite) (zone : model.Post → gotime.Zone) (now : Time)
    (days : Int) (hdays : 0 < days)
    (hl : 0 ≤ now - days * 86400 ∧ now - days * 86400 < 315537897600)
    (hz : ∀ p ∈ s.posts, zone p = gotime.UTC)
    (hr : ∀ p ∈ s.posts, 0 ≤ p.Created ∧ p.Created < 315537897600) :
    (∀ p, p ∈ (s.CleanOldPosts zone now days).1.posts ↔
      p ∈ s.posts ∧ ¬ p.Created < now - days * 86400) ∧
    (∀ p ∈ s.posts, p.Created = now - days * 86400 - 1 →
      p ∉ (s.CleanOldPosts zone now days).1.posts) ∧
    (∀ p ∈ s.posts, p.Created = now - days * 86400 + 1 →
      p ∈ (s.CleanOldPosts zone now days).1.posts) := by
  have hr' : ∀ p ∈ s.posts, 0 ≤ p.Created + (zone p).offset ∧
      p.Created + (zone p).offset < 315537897600 := by
    intro p hp
    rw [hz p hp]
    simpa [gotime.UTC] using hr p hp
  have hmem : ∀ p, p ∈ (s.CleanOldPosts zone now days).1.posts ↔
      p ∈ s.posts ∧ ¬ p.Created < now - days * 86400 := by
    intro p
    rw [CleanOldPosts_by_wall_clock s zone now days hdays hl hr' p]
    constructor
    · rintro ⟨hp, h⟩
      rw [hz p hp] at h
      exact ⟨hp, by simpa [gotime.UTC] using h⟩
    · rintro ⟨hp, h⟩
      refine ⟨hp, ?_⟩
      rw [hz p hp]
      simpa [gotime.UTC] using h
  refine ⟨hmem, ?_, ?_⟩
  · intro p _ he hp
    exact ((hmem p).mp hp).2 (by rw [he]; exact Int.sub_one_lt_of_le le_rfl)
  · intro p hp he
    exact (hmem p).mpr ⟨hp, not_lt.mpr (by rw [he]; exact Int.le_add_one le_rfl)⟩

/-- When every stored creation time is carried in one location (and times are of the years
1 to 9999), the listing of the store is in the order of the instants, latest first. -/
theorem ListPosts_one_zone (s : SQLite) (zone : model.Post → gotime.Zone) (z : gotime.Zone)
    (hz : ∀ p ∈ s.posts, zone p = z)
    (hr : ∀ p ∈ s.posts, 0 ≤ p.Created + z.offset ∧ p.Created + z.offset < 315537897600) :
    s.ListPosts zone = sort.Slice (fun a b => decide (a.Created > b.Created)) s.posts := by
  unfold SQLite.ListPosts
  apply sort.Slice_congr
  intro a ha b hb
  rw [createdText, createdText, hz a ha, hz b hb,
    String_Less_same_zone z b.Created a.Created (hr b hb) (hr a ha)]

end store

namespace export_

/-- The export of a store whose creation times are pairwise distinct and carried in one
location (and of the years 1 to 9999): the posts `ToJSON` writes are `min n 150` of the `n`
stored articles, in descending order of creation time, and each of them was created later
than every stored article that is not exported. -/
theorem ToJSON_one_zone_keeps_latest (now : Time) (zone : model.Post → gotime.Zone)
    (z : gotime.Zone) (s : store.SQLite) (hz : ∀ p ∈ s.posts, zone p = z)
    (hr : ∀ p ∈ s.posts, 0 ≤ p.Created + z.offset ∧ p.Created + z.offset < 315537897600)
    (hs : (s.posts.map fun p => p.Created).Nodup) :
    (ToJSON now zone s).Posts.length = min s.posts.length 150 ∧
    (ToJSON now zone s).Posts.Sorted (fun x y => x.Created > y.Created) ∧
    (∀ p ∈ (ToJSON now zone s).Posts, p ∈ s.posts) ∧
    (∀ p ∈ (ToJSON now zone s).Posts, ∀ q ∈ s.posts,
      q ∉ (ToJSON now zone s).Posts → q.Created < p.Created) :=
  cap_latest s.posts (s.ListPosts zone)
    (by rw [store.ListPosts_one_zone s zone z hz hr]; exact sort.Slice_perm _ _)
    (by rw [store.ListPosts_one_zone s zone z hz hr]; exact sort.Slice_byCreated_strict _ hs)

end export_
